import Mathlib

/-!
# CustommovieAPI: the catalog search core of `api/movie.js`

A shallow embedding of `api/movie.js` without its request handler (text
normalisation, URL extraction and selection, the line-oriented catalog parser,
the scoring and ranking of `searchMovies`) and the properties of it that the
specification states.

## Strings

A JavaScript string is a sequence of UTF-16 code units; it is embedded as
`Str = List Nat`, one number per code unit.  The regular expressions of the
source carry no `u` flag, so they too work code unit by code unit.  An absent
argument (`null`/`undefined`) is `none` of `Option Str`.

## Numbers

A Number is a double.  The scores are small integers and stay `Nat`; the
quotient inside a score is rounded as a double (`roundToDouble`).  The index of
an entry comes from `parseInt` on a digit run of any length, so it is a
`JsNumber`: an integer rounded to the nearest double, or `Infinity`.
-/

namespace MovieApi

/-- A JavaScript string: its UTF-16 code units. -/
abbrev Str := List Nat

/-- The code units of a string literal (a character above U+FFFF gives its
surrogate pair). -/
def units (s : String) : Str :=
  s.toList.flatMap fun c =>
    if c.toNat < 65536 then [c.toNat]
    else [55296 + (c.toNat - 65536) / 1024, 56320 + (c.toNat - 65536) % 1024]

/-! ## Character classes -/

/-- The class `\s` of a JavaScript regular expression, which is also the set
that `String.prototype.trim` removes: TAB, LF, VT, FF, CR, space, U+00A0,
U+1680, U+2000..U+200A, U+2028, U+2029, U+202F, U+205F, U+3000, U+FEFF. -/
def isWs (c : Nat) : Bool :=
  (9 ≤ c && c ≤ 13) || c == 32 || c == 160 || c == 5760 ||
  (8192 ≤ c && c ≤ 8202) || c == 8232 || c == 8233 || c == 8239 ||
  c == 8287 || c == 12288 || c == 65279

/-- The class `[a-z]`. -/
def isLowerAz (c : Nat) : Bool := 97 ≤ c && c ≤ 122

/-- The class `[A-Z]`. -/
def isUpperAz (c : Nat) : Bool := 65 ≤ c && c ≤ 90

/-- The class `[0-9]`, which is `\d`. -/
def isDigit (c : Nat) : Bool := 48 ≤ c && c ≤ 57

/-- The class `[a-z0-9]`. -/
def isAlnumLower (c : Nat) : Bool := isLowerAz c || isDigit c

/-- The four curly quotes U+2018, U+2019, U+201C, U+201D. -/
def isCurlyQuote (c : Nat) : Bool := c == 8216 || c == 8217 || c == 8220 || c == 8221

/-- The line terminators LF, CR, U+2028, U+2029: what `.` does not match. -/
def isLineTerminator (c : Nat) : Bool := c == 10 || c == 13 || c == 8232 || c == 8233

/-! ## The case tables of Unicode

`String.prototype.toLowerCase` follows the default case conversion of the
Unicode standard (`UnicodeData.txt` and the unconditional, language-independent
part of `SpecialCasing.txt`).  The tables below are those of Unicode 14.0; an
engine has the tables of its own Unicode version, which differ from these in
letters that were added later. -/

/-- The simple lower-case mappings outside ASCII, without U+0130 and U+212A:
`(first, last, step, target)` sends the code points `first`, `first + step`,
... up to `last` to `target`, `target + step`, ... -/
def lowerRules : List (Nat × Nat × Nat × Nat) :=
  [(192, 214, 1, 224), (216, 222, 1, 248), (256, 302, 2, 257), (306, 310, 2, 307),
   (313, 327, 2, 314), (330, 374, 2, 331), (376, 376, 1, 255), (377, 381, 2, 378),
   (385, 385, 1, 595), (386, 388, 2, 387), (390, 390, 1, 596), (391, 391, 1, 392),
   (393, 394, 1, 598), (395, 395, 1, 396), (398, 398, 1, 477), (399, 399, 1, 601),
   (400, 400, 1, 603), (401, 401, 1, 402), (403, 403, 1, 608), (404, 404, 1, 611),
   (406, 406, 1, 617), (407, 407, 1, 616), (408, 408, 1, 409), (412, 412, 1, 623),
   (413, 413, 1, 626), (415, 415, 1, 629), (416, 420, 2, 417), (422, 422, 1, 640),
   (423, 423, 1, 424), (425, 425, 1, 643), (428, 428, 1, 429), (430, 430, 1, 648),
   (431, 431, 1, 432), (433, 434, 1, 650), (435, 437, 2, 436), (439, 439, 1, 658),
   (440, 440, 1, 441), (444, 444, 1, 445), (452, 452, 1, 454), (453, 453, 1, 454),
   (455, 455, 1, 457), (456, 456, 1, 457), (458, 458, 1, 460), (459, 475, 2, 460),
   (478, 494, 2, 479), (497, 497, 1, 499), (498, 500, 2, 499), (502, 502, 1, 405),
   (503, 503, 1, 447), (504, 542, 2, 505), (544, 544, 1, 414), (546, 562, 2, 547),
   (570, 570, 1, 11365), (571, 571, 1, 572), (573, 573, 1, 410), (574, 574, 1, 11366),
   (577, 577, 1, 578), (579, 579, 1, 384), (580, 580, 1, 649), (581, 581, 1, 652),
   (582, 590, 2, 583), (880, 882, 2, 881), (886, 886, 1, 887), (895, 895, 1, 1011),
   (902, 902, 1, 940), (904, 906, 1, 941), (908, 908, 1, 972), (910, 911, 1, 973),
   (913, 929, 1, 945), (932, 939, 1, 964), (975, 975, 1, 983), (984, 1006, 2, 985),
   (1012, 1012, 1, 952), (1015, 1015, 1, 1016), (1017, 1017, 1, 1010), (1018, 1018, 1, 1019),
   (1021, 1023, 1, 891), (1024, 1039, 1, 1104), (1040, 1071, 1, 1072), (1120, 1152, 2, 1121),
   (1162, 1214, 2, 1163), (1216, 1216, 1, 1231), (1217, 1229, 2, 1218), (1232, 1326, 2, 1233),
   (1329, 1366, 1, 1377), (4256, 4293, 1, 11520), (4295, 4295, 1, 11559), (4301, 4301, 1, 11565),
   (5024, 5103, 1, 43888), (5104, 5109, 1, 5112), (7312, 7354, 1, 4304), (7357, 7359, 1, 4349),
   (7680, 7828, 2, 7681), (7838, 7838, 1, 223), (7840, 7934, 2, 7841), (7944, 7951, 1, 7936),
   (7960, 7965, 1, 7952), (7976, 7983, 1, 7968), (7992, 7999, 1, 7984), (8008, 8013, 1, 8000),
   (8025, 8031, 2, 8017), (8040, 8047, 1, 8032), (8072, 8079, 1, 8064), (8088, 8095, 1, 8080),
   (8104, 8111, 1, 8096), (8120, 8121, 1, 8112), (8122, 8123, 1, 8048), (8124, 8124, 1, 8115),
   (8136, 8139, 1, 8050), (8140, 8140, 1, 8131), (8152, 8153, 1, 8144), (8154, 8155, 1, 8054),
   (8168, 8169, 1, 8160), (8170, 8171, 1, 8058), (8172, 8172, 1, 8165), (8184, 8185, 1, 8056),
   (8186, 8187, 1, 8060), (8188, 8188, 1, 8179), (8486, 8486, 1, 969), (8491, 8491, 1, 229),
   (8498, 8498, 1, 8526), (8544, 8559, 1, 8560), (8579, 8579, 1, 8580), (9398, 9423, 1, 9424),
   (11264, 11311, 1, 11312), (11360, 11360, 1, 11361), (11362, 11362, 1, 619),
   (11363, 11363, 1, 7549), (11364, 11364, 1, 637), (11367, 11371, 2, 11368),
   (11373, 11373, 1, 593), (11374, 11374, 1, 625), (11375, 11375, 1, 592), (11376, 11376, 1, 594),
   (11378, 11378, 1, 11379), (11381, 11381, 1, 11382), (11390, 11391, 1, 575),
   (11392, 11490, 2, 11393), (11499, 11501, 2, 11500), (11506, 11506, 1, 11507),
   (42560, 42604, 2, 42561), (42624, 42650, 2, 42625), (42786, 42798, 2, 42787),
   (42802, 42862, 2, 42803), (42873, 42875, 2, 42874), (42877, 42877, 1, 7545),
   (42878, 42886, 2, 42879), (42891, 42891, 1, 42892), (42893, 42893, 1, 613),
   (42896, 42898, 2, 42897), (42902, 42920, 2, 42903), (42922, 42922, 1, 614),
   (42923, 42923, 1, 604), (42924, 42924, 1, 609), (42925, 42925, 1, 620), (42926, 42926, 1, 618),
   (42928, 42928, 1, 670), (42929, 42929, 1, 647), (42930, 42930, 1, 669),
   (42931, 42931, 1, 43859), (42932, 42946, 2, 42933), (42948, 42948, 1, 42900),
   (42949, 42949, 1, 642), (42950, 42950, 1, 7566), (42951, 42953, 2, 42952),
   (42960, 42960, 1, 42961), (42966, 42968, 2, 42967), (42997, 42997, 1, 42998),
   (65313, 65338, 1, 65345), (66560, 66599, 1, 66600), (66736, 66771, 1, 66776),
   (66928, 66964, 2, 66967), (66929, 66937, 2, 66968), (66941, 66953, 2, 66980),
   (66957, 66961, 2, 66996), (66965, 66965, 1, 67004), (68736, 68786, 1, 68800),
   (71840, 71871, 1, 71872), (93760, 93791, 1, 93792), (125184, 125217, 1, 125218)]

/-- The code points with the property `Case_Ignorable`, as closed ranges. -/
def caseIgnorableRanges : List (Nat × Nat) :=
  [(39, 39), (46, 46), (58, 58), (94, 94), (96, 96), (168, 168), (173, 173), (175, 175),
   (180, 180), (183, 184), (688, 879), (884, 885), (890, 890), (900, 901), (903, 903),
   (1155, 1161), (1369, 1369), (1375, 1375), (1425, 1469), (1471, 1471), (1473, 1474),
   (1476, 1477), (1479, 1479), (1524, 1524), (1536, 1541), (1552, 1562), (1564, 1564),
   (1600, 1600), (1611, 1631), (1648, 1648), (1750, 1757), (1759, 1768), (1770, 1773),
   (1807, 1807), (1809, 1809), (1840, 1866), (1958, 1968), (2027, 2037), (2042, 2042),
   (2045, 2045), (2070, 2093), (2137, 2139), (2184, 2184), (2192, 2193), (2200, 2207),
   (2249, 2306), (2362, 2362), (2364, 2364), (2369, 2376), (2381, 2381), (2385, 2391),
   (2402, 2403), (2417, 2417), (2433, 2433), (2492, 2492), (2497, 2500), (2509, 2509),
   (2530, 2531), (2558, 2558), (2561, 2562), (2620, 2620), (2625, 2626), (2631, 2632),
   (2635, 2637), (2641, 2641), (2672, 2673), (2677, 2677), (2689, 2690), (2748, 2748),
   (2753, 2757), (2759, 2760), (2765, 2765), (2786, 2787), (2810, 2815), (2817, 2817),
   (2876, 2876), (2879, 2879), (2881, 2884), (2893, 2893), (2901, 2902), (2914, 2915),
   (2946, 2946), (3008, 3008), (3021, 3021), (3072, 3072), (3076, 3076), (3132, 3132),
   (3134, 3136), (3142, 3144), (3146, 3149), (3157, 3158), (3170, 3171), (3201, 3201),
   (3260, 3260), (3263, 3263), (3270, 3270), (3276, 3277), (3298, 3299), (3328, 3329),
   (3387, 3388), (3393, 3396), (3405, 3405), (3426, 3427), (3457, 3457), (3530, 3530),
   (3538, 3540), (3542, 3542), (3633, 3633), (3636, 3642), (3654, 3662), (3761, 3761),
   (3764, 3772), (3782, 3782), (3784, 3789), (3864, 3865), (3893, 3893), (3895, 3895),
   (3897, 3897), (3953, 3966), (3968, 3972), (3974, 3975), (3981, 3991), (3993, 4028),
   (4038, 4038), (4141, 4144), (4146, 4151), (4153, 4154), (4157, 4158), (4184, 4185),
   (4190, 4192), (4209, 4212), (4226, 4226), (4229, 4230), (4237, 4237), (4253, 4253),
   (4348, 4348), (4957, 4959), (5906, 5908), (5938, 5939), (5970, 5971), (6002, 6003),
   (6068, 6069), (6071, 6077), (6086, 6086), (6089, 6099), (6103, 6103), (6109, 6109),
   (6155, 6159), (6211, 6211), (6277, 6278), (6313, 6313), (6432, 6434), (6439, 6440),
   (6450, 6450), (6457, 6459), (6679, 6680), (6683, 6683), (6742, 6742), (6744, 6750),
   (6752, 6752), (6754, 6754), (6757, 6764), (6771, 6780), (6783, 6783), (6823, 6823),
   (6832, 6862), (6912, 6915), (6964, 6964), (6966, 6970), (6972, 6972), (6978, 6978),
   (7019, 7027), (7040, 7041), (7074, 7077), (7080, 7081), (7083, 7085), (7142, 7142),
   (7144, 7145), (7149, 7149), (7151, 7153), (7212, 7219), (7222, 7223), (7288, 7293),
   (7376, 7378), (7380, 7392), (7394, 7400), (7405, 7405), (7412, 7412), (7416, 7417),
   (7468, 7530), (7544, 7544), (7579, 7679), (8125, 8125), (8127, 8129), (8141, 8143),
   (8157, 8159), (8173, 8175), (8189, 8190), (8203, 8207), (8216, 8217), (8228, 8228),
   (8231, 8231), (8234, 8238), (8288, 8292), (8294, 8303), (8305, 8305), (8319, 8319),
   (8336, 8348), (8400, 8432), (11388, 11389), (11503, 11505), (11631, 11631), (11647, 11647),
   (11744, 11775), (11823, 11823), (12293, 12293), (12330, 12333), (12337, 12341), (12347, 12347),
   (12441, 12446), (12540, 12542), (40981, 40981), (42232, 42237), (42508, 42508), (42607, 42610),
   (42612, 42621), (42623, 42623), (42652, 42655), (42736, 42737), (42752, 42785), (42864, 42864),
   (42888, 42890), (42994, 42996), (43000, 43001), (43010, 43010), (43014, 43014), (43019, 43019),
   (43045, 43046), (43052, 43052), (43204, 43205), (43232, 43249), (43263, 43263), (43302, 43309),
   (43335, 43345), (43392, 43394), (43443, 43443), (43446, 43449), (43452, 43453), (43471, 43471),
   (43493, 43494), (43561, 43566), (43569, 43570), (43573, 43574), (43587, 43587), (43596, 43596),
   (43632, 43632), (43644, 43644), (43696, 43696), (43698, 43700), (43703, 43704), (43710, 43711),
   (43713, 43713), (43741, 43741), (43756, 43757), (43763, 43764), (43766, 43766), (43867, 43871),
   (43881, 43883), (44005, 44005), (44008, 44008), (44013, 44013), (64286, 64286), (64434, 64450),
   (65024, 65039), (65043, 65043), (65056, 65071), (65106, 65106), (65109, 65109), (65279, 65279),
   (65287, 65287), (65294, 65294), (65306, 65306), (65342, 65342), (65344, 65344), (65392, 65392),
   (65438, 65439), (65507, 65507), (65529, 65531), (66045, 66045), (66272, 66272), (66422, 66426),
   (67456, 67461), (67463, 67504), (67506, 67514), (68097, 68099), (68101, 68102), (68108, 68111),
   (68152, 68154), (68159, 68159), (68325, 68326), (68900, 68903), (69291, 69292), (69446, 69456),
   (69506, 69509), (69633, 69633), (69688, 69702), (69744, 69744), (69747, 69748), (69759, 69761),
   (69811, 69814), (69817, 69818), (69821, 69821), (69826, 69826), (69837, 69837), (69888, 69890),
   (69927, 69931), (69933, 69940), (70003, 70003), (70016, 70017), (70070, 70078), (70089, 70092),
   (70095, 70095), (70191, 70193), (70196, 70196), (70198, 70199), (70206, 70206), (70367, 70367),
   (70371, 70378), (70400, 70401), (70459, 70460), (70464, 70464), (70502, 70508), (70512, 70516),
   (70712, 70719), (70722, 70724), (70726, 70726), (70750, 70750), (70835, 70840), (70842, 70842),
   (70847, 70848), (70850, 70851), (71090, 71093), (71100, 71101), (71103, 71104), (71132, 71133),
   (71219, 71226), (71229, 71229), (71231, 71232), (71339, 71339), (71341, 71341), (71344, 71349),
   (71351, 71351), (71453, 71455), (71458, 71461), (71463, 71467), (71727, 71735), (71737, 71738),
   (71995, 71996), (71998, 71998), (72003, 72003), (72148, 72151), (72154, 72155), (72160, 72160),
   (72193, 72202), (72243, 72248), (72251, 72254), (72263, 72263), (72273, 72278), (72281, 72283),
   (72330, 72342), (72344, 72345), (72752, 72758), (72760, 72765), (72767, 72767), (72850, 72871),
   (72874, 72880), (72882, 72883), (72885, 72886), (73009, 73014), (73018, 73018), (73020, 73021),
   (73023, 73029), (73031, 73031), (73104, 73105), (73109, 73109), (73111, 73111), (73459, 73460),
   (78896, 78904), (92912, 92916), (92976, 92982), (92992, 92995), (94031, 94031), (94095, 94111),
   (94176, 94177), (94179, 94180), (110576, 110579), (110581, 110587), (110589, 110590),
   (113821, 113822), (113824, 113827), (118528, 118573), (118576, 118598), (119143, 119145),
   (119155, 119170), (119173, 119179), (119210, 119213), (119362, 119364), (121344, 121398),
   (121403, 121452), (121461, 121461), (121476, 121476), (121499, 121503), (121505, 121519),
   (122880, 122886), (122888, 122904), (122907, 122913), (122915, 122916), (122918, 122922),
   (123184, 123197), (123566, 123566), (123628, 123631), (125136, 125142), (125252, 125259),
   (127995, 127999), (917505, 917505), (917536, 917631), (917760, 917999)]

/-- The code points with the property `Cased` that are not `Case_Ignorable`,
as closed ranges. -/
def casedRanges : List (Nat × Nat) :=
  [(65, 90), (97, 122), (170, 170), (181, 181), (186, 186), (192, 214), (216, 246), (248, 442),
   (444, 447), (452, 659), (661, 687), (880, 883), (886, 887), (891, 893), (895, 895), (902, 902),
   (904, 906), (908, 908), (910, 929), (931, 1013), (1015, 1153), (1162, 1327), (1329, 1366),
   (1376, 1416), (4256, 4293), (4295, 4295), (4301, 4301), (4304, 4346), (4349, 4351),
   (5024, 5109), (5112, 5117), (7296, 7304), (7312, 7354), (7357, 7359), (7424, 7467),
   (7531, 7543), (7545, 7578), (7680, 7957), (7960, 7965), (7968, 8005), (8008, 8013),
   (8016, 8023), (8025, 8025), (8027, 8027), (8029, 8029), (8031, 8061), (8064, 8116),
   (8118, 8124), (8126, 8126), (8130, 8132), (8134, 8140), (8144, 8147), (8150, 8155),
   (8160, 8172), (8178, 8180), (8182, 8188), (8450, 8450), (8455, 8455), (8458, 8467),
   (8469, 8469), (8473, 8477), (8484, 8484), (8486, 8486), (8488, 8488), (8490, 8493),
   (8495, 8500), (8505, 8505), (8508, 8511), (8517, 8521), (8526, 8526), (8544, 8575),
   (8579, 8580), (9398, 9449), (11264, 11387), (11390, 11492), (11499, 11502), (11506, 11507),
   (11520, 11557), (11559, 11559), (11565, 11565), (42560, 42605), (42624, 42651), (42786, 42863),
   (42865, 42887), (42891, 42894), (42896, 42954), (42960, 42961), (42963, 42963), (42965, 42969),
   (42997, 42998), (43002, 43002), (43824, 43866), (43872, 43880), (43888, 43967), (64256, 64262),
   (64275, 64279), (65313, 65338), (65345, 65370), (66560, 66639), (66736, 66771), (66776, 66811),
   (66928, 66938), (66940, 66954), (66956, 66962), (66964, 66965), (66967, 66977), (66979, 66993),
   (66995, 67001), (67003, 67004), (68736, 68786), (68800, 68850), (71840, 71903), (93760, 93823),
   (119808, 119892), (119894, 119964), (119966, 119967), (119970, 119970), (119973, 119974),
   (119977, 119980), (119982, 119993), (119995, 119995), (119997, 120003), (120005, 120069),
   (120071, 120074), (120077, 120084), (120086, 120092), (120094, 120121), (120123, 120126),
   (120128, 120132), (120134, 120134), (120138, 120144), (120146, 120485), (120488, 120512),
   (120514, 120538), (120540, 120570), (120572, 120596), (120598, 120628), (120630, 120654),
   (120656, 120686), (120688, 120712), (120714, 120744), (120746, 120770), (120772, 120779),
   (122624, 122633), (122635, 122654), (125184, 125251), (127280, 127305), (127312, 127337),
   (127344, 127369)]

/-! ## String primitives -/

/-- Membership in a list of closed ranges. -/
def inRanges (rs : List (Nat × Nat)) (c : Nat) : Bool := rs.any fun r => r.1 ≤ c && c ≤ r.2

/-- The lower-case form of a code point outside ASCII other than U+0130,
U+212A and U+03A3: its simple mapping, the code point itself when it has
none. -/
def lowerPoint (c : Nat) : Nat :=
  (lowerRules.findSome? fun r =>
    if r.1 ≤ c && c ≤ r.2.1 && (c - r.1) % r.2.2.1 == 0 then some (r.2.2.2 + (c - r.1))
    else none).getD c

/-- A high surrogate, U+D800..U+DBFF. -/
def isHighSurrogate (c : Nat) : Bool := 55296 ≤ c && c ≤ 56319

/-- A low surrogate, U+DC00..U+DFFF. -/
def isLowSurrogate (c : Nat) : Bool := 56320 ≤ c && c ≤ 57343

/-- The code point of a surrogate pair. -/
def pairPoint (hi lo : Nat) : Nat := 65536 + (hi - 55296) * 1024 + (lo - 56320)

/-- The code points of a string: a high surrogate with the low surrogate that
follows it is one code point, every other code unit stands for itself. -/
def codePoints : Str → List Nat
  | [] => []
  | c :: cs =>
    match cs with
    | lo :: _ =>
      if isHighSurrogate c && isLowSurrogate lo then pairPoint c lo :: (codePoints cs).tail
      else c :: codePoints cs
    | [] => [c]

/-- The code points of a string read backwards (the code units are given last
one first), last code point first. -/
def codePointsBack : Str → List Nat
  | [] => []
  | c :: cs =>
    match cs with
    | hi :: _ =>
      if isLowSurrogate c && isHighSurrogate hi then pairPoint hi c :: (codePointsBack cs).tail
      else c :: codePointsBack cs
    | [] => [c]

/-- The first code point that is not case-ignorable is a cased letter. -/
def casedNext (points : List Nat) : Bool :=
  match points.dropWhile (inRanges caseIgnorableRanges) with
  | c :: _ => inRanges casedRanges c
  | [] => false

/-- The condition `Final_Sigma` of `SpecialCasing.txt` for a capital sigma
with the code units `before` in front of it (nearest first) and `after` behind
it: a cased letter stands before it and none after it, case-ignorable code
points skipped on both sides. -/
def isFinalSigma (before after : Str) : Bool :=
  casedNext (codePointsBack before) && !casedNext (codePoints after)

/-- What `toLowerCase` puts in the place of the code unit `c` that has the code
units `before` in front of it (nearest first) and `after` behind it.  `A`..`Z`
go to `a`..`z` and the rest of ASCII stays; U+0130 goes to `i` and U+0307;
U+212A (the Kelvin sign) goes to `k`; the two halves of a surrogate pair go to
the two halves of the lower-case form of their code point, and a lone
surrogate stays; U+03A3 goes to the final sigma U+03C2 under `Final_Sigma` and
to U+03C3 otherwise; every other code unit goes to its simple mapping. -/
def lowerAt (before : Str) (c : Nat) (after : Str) : Str :=
  if isUpperAz c then [c + 32]
  else if c < 128 then [c]
  else if c = 304 then [105, 775]
  else if c = 8490 then [107]
  else if isHighSurrogate c then
    match after with
    | lo :: _ =>
      if isLowSurrogate lo then [55296 + (lowerPoint (pairPoint c lo) - 65536) / 1024 % 1024]
      else [c]
    | [] => [c]
  else if isLowSurrogate c then
    match before with
    | hi :: _ =>
      if isHighSurrogate hi then [56320 + (lowerPoint (pairPoint hi c) - 65536) % 1024]
      else [c]
    | [] => [c]
  else if 65536 ≤ c then [c]
  else if c = 931 then (if isFinalSigma before after then [962] else [963])
  else [lowerPoint c]

/-- The lower-case form of the string `s` that has the code units `before` in
front of it (nearest first). -/
def lowerFrom (before : Str) : Str → Str
  | [] => []
  | c :: cs => lowerAt before c cs ++ lowerFrom (c :: before) cs

/-- `s.toLowerCase()`. -/
def toLowerCase (s : Str) : Str := lowerFrom [] s

/-- The upper-case mapping on ASCII: `a`..`z` to `A`..`Z`, the rest kept.  It
is what a regular expression with the `i` flag and without the `u` flag
compares an ASCII pattern character by (a code unit outside ASCII never
canonicalises to an ASCII one), and `toUpperCase` on a string of ASCII
letters. -/
def asciiUpper (c : Nat) : Nat := if isLowerAz c then c - 32 else c

/-- The lower-case mapping on ASCII: `A`..`Z` to `a`..`z`, the rest kept. -/
def asciiLower (c : Nat) : Nat := if isUpperAz c then c + 32 else c

/-- `s.trim()`: the whitespace at both ends removed. -/
def trim (s : Str) : Str := (s.dropWhile isWs).rdropWhile isWs

/-- `s.replace(/\s+/g, r)` for a one-unit replacement `r`: every maximal run
of whitespace becomes one `r`.  The flag says that the previous code unit was
whitespace, that is, that the current run has been replaced already. -/
def replaceWsRuns (r : Nat) : Bool → Str → Str
  | _, [] => []
  | inRun, c :: cs =>
    if isWs c then
      if inRun then replaceWsRuns r true cs else r :: replaceWsRuns r true cs
    else c :: replaceWsRuns r false cs

/-! ## `normalize` -/

/-- The body of `normalize` on a present string: `toLowerCase`, the curly
quotes to `'`, every code unit outside `[a-z0-9\s]` to a space, whitespace
runs to one space, `trim`. -/
def normalizeStr (s : Str) : Str :=
  let s1 := toLowerCase s
  let s2 := s1.map fun c => if isCurlyQuote c then 39 else c
  let s3 := s2.map fun c => if isAlnumLower c || isWs c then c else 32
  let s4 := replaceWsRuns 32 false s3
  trim s4

/-- The function `normalize(s)`: `(s || '')` makes an absent argument the
empty string. -/
def normalize (s : Option Str) : Str := normalizeStr (s.getD [])

/-! ## `extractExplicitUrls` -/

/-- A text code unit against an ASCII pattern character under the `i` flag
(no `u` flag): equal up to ASCII case. -/
def ciEq (c p : Nat) : Bool := asciiUpper c == asciiUpper p

/-- The text begins with the ASCII pattern up to ASCII case: the matched code
units of the text and what follows them. -/
def ciStrip : Str → Str → Option (Str × Str)
  | [], s => some ([], s)
  | _ :: _, [] => none
  | p :: ps, c :: cs =>
    if ciEq c p then (ciStrip ps cs).map fun mr => (c :: mr.1, mr.2) else none

/-- The class `[^\s,\)\]]`. -/
def isUrlUnit (c : Nat) : Bool := !(isWs c || c == 44 || c == 41 || c == 93)

/-- The class `[,\)\]]`. -/
def isClosingPunct (c : Nat) : Bool := c == 44 || c == 41 || c == 93

/-- One attempt of `/https?:\/\/[^\s,\)\]]+/i` at the start of `s`, giving the
matched text.  `http` up to case; the greedy `s?` takes an `s` when there is
one (when `://` then fails, the retry without the `s` fails as well, `:`
facing that `s`); `://`; the longest non-empty run of the class. -/
def matchUrlAt (s : Str) : Option Str :=
  match ciStrip [104, 116, 116, 112] s with
  | none => none
  | some (http, r1) =>
    let opt := (ciStrip [115] r1).getD ([], r1)
    match ciStrip [58, 47, 47] opt.2 with
    | none => none
    | some (slashes, r3) =>
      let run := r3.takeWhile isUrlUnit
      if run.isEmpty then none else some (http ++ opt.1 ++ slashes ++ run)

/-- The matches of `text.match(urlRegex)` with the `g` flag, left to right.
The first argument counts the code units still covered by the last match:
after a match of length `n` at position `i` the search resumes at `i + n`;
after a failed attempt at `i` it resumes at `i + 1`. -/
def scanUrls : Nat → Str → List Str
  | _, [] => []
  | skip + 1, _ :: cs => scanUrls skip cs
  | 0, c :: cs =>
    match matchUrlAt (c :: cs) with
    | some m => m :: scanUrls (m.length - 1) cs
    | none => scanUrls 0 cs

/-- The replacement `u.replace(/[,\)\]]+$/g, '')`: the trailing run of `,`,
`)` and `]` removed. -/
def stripClosingPunct (u : Str) : Str := u.rdropWhile isClosingPunct

/-- The function `extractExplicitUrls(text)`; `!text` holds for an absent and
for an empty text. -/
def extractExplicitUrls (text : Option Str) : List Str :=
  match text with
  | none => []
  | some [] => []
  | some (c :: cs) => (scanUrls 0 (c :: cs)).map stripClosingPunct

/-! ## `findDomainToken` -/

/-- The class `[^\s,)]`. -/
def isTokenUnit (c : Nat) : Bool := !(isWs c || c == 44 || c == 41)

/-- One attempt of `(pat[^\s,)]*)` (flag `i`) at the start of `s`: the group. -/
def tokenAt (pat s : Str) : Option Str :=
  (ciStrip pat s).map fun mr => mr.1 ++ mr.2.takeWhile isTokenUnit

/-- The first group of `text.match(re)` for `re` built from `pat`: the
leftmost position where the attempt succeeds.  The source escapes the dots of
`pat` and nothing else, so this is the expression for a pattern of letters,
digits and dots, which is what the only caller passes. -/
def findToken (pat : Str) : Str → Option Str
  | [] => tokenAt pat []
  | c :: cs =>
    match tokenAt pat (c :: cs) with
    | some g => some g
    | none => findToken pat cs

/-- The function `findDomainToken(text, domainPatterns)`: the group of the
first pattern, in list order, that matches with a non-empty group. -/
def findDomainToken (text : Option Str) (domainPatterns : List Str) : Option Str :=
  match text with
  | none => none
  | some [] => none
  | some (c :: cs) =>
    domainPatterns.findSome? fun pat =>
      match findToken pat (c :: cs) with
      | some (g :: gs) => some (g :: gs)
      | _ => none

/-! ## `selectPreferredUrl` -/

/-- The constant `priorityDomains`. -/
def priorityDomains : List Str :=
  [units "short.icu", units "zoro.rpmplay.xyz", units "dorex", units "play.zep"]

/-- The test `s.includes(pat)`. -/
def includes (pat : Str) : Str → Bool
  | [] => pat.isPrefixOf []
  | c :: cs => pat.isPrefixOf (c :: cs) || includes pat cs

/-- The test `/pat/i.test(s)` for an ASCII literal `pat`. -/
def ciIncludes (pat : Str) : Str → Bool
  | [] => (ciStrip pat []).isSome
  | c :: cs => (ciStrip pat (c :: cs)).isSome || ciIncludes pat cs

/-- Step 1 of `selectPreferredUrl`, the loop over the priority domains: for
each domain in order, `explicit.find` of the first URL whose lower-case form
includes it, returned when truthy (a non-empty string). -/
def firstPriority (explicit : List Str) : List Str → Option Str
  | [] => none
  | pd :: pds =>
    match explicit.find? fun u => includes pd (toLowerCase u) with
    | some (c :: cs) => some (c :: cs)
    | _ => firstPriority explicit pds

/-- The function `selectPreferredUrl(text)`; `none` is `null`. -/
def selectPreferredUrl (text : Option Str) : Option Str :=
  let explicit := extractExplicitUrls text
  match firstPriority explicit priorityDomains with
  | some found => some found
  | none =>
    match explicit.find? fun u => !ciIncludes (units "dailymotion") u with
    | some (c :: cs) => some (c :: cs)
    | _ =>
      match findDomainToken text priorityDomains with
      | some (c :: cs) =>
        if (units "http").isPrefixOf (c :: cs) then some (c :: cs)
        else some (units "https://" ++ c :: cs)
      | _ => none

/-! ## The catalog parser -/

/-- The split `raw.split(/\r?\n/)`: every LF ends a line and takes a CR that
stands right before it along; any other CR stays in its line. -/
def splitLines : Str → List Str
  | [] => [[]]
  | c :: cs =>
    match splitLines cs with
    | [] => [[c]]
    | l :: ls =>
      if c = 10 then [] :: l :: ls
      else if c = 13 ∧ cs.head? = some 10 then l :: ls
      else (c :: l) :: ls

/-- The replacement `rawLine.replace(/\t/g, '    ')`. -/
def expandTabs (rawLine : Str) : Str :=
  rawLine.flatMap fun c => if c = 9 then [32, 32, 32, 32] else [c]

/-- The class `[A-Za-z]`. -/
def isAsciiLetter (c : Nat) : Bool := isUpperAz c || isLowerAz c

/-- The local function `sectionCandidate(ln)`: the trimmed line has an ASCII
letter and its ASCII letters are all upper-case. -/
def sectionCandidate (ln : Str) : Bool :=
  let t := trim ln
  if t.isEmpty then false
  else
    let letters := t.filter isAsciiLetter
    !letters.isEmpty && letters == letters.map asciiUpper

/-- The match `line.match(/^\s*(\d+)\.\s+(.*\S)\s*$/)`: the two groups.  Each
greedy quantifier has one way to succeed: the leading whitespace and the digit
run are taken whole (a shorter take leaves a whitespace facing `\d`, or a digit
facing `\.`), `\s+` takes the whole non-empty whitespace run, and `(.*\S)` is
what remains without its trailing whitespace, which has to be non-empty and
free of line terminators (a shorter `\s+` only adds whitespace in front of the
same remainder). -/
def headingMatch (line : Str) : Option (Str × Str) :=
  let l1 := line.dropWhile isWs
  let digits := l1.takeWhile isDigit
  if digits.isEmpty then none
  else
    match l1.dropWhile isDigit with
    | 46 :: l3 =>
      let l4 := l3.dropWhile isWs
      if l4.length = l3.length then none
      else
        let g := l4.rdropWhile isWs
        if g.isEmpty || g.any isLineTerminator then none else some (digits, g)
    | _ => none

/-- A Number whose value is a non-negative integer or `Infinity`. -/
inductive JsNumber where
  /-- A finite value. -/
  | finite (value : Nat)
  /-- The value `Infinity`. -/
  | infinity
deriving DecidableEq, Repr

instance (n : Nat) : OfNat JsNumber n := ⟨JsNumber.finite n⟩

/-- The integer that a run of decimal digits denotes. -/
def decimalValue (digits : Str) : Nat := digits.foldl (fun n d => 10 * n + (d - 48)) 0

/-- The spacing of the doubles around `n`: the least power of two `s`, by
doubling from the one given, with `n < 2 ^ 53 * s`. -/
def spacingOf (n : Nat) : Nat → Nat → Nat
  | 0, s => s
  | fuel + 1, s => if n < 2 ^ 53 * s then s else spacingOf n fuel (2 * s)

/-- The Number for the integer `n`: the nearest double, a tie going to the
even significand, and `Infinity` when that is 2^1024 (written `16 ^ 256`) or
more.  The doubles around `n` are the multiples of its spacing `s`. -/
def toNumber (n : Nat) : JsNumber :=
  let s := spacingOf n (n / 2 ^ 53) 1
  let q := n / s
  let r := n % s
  let m := if 2 * r < s then q else if s < 2 * r then q + 1 else if q % 2 = 0 then q else q + 1
  if m * s < 16 ^ 256 then .finite (m * s) else .infinity

/-- The value `parseInt(digits, 10)` of a run of decimal digits: the Number
for the integer that the run denotes.  (Beyond twenty significant digits the
language lets an engine zero the further digits before it rounds; the rounding
of the exact integer is what V8 does.) -/
def parseInt10 (digits : Str) : JsNumber := toNumber (decimalValue digits)

/-- The first group of `line.match(/^\s*-\s*(.+)$/)`.  After the dash the
greedy `\s*` takes the whole whitespace run and the group is the rest, which
must hold no line terminator.  When nothing follows that run, `\s*` gives its
last code unit back to `.+`, which then must not be a line terminator. -/
def dashMatch (line : Str) : Option Str :=
  match line.dropWhile isWs with
  | 45 :: r =>
    match r.dropWhile isWs with
    | c :: cs => if (c :: cs).any isLineTerminator then none else some (c :: cs)
    | [] =>
      match r.getLast? with
      | some c => if isLineTerminator c then none else some [c]
      | none => none
  | _ => none

/-- The own properties of the object `cur.meta`, in creation order. -/
abbrev Meta := List (Str × Str)

/-- The own property `meta[key]`, if there is one. -/
def Meta.own (m : Meta) (key : Str) : Option Str := (m.find? fun kv => kv.1 == key).map Prod.snd

/-- The assignment `meta[key] = value` to an own or new ordinary property: an
own property keeps its place, a new one is created last. -/
def Meta.assign (m : Meta) (key value : Str) : Meta :=
  if m.any fun kv => kv.1 == key then m.map fun kv => if kv.1 == key then (key, value) else kv
  else m ++ [(key, value)]

/-- A property name that is an array index: the canonical decimal form of an
integer from 0 to 2^32 - 2. -/
def isArrayIndex (key : Str) : Bool :=
  !key.isEmpty && key.all isDigit && (key.head? != some 48 || key.length == 1) &&
    decide (decimalValue key ≤ 4294967294)

/-- Insertion of an array-index key into a list of such keys that ascends by
value. -/
def insertIndexKey (k : Str) : List Str → List Str
  | [] => [k]
  | j :: js => if decimalValue k ≤ decimalValue j then k :: j :: js else j :: insertIndexKey k js

/-- The list `Object.keys(meta)`: the array-index keys by ascending value, then
the other keys in creation order. -/
def Meta.objectKeys (m : Meta) : List Str :=
  ((m.map Prod.fst).filter isArrayIndex).foldr insertIndexKey [] ++
    (m.map Prod.fst).filter fun k => !isArrayIndex k

/-- The text that `String(Object)` gives, which is what the inherited
`meta.constructor` contributes to a concatenation. -/
def objectConstructorText : Str := units "function Object() \x7b [native code] \x7d"

/-- The metadata statement `if (!cur.meta[key]) cur.meta[key] = value; else
cur.meta[key] = cur.meta[key] + ' | ' + value`.  `meta` is a plain object, so
the read sees `Object.prototype`; a key is lower-case, and the lower-case names
there are `constructor` (a function, truthy) and `__proto__` (an accessor whose
getter gives a truthy object and whose setter ignores a string). -/
def metaAdd (m : Meta) (key value : Str) : Meta :=
  if key = units "__proto__" then m
  else
    match m.own key with
    | some (c :: cs) => m.assign key ((c :: cs) ++ units " | " ++ value)
    | some [] => m.assign key value
    | none =>
      if key = units "constructor" then
        m.assign key (objectConstructorText ++ units " | " ++ value)
      else m.assign key value

/-- The key and the value of a metadata line from the group of `dashMatch`:
`split(':')`, the first part trimmed, lower-cased and with `_` for each
whitespace run, the other parts joined by `:` again and trimmed. -/
def metaKeyValue (group : Str) : Str × Str :=
  let key := replaceWsRuns 95 false (toLowerCase (trim (group.takeWhile fun c => c != 58)))
  let value := trim ((group.dropWhile fun c => c != 58).drop 1)
  (key, value)

/-- An entry under construction (`cur`) or finished (in `entries`). -/
structure Entry where
  /-- The field `index`. -/
  index : JsNumber
  /-- The field `title`. -/
  title : Str
  /-- The field `section`. -/
  sectionName : Str
  /-- The field `meta`. -/
  meta : Meta
  /-- The field `_norm`. -/
  norm : Str
deriving DecidableEq, Repr

/-- The variables of the parsing loop: `section`, `entries`, `cur`. -/
structure ParseState where
  /-- The variable `section`, `none` for `null`. -/
  sectionName : Option Str
  /-- The array `entries`. -/
  entries : List Entry
  /-- The variable `cur`, `none` for `null`. -/
  cur : Option Entry
deriving DecidableEq, Repr

/-- The value `section || 'Unknown'`. -/
def sectionOrUnknown (sectionName : Option Str) : Str :=
  match sectionName with
  | some (c :: cs) => c :: cs
  | _ => units "Unknown"

/-- The array `entries` after `if (cur) entries.push(cur)`. -/
def pushCur (st : ParseState) : List Entry :=
  match st.cur with
  | some e => st.entries ++ [e]
  | none => st.entries

/-- One iteration of the loop over `lines`. -/
def parseLine (st : ParseState) (rawLine : Str) : ParseState :=
  let line := expandTabs rawLine
  if sectionCandidate line then { st with sectionName := some (trim line) }
  else
    match headingMatch line with
    | some (digits, g) =>
      let title := trim g
      { st with
        entries := pushCur st
        cur := some
          { index := parseInt10 digits, title := title,
            sectionName := sectionOrUnknown st.sectionName, meta := [],
            norm := normalize (some title) } }
    | none =>
      match st.cur with
      | none => st
      | some e =>
        match dashMatch line with
        | some group =>
          let kv := metaKeyValue group
          { st with cur := some { e with meta := metaAdd e.meta kv.1 kv.2 } }
        | none =>
          let trimmed := trim line
          match trimmed, e.meta.objectKeys.getLast? with
          | _ :: _, some lastKey =>
            { st with cur := some { e with
                meta := e.meta.assign lastKey ((e.meta.own lastKey).getD [] ++ [32] ++ trimmed) } }
          | _, _ => st

/-- The array `entries` of `parseMoviesFile` once the loop and the final
`if (cur) entries.push(cur)` have run, for the file content `raw`. -/
def parseEntries (raw : Str) : List Entry :=
  pushCur ((splitLines raw).foldl parseLine { sectionName := none, entries := [], cur := none })

/-- An element of the array that `parseMoviesFile` returns. -/
structure Movie where
  /-- The field `title`. -/
  title : Str
  /-- The field `section`. -/
  sectionName : Str
  /-- The field `index`. -/
  index : JsNumber
  /-- The field `normalized`. -/
  normalized : Str
  /-- The field `watch_raw`, `none` for `null`. -/
  watch_raw : Option Str
  /-- The field `watch_urls`. -/
  watch_urls : List Str
  /-- The field `preferred_watch`, `none` for `null`. -/
  preferred_watch : Option Str
  /-- The field `download`, `none` for `null`. -/
  download : Option Str
  /-- The field `raw_meta`. -/
  raw_meta : Meta
deriving DecidableEq, Repr

/-- The value `a || b` for two strings that may be `undefined`: the first
truthy (non-empty) one, else the second. -/
def orElseStr (a b : Option Str) : Option Str :=
  match a with
  | some (c :: cs) => some (c :: cs)
  | _ => b

/-- The callback of `entries.map` in `parseMoviesFile`. -/
def enrich (e : Entry) : Movie :=
  let watchRaw : Str :=
    (orElseStr (e.meta.own (units "watch_sources"))
      (orElseStr (e.meta.own (units "watch"))
        (orElseStr (e.meta.own (units "watch_sources")) (some [])))).getD []
  { title := e.title, sectionName := e.sectionName, index := e.index, normalized := e.norm,
    watch_raw := orElseStr (some watchRaw) none,
    watch_urls := extractExplicitUrls (some watchRaw),
    preferred_watch := selectPreferredUrl (some watchRaw),
    download := orElseStr (e.meta.own (units "download")) none,
    raw_meta := e.meta }

/-- The array that `parseMoviesFile` builds from the content `raw` of
`movies_data.txt`. -/
def parseMoviesFile (raw : Str) : List Movie := (parseEntries raw).map enrich

/-! ## `searchMovies` -/

/-- The split `s.split(' ')`: the pieces between the spaces, empty pieces
included. -/
def splitSpaces : Str → List Str
  | [] => [[]]
  | c :: cs =>
    match splitSpaces cs with
    | [] => [[c]]
    | l :: ls => if c = 32 then [] :: l :: ls else (c :: l) :: ls

/-- The tokens `s.split(' ').filter(Boolean)`: the non-empty pieces. -/
def tokens (s : Str) : List Str := (splitSpaces s).filter fun t => !t.isEmpty

/-- A non-negative Number (an IEEE 754 double) given by a mantissa and a
scale: the number `mant / 2 ^ scale`. -/
structure Num where
  /-- The mantissa. -/
  mant : Nat
  /-- The binary scale. -/
  scale : Nat
deriving DecidableEq, Repr

/-- The least scale `k`, searched upwards from the given one, with
`2 ^ 52 ≤ a * 2 ^ k / b`; the first argument bounds the search. -/
def scaleOf (a b : Nat) : Nat → Nat → Nat
  | 0, k => k
  | fuel + 1, k => if b * 2 ^ 52 ≤ a * 2 ^ k then k else scaleOf a b fuel (k + 1)

/-- The double nearest to the quotient `a / b` of two natural numbers, ties
going to the even mantissa: the scale `k` is the one that puts `a * 2 ^ k / b`
into `[2 ^ 52, 2^53)`, and the mantissa is that quotient rounded.  It is the
result of the Number operation whose exact value is `a / b`, for a value that
is zero or lies between the subnormal range and `2 ^ 53`, which is where the
ratios and products of the scoring lie. -/
def roundToDouble (a b : Nat) : Num :=
  if a = 0 then { mant := 0, scale := 0 }
  else
    let k := scaleOf a b (53 + b) 0
    let q := a * 2 ^ k / b
    let r := a * 2 ^ k % b
    { mant := if 2 * r < b then q else if b < 2 * r then q + 1 else if q % 2 = 0 then q else q + 1,
      scale := k }

/-- The function `Math.round` on a non-negative Number: the nearest integer,
a tie going up. -/
def mathRound (x : Num) : Nat := (2 * x.mant + 2 ^ x.scale) / 2 ^ (x.scale + 1)

/-- The expression `Math.round((matched / Math.max(n, 1)) * 50)`: the division
of two integers rounds to a double, the product of that double with 50 rounds
to a double, and `Math.round` makes it an integer. -/
def baseScore (matched n : Nat) : Nat :=
  let ratio := roundToDouble matched (max n 1)
  mathRound (roundToDouble (ratio.mant * 50) (2 ^ ratio.scale))

/-- The loop `for (const t of qTokens) if (titleTokens.includes(t)) matched++`. -/
def countMatched (qTokens titleTokens : List Str) : Nat :=
  qTokens.foldl (fun matched t => if titleTokens.contains t then matched + 1 else matched) 0

/-- The score that the callback of `list.map` in `searchMovies` gives an entry
with the normalized title `title`. -/
def scoreOf (qnorm : Str) (qTokens : List Str) (title : Str) : Nat :=
  if title = qnorm then 100
  else if includes qnorm title then 90
  else
    let titleTokens := tokens title
    let matched := countMatched qTokens titleTokens
    let score := baseScore matched qTokens.length
    if titleTokens.head? = qTokens.head? then score + 10 else score

/-- An element of the array that `searchMovies` returns. -/
structure Result where
  /-- The field `title`. -/
  title : Str
  /-- The field `section`. -/
  sectionName : Str
  /-- The field `index`. -/
  index : JsNumber
  /-- The field `score`. -/
  score : Nat
  /-- The field `preferred_watch`, `none` for `null`. -/
  preferred_watch : Option Str
  /-- The field `watch_urls`. -/
  watch_urls : List Str
  /-- The field `download`, `none` for `null`. -/
  download : Option Str
  /-- The field `raw_meta`. -/
  raw_meta : Meta
deriving DecidableEq, Repr

/-- The callback of the last `map` in `searchMovies`, on a pair
`{ movie, score }`. -/
def toResult (s : Movie × Nat) : Result :=
  { title := s.1.title, sectionName := s.1.sectionName, index := s.1.index, score := s.2,
    preferred_watch := s.1.preferred_watch, watch_urls := s.1.watch_urls,
    download := s.1.download, raw_meta := s.1.raw_meta }

/-- The order of the comparator `(a, b) => b.score - a.score`: `a` may stand
before `b` when its score is not lower. -/
def byScoreDesc (a b : Movie × Nat) : Prop := b.2 ≤ a.2

instance : DecidableRel byScoreDesc := fun a b => Nat.decLe b.2 a.2

instance : IsTotal (Movie × Nat) byScoreDesc := ⟨fun a b => Nat.le_total b.2 a.2⟩

instance : IsTrans (Movie × Nat) byScoreDesc := ⟨fun _ _ _ h1 h2 => Nat.le_trans h2 h1⟩

/-- The call `l.slice(0, limit)` for an integer `limit`: a negative `limit`
counts from the end. -/
def sliceTo {α : Type} (l : List α) (limit : Int) : List α :=
  if limit < 0 then l.take (l.length - limit.natAbs) else l.take limit.toNat

/-- The body of `searchMovies` from `const qnorm` on, for a query that passed
the blank test and the catalog `list` that `parseMoviesFile()` returned.
`Array.prototype.sort` is stable, so with this comparator its result is the
one arrangement by descending score that keeps entries of equal score in their
order, which is what insertion sort computes. -/
def searchCatalog (list : List Movie) (query : Str) (limit : Int) : List Result :=
  let qnorm := normalize (some query)
  let qTokens := tokens qnorm
  let scored := list.map fun m => (m, scoreOf qnorm qTokens m.normalized)
  let sorted := scored.insertionSort byScoreDesc
  (sliceTo (sorted.filter fun s => decide (0 < s.2)) limit).map toResult

/-- The function `parseMoviesFile()` with its surroundings: `moviesCache` is
the module variable (`none` for `null`) and `file` the content of
`movies_data.txt` (`none` when the file does not exist).  The result is what
the call returns or the message of the error it throws, and `moviesCache`
after the call. -/
def parseMoviesFileCached (moviesCache : Option (List Movie)) (file : Option Str) :
    Except Str (List Movie) × Option (List Movie) :=
  match moviesCache with
  | some cached => (.ok cached, some cached)
  | none =>
    match file with
    | none => (.error (units "movies_data.txt not found"), none)
    | some raw => (.ok (parseMoviesFile raw), some (parseMoviesFile raw))

/-- The function `searchMovies(query, limit = 8)` with the module variable
`moviesCache` and the content `file` of `movies_data.txt`: what the call
returns or the message of the error it throws, and `moviesCache` after the
call. -/
def searchMovies (moviesCache : Option (List Movie)) (file : Option Str) (query : Option Str)
    (limit : Option Int) : Except Str (List Result) × Option (List Movie) :=
  match query with
  | none => (.ok [], moviesCache)
  | some q =>
    if q.isEmpty || (trim q).isEmpty then (.ok [], moviesCache)
    else
      match parseMoviesFileCached moviesCache file with
      | (.error e, cache) => (.error e, cache)
      | (.ok list, cache) => (.ok (searchCatalog list q (limit.getD 8)), cache)

/-! ## Notions of the specification -/

/-- What the ASCII tests of the program see of a code unit: an ASCII code unit
and a whitespace code unit as they are, every other code unit as U+0080. -/
def asciiView (c : Nat) : Nat := if c < 128 ∨ isWs c = true then c else 128

/-- A comparison function for the proofs about `normalize`: the lower-case
mapping of one code unit as far as `asciiView` can tell, that is, the mappings
that touch ASCII, every other code unit kept in place.  It is tied to
`toLowerCase` by `toLowerCase_view`. -/
def viewLower (c : Nat) : Str :=
  if isUpperAz c then [c + 32]
  else if c = 304 then [105, 775]
  else if c = 8490 then [107]
  else [c]

/-- The whitespace code units outside ASCII. -/
def wideWs : List Nat :=
  [160, 5760, 8192, 8193, 8194, 8195, 8196, 8197, 8198, 8199, 8200, 8201, 8202, 8232, 8233, 8239,
   8287, 12288, 65279]

/-- A rule of `lowerRules` maps outside ASCII and neither from nor to a
whitespace code unit. -/
def ruleKeepsView (r : Nat × Nat × Nat × Nat) : Bool :=
  decide (128 ≤ r.2.2.2) &&
    wideWs.all fun w =>
      !(decide (r.1 ≤ w) && decide (w ≤ r.2.1)) &&
        !(decide (r.2.2.2 ≤ w) && decide (w ≤ r.2.2.2 + (r.2.1 - r.1)))

/-- The canonical form of the specification: only `a`..`z`, `0`..`9` and the
space, no space at either end, no two spaces in a row. -/
def Canonical (r : Str) : Prop :=
  (∀ c ∈ r, isAlnumLower c = true ∨ c = 32) ∧ r.head? ≠ some 32 ∧ r.getLast? ≠ some 32 ∧
    ¬ [32, 32] <:+: r

/-- The string `s` with the curly quotes at the chosen positions (counted
from `i`) replaced by a straight apostrophe. -/
def straightenQuotes (pick : Nat → Bool) : Nat → Str → Str
  | _, [] => []
  | i, c :: cs => (if pick i && isCurlyQuote c then 39 else c) :: straightenQuotes pick (i + 1) cs

/-- What `normalize` cannot tell apart in one code unit: the ASCII case and
the kind of quote. -/
def foldUnit (c : Nat) : Nat := asciiLower (if isCurlyQuote c then 39 else c)

/-- The title heading in a raw line, in the words of the specification: the
line, tabs expanded, matches `<integer>. <text>` with leading whitespace
allowed; that integer and the trimmed text. -/
def headingOfLine (rawLine : Str) : Option (JsNumber × Str) :=
  (headingMatch (expandTabs rawLine)).map fun dg => (.finite (decimalValue dg.1), trim dg.2)

/-- The entry that a raw line opens: the line, tabs expanded, is not a section
candidate and matches the heading expression; the value of `parseInt` on the
digit run and the trimmed text. -/
def openingHeading (rawLine : Str) : Option (JsNumber × Str) :=
  if sectionCandidate (expandTabs rawLine) then none
  else (headingMatch (expandTabs rawLine)).map fun dg => (parseInt10 dg.1, trim dg.2)

/-- The reading of `/^\s*(\d+)\.\s+(.*\S)\s*$/` in the specification: the line
is leading whitespace, a non-empty digit run, a dot, a non-empty whitespace
run, a text that starts and ends with a code unit other than whitespace and
holds no line terminator, and trailing whitespace. -/
def IsTitleHeading (line digits text : Str) : Prop :=
  ∃ ws0 ws1 ws2 : Str, line = ws0 ++ digits ++ [46] ++ ws1 ++ text ++ ws2 ∧
    (∀ c ∈ ws0, isWs c = true) ∧ digits ≠ [] ∧ (∀ c ∈ digits, isDigit c = true) ∧
    ws1 ≠ [] ∧ (∀ c ∈ ws1, isWs c = true) ∧ (∀ c ∈ ws2, isWs c = true) ∧
    text ≠ [] ∧ (∀ c, text.head? = some c → isWs c = false) ∧
    (∀ c, text.getLast? = some c → isWs c = false) ∧
    ∀ c ∈ text, isLineTerminator c = false

/-- The section in force after the raw lines `pre`, in the words of the
specification: the trimmed text of the last section-candidate line among them,
`Unknown` when there is none. -/
def sectionBefore (pre : List Str) : Str :=
  match (pre.filter fun l => sectionCandidate (expandTabs l)).getLast? with
  | some l => trim (expandTabs l)
  | none => units "Unknown"

/-- The sections of the entries that the lines `lines` open, when the lines
`pre` stand before them: one section per title heading, in order. -/
def sectionsOf (pre : List Str) : List Str → List Str
  | [] => []
  | l :: ls =>
    (if (openingHeading l).isSome then [sectionBefore pre] else []) ++ sectionsOf (pre ++ [l]) ls

/-- The last section-candidate line among the raw lines `pre`, trimmed, if
there is one. -/
def lastSection (pre : List Str) : Option Str :=
  ((pre.filter fun l => sectionCandidate (expandTabs l)).getLast?).map fun l => trim (expandTabs l)

/-- A raw line that the loop treats as a metadata line of the open entry: not
a section candidate and matching the dash expression (such a line is never a
title heading); with its normalized key and its value. -/
def IsMetadataLine (rawLine key value : Str) : Prop :=
  sectionCandidate (expandTabs rawLine) = false ∧
    ∃ group, dashMatch (expandTabs rawLine) = some group ∧ metaKeyValue group = (key, value)

/-- A raw line that the loop treats as a continuation line: not blank, not a
section candidate, not a title heading, not a dash line; with its trimmed
text. -/
def IsContinuationLine (rawLine text : Str) : Prop :=
  sectionCandidate (expandTabs rawLine) = false ∧ headingMatch (expandTabs rawLine) = none ∧
    dashMatch (expandTabs rawLine) = none ∧ trim (expandTabs rawLine) = text ∧ text ≠ []

/-- The value that the open entry holds for `key`, if there is an open entry
and it has the key. -/
def valueOfKey (st : ParseState) (key : Str) : Option Str :=
  st.cur.bind fun e => e.meta.own key

/-- The statement of the specification for a repeated key: after the two lines
`l1`, `l2` the value of `key` is its value after `l1`, the separator and the
value `v2` of `l2`. -/
def RepeatedKeyConcatenated (st : ParseState) (l1 l2 key v2 : Str) : Prop :=
  valueOfKey (parseLine (parseLine st l1) l2) key =
    (valueOfKey (parseLine st l1) key).map fun prev => prev ++ units " | " ++ v2

/-- A raw line that, met in the state `st`, keeps the entry open and is not a
line for `key`: a section candidate; or a line that is no title heading and is
either a dash line with another normalized key, or a blank line, or a line
without a dash that finds another key than `key` (or none) last in
`Object.keys(cur.meta)`. -/
def isOtherLine (st : ParseState) (key rawLine : Str) : Bool :=
  sectionCandidate (expandTabs rawLine) ||
    ((headingMatch (expandTabs rawLine)).isNone &&
      match dashMatch (expandTabs rawLine) with
      | some group => (metaKeyValue group).1 != key
      | none =>
        (trim (expandTabs rawLine)).isEmpty ||
          (st.cur.bind fun e => e.meta.objectKeys.getLast?) != some key)

/-- The raw lines `lines`, met one after the other from the state `st` on, all
keep the entry open and none is a line for `key`. -/
def areOtherLines (st : ParseState) (key : Str) : List Str → Bool
  | [] => true
  | l :: ls => isOtherLine st key l && areOtherLines (parseLine st l) key ls

/-- A raw line that matches the dash expression with nothing but whitespace
between the dash and the first colon (or the end of the line). -/
def hasBlankKey (rawLine : Str) : Bool :=
  match dashMatch (expandTabs rawLine) with
  | some group => (group.takeWhile fun c => c != 58).all isWs
  | none => false

/-- The statement of the specification for a continuation line: after the
metadata line `l1` and the continuation line `l2` the value of `key`, the key
that `l1` names, is its value after `l1`, one space and the continuation
text. -/
def ContinuationFoldsIntoNamedKey (st : ParseState) (l1 l2 key text : Str) : Prop :=
  valueOfKey (parseLine (parseLine st l1) l2) key =
    (valueOfKey (parseLine st l1) key).map fun prev => prev ++ [32] ++ text

/-- The score of the catalog entry `m` for the query `query`, as
`searchMovies` computes it. -/
def scoreIn (query : Str) (m : Movie) : Nat :=
  scoreOf (normalize (some query)) (tokens (normalize (some query))) m.normalized

/-- The catalog with the score of each entry, in catalog order. -/
def scoredCatalog (list : List Movie) (query : Str) : List Result :=
  list.map fun m => toResult (m, scoreIn query m)

/-- The score of the specification for a normalized query `q` and a normalized
title `t`: 100 for equality, else 90 when `q` is a substring of `t`, else half
of the percentage of query tokens that are tokens of the title, rounded half
up, plus 10 when the first title token is the first query token. -/
def referenceScore (q t : Str) : Nat :=
  if t = q then 100
  else if q <:+: t then 90
  else
    let matched := (tokens q).countP fun x => decide (x ∈ tokens t)
    (100 * matched + max (tokens q).length 1) / (2 * max (tokens q).length 1) +
      match (tokens t).head?, (tokens q).head? with
      | some a, some b => if a = b then 10 else 0
      | _, _ => 0

/-- A query of a hundred tokens: seventy-one times `b`, then twenty-nine times
`a`, each followed by a space. -/
def hundredTokenQuery : Str :=
  (List.replicate 71 98 ++ List.replicate 29 97).flatMap fun c => [c, 32]

/-! # Properties -/

/-! ## Character classes -/

theorem isWs_of_isAlnumLower {c : Nat} (h : isAlnumLower c = true) : isWs c = false := by
  simp only [isAlnumLower, isLowerAz, isDigit, Bool.or_eq_true, Bool.and_eq_true,
    decide_eq_true_eq] at h
  simp only [isWs, Bool.or_eq_false_iff, Bool.and_eq_false_iff, decide_eq_false_iff_not,
    beq_eq_false_iff_ne]
  omega

theorem isCurlyQuote_of_isAlnumLower {c : Nat} (h : isAlnumLower c = true) :
    isCurlyQuote c = false := by
  simp only [isAlnumLower, isLowerAz, isDigit, Bool.or_eq_true, Bool.and_eq_true,
    decide_eq_true_eq] at h
  simp only [isCurlyQuote, Bool.or_eq_false_iff, beq_eq_false_iff_ne]
  omega

/-! ## Lower-casing -/

theorem lowerRules_keep_view : lowerRules.all ruleKeepsView = true := by decide

theorem mem_wideWs_of_isWs {c : Nat} (h : 128 ≤ c) (hw : isWs c = true) : c ∈ wideWs := by
  simp only [isWs, Bool.or_eq_true, Bool.and_eq_true, decide_eq_true_eq, beq_iff_eq] at hw
  simp only [wideWs, List.mem_cons, List.mem_singleton, List.mem_nil_iff, or_false]
  omega

theorem lowerPoint_view (c : Nat) (h : 128 ≤ c) : asciiView (lowerPoint c) = asciiView c := by
  unfold lowerPoint
  cases hf : lowerRules.findSome? fun r =>
      if r.1 ≤ c && c ≤ r.2.1 && (c - r.1) % r.2.2.1 == 0 then some (r.2.2.2 + (c - r.1))
      else none with
  | none => rfl
  | some t =>
    obtain ⟨r, hr, hrt⟩ := List.exists_of_findSome?_eq_some hf
    have hk := List.all_eq_true.1 lowerRules_keep_view r hr
    by_cases hit : (decide (r.1 ≤ c) && decide (c ≤ r.2.1) && (c - r.1) % r.2.2.1 == 0) = true
    · rw [if_pos hit] at hrt
      simp only [Option.some.injEq] at hrt
      simp only [Bool.and_eq_true, decide_eq_true_eq] at hit
      obtain ⟨⟨h1, h2⟩, _⟩ := hit
      simp only [ruleKeepsView, Bool.and_eq_true, decide_eq_true_eq, List.all_eq_true,
        Bool.not_eq_true', Bool.and_eq_false_iff, decide_eq_false_iff_not] at hk
      obtain ⟨hk1, hk2⟩ := hk
      have e1 : asciiView c = 128 := by
        unfold asciiView
        rw [if_neg]
        rintro (hc | hc)
        · omega
        · have := (hk2 c (mem_wideWs_of_isWs h hc)).1
          omega
      have e2 : asciiView t = 128 := by
        unfold asciiView
        rw [if_neg]
        rintro (hc | hc)
        · omega
        · have := (hk2 t (mem_wideWs_of_isWs (by omega) hc)).2
          omega
      show asciiView t = asciiView c
      rw [e1, e2]
    · rw [if_neg hit] at hrt
      exact absurd hrt (by simp)

theorem asciiView_of_range {c : Nat} (h1 : 55296 ≤ c) (h2 : c ≤ 57343) : asciiView c = 128 := by
  unfold asciiView
  rw [if_neg]
  rintro (hc | hc)
  · omega
  · simp only [isWs, Bool.or_eq_true, Bool.and_eq_true, decide_eq_true_eq, beq_iff_eq] at hc
    omega

/-- As far as the ASCII tests see it, lower-casing works unit by unit and
without context. -/
theorem lowerAt_view (before : Str) (c : Nat) (after : Str) :
    (lowerAt before c after).map asciiView = (viewLower c).map asciiView := by
  unfold lowerAt viewLower
  by_cases hu : isUpperAz c = true
  · rw [if_pos hu, if_pos hu]
  rw [if_neg hu, if_neg hu]
  by_cases h128 : c < 128
  · rw [if_pos h128, if_neg (by omega), if_neg (by omega)]
  rw [if_neg h128]
  by_cases h304 : c = 304
  · rw [if_pos h304, if_pos h304]
  rw [if_neg h304, if_neg h304]
  by_cases hk : c = 8490
  · rw [if_pos hk, if_pos hk]
  rw [if_neg hk, if_neg hk]
  by_cases hh : isHighSurrogate c = true
  · rw [if_pos hh]
    simp only [isHighSurrogate, Bool.and_eq_true, decide_eq_true_eq] at hh
    have hc : asciiView c = 128 := asciiView_of_range (by omega) (by omega)
    cases after with
    | nil => rfl
    | cons lo rest =>
      by_cases hl : isLowSurrogate lo = true
      · simp only [hl, if_true, List.map_cons, List.map_nil, hc]
        rw [asciiView_of_range (by omega) (by have := Nat.mod_lt ((lowerPoint (pairPoint c lo) - 65536) / 1024) (show 1024 > 0 by omega); omega)]
      · simp only [hl, if_false, Bool.false_eq_true]
  rw [if_neg hh]
  by_cases hl : isLowSurrogate c = true
  · rw [if_pos hl]
    simp only [isLowSurrogate, Bool.and_eq_true, decide_eq_true_eq] at hl
    have hc : asciiView c = 128 := asciiView_of_range (by omega) (by omega)
    cases before with
    | nil => rfl
    | cons hi rest =>
      by_cases hl : isHighSurrogate hi = true
      · simp only [hl, if_true, List.map_cons, List.map_nil, hc]
        rw [asciiView_of_range (by omega) (by have := Nat.mod_lt (lowerPoint (pairPoint hi c) - 65536) (show 1024 > 0 by omega); omega)]
      · simp only [hl, if_false, Bool.false_eq_true]
  rw [if_neg hl]
  by_cases hbig : 65536 ≤ c
  · rw [if_pos hbig]
  rw [if_neg hbig]
  by_cases hs : c = 931
  · rw [if_pos hs]
    subst hs
    by_cases hf : isFinalSigma before after = true
    · rw [if_pos hf]; decide
    · rw [if_neg hf]; decide
  rw [if_neg hs]
  simp only [List.map_cons, List.map_nil, lowerPoint_view c (by omega)]

theorem lowerFrom_view (before s : Str) :
    (lowerFrom before s).map asciiView = (s.flatMap viewLower).map asciiView := by
  induction s generalizing before with
  | nil => rfl
  | cons c cs ih =>
    simp only [lowerFrom, List.flatMap_cons, List.map_append, ih, lowerAt_view]

theorem toLowerCase_view (s : Str) :
    (toLowerCase s).map asciiView = (s.flatMap viewLower).map asciiView :=
  lowerFrom_view [] s

theorem lowerAt_ne_nil (before : Str) (c : Nat) (after : Str) : lowerAt before c after ≠ [] := by
  intro h
  have := congrArg List.length (lowerAt_view before c after)
  rw [h] at this
  unfold viewLower at this
  split_ifs at this <;> simp at this

theorem toLowerCase_ne_nil (s : Str) (h : s ≠ []) : toLowerCase s ≠ [] := by
  cases s with
  | nil => exact absurd rfl h
  | cons c cs =>
    intro h0
    exact lowerAt_ne_nil [] c cs (List.append_eq_nil.1 h0).1

theorem lowerAt_of_isAlnumLower (before : Str) {c : Nat} (after : Str)
    (h : isAlnumLower c = true ∨ c = 32) : lowerAt before c after = [c] := by
  have h1 : isUpperAz c = false ∧ c < 128 := by
    simp only [isAlnumLower, isLowerAz, isDigit, Bool.or_eq_true, Bool.and_eq_true,
      decide_eq_true_eq] at h
    simp only [isUpperAz, Bool.and_eq_false_iff, decide_eq_false_iff_not]
    omega
  unfold lowerAt
  rw [h1.1, if_neg (by simp), if_pos h1.2]

theorem lowerFrom_eq_self (before r : Str) (h : ∀ c ∈ r, isAlnumLower c = true ∨ c = 32) :
    lowerFrom before r = r := by
  induction r generalizing before with
  | nil => rfl
  | cons c cs ih =>
    rw [lowerFrom, lowerAt_of_isAlnumLower before cs (h c (List.mem_cons_self _ _)),
      ih _ fun d hd => h d (List.mem_cons_of_mem _ hd)]
    rfl

/-- The second and third step of `normalize` depend on the ASCII view only. -/
theorem normalize_steps_view (c : Nat) :
    (if isAlnumLower (if isCurlyQuote c then 39 else c) || isWs (if isCurlyQuote c then 39 else c)
        then (if isCurlyQuote c then 39 else c) else 32) =
      (if isAlnumLower (if isCurlyQuote (asciiView c) then 39 else asciiView c) ||
          isWs (if isCurlyQuote (asciiView c) then 39 else asciiView c)
        then (if isCurlyQuote (asciiView c) then 39 else asciiView c) else 32) := by
  unfold asciiView
  by_cases h : c < 128 ∨ isWs c = true
  · rw [if_pos h]
  · rw [if_neg h]
    have h1 : ¬ c < 128 := fun x => h (Or.inl x)
    have h2 : isWs c = false := by
      cases hw : isWs c with
      | true => exact absurd (Or.inr hw) h
      | false => rfl
    have h3 : isAlnumLower c = false := by
      simp only [isAlnumLower, isLowerAz, isDigit, Bool.or_eq_false_iff, Bool.and_eq_false_iff,
        decide_eq_false_iff_not]
      omega
    by_cases hq : isCurlyQuote c = true
    · rw [if_pos hq]; decide
    · rw [if_neg hq, h3, h2]; rfl

theorem normalize_steps_toLowerCase (s : Str) :
    ((toLowerCase s).map fun c => if isCurlyQuote c then 39 else c).map
        (fun c => if isAlnumLower c || isWs c then c else 32) =
      ((s.flatMap viewLower).map fun c => if isCurlyQuote c then 39 else c).map
        (fun c => if isAlnumLower c || isWs c then c else 32) := by
  have e : ∀ l : Str, ((l.map fun c => if isCurlyQuote c then 39 else c).map
        (fun c => if isAlnumLower c || isWs c then c else 32)) =
      (((l.map asciiView).map fun c => if isCurlyQuote c then 39 else c).map
        (fun c => if isAlnumLower c || isWs c then c else 32)) := by
    intro l
    simp only [List.map_map]
    exact List.map_congr_left fun c _ => normalize_steps_view c
  rw [e (toLowerCase s), e (s.flatMap viewLower), toLowerCase_view]

/-! ## `trim` -/

theorem trim_within (s : Str) : trim s <:+: s :=
  (List.rdropWhile_prefix isWs _).isInfix.trans (List.dropWhile_suffix isWs).isInfix

theorem head?_eq_of_starts {l₁ l₂ : Str} (h : l₁ <+: l₂) (hne : l₁ ≠ []) : l₁.head? = l₂.head? := by
  obtain ⟨t, rfl⟩ := h
  cases l₁ with
  | nil => exact absurd rfl hne
  | cons a l => rfl

theorem head?_trim_not_ws (s : Str) (c : Nat) (h : (trim s).head? = some c) : isWs c = false := by
  have hne : trim s ≠ [] := by intro h0; rw [h0] at h; simp at h
  have h1 : (trim s).head? = (s.dropWhile isWs).head? :=
    head?_eq_of_starts (List.rdropWhile_prefix isWs _) hne
  have h2 := List.head?_dropWhile_not isWs s
  rw [← h1, h] at h2
  simpa using h2

theorem getLast?_trim_not_ws (s : Str) (c : Nat) (h : (trim s).getLast? = some c) :
    isWs c = false := by
  have hne : trim s ≠ [] := by intro h0; rw [h0] at h; simp at h
  have h1 := List.rdropWhile_last_not (p := isWs) (l := s.dropWhile isWs) hne
  rw [List.getLast?_eq_getLast _ hne] at h
  have h3 : (trim s).getLast hne = c := by simpa using h
  have h4 : (List.rdropWhile isWs (s.dropWhile isWs)).getLast hne = c := h3
  rw [h4] at h1
  simpa using h1

theorem trim_eq_self (s : Str) (hh : ∀ c, s.head? = some c → isWs c = false)
    (hl : ∀ c, s.getLast? = some c → isWs c = false) : trim s = s := by
  have h1 : s.dropWhile isWs = s := by
    cases s with
    | nil => rfl
    | cons a l =>
      have := hh a rfl
      simp [List.dropWhile_cons, this]
  unfold trim
  rw [h1, List.rdropWhile_eq_self_iff]
  intro hne
  have := hl (s.getLast hne) (List.getLast?_eq_getLast _ hne)
  simp [this]

/-! ## `replaceWsRuns` -/

theorem replaceWsRuns_canonical (s : Str)
    (hs : ∀ c ∈ s, isAlnumLower c = true ∨ isWs c = true) (b : Bool) :
    (∀ c ∈ replaceWsRuns 32 b s, isAlnumLower c = true ∨ c = 32) ∧
      List.Chain' (fun x y => ¬(x = 32 ∧ y = 32)) (replaceWsRuns 32 b s) ∧
      (b = true → (replaceWsRuns 32 b s).head? ≠ some 32) := by
  induction s generalizing b with
  | nil => simp [replaceWsRuns]
  | cons a l ih =>
    have hl : ∀ c ∈ l, isAlnumLower c = true ∨ isWs c = true :=
      fun c hc => hs c (List.mem_cons_of_mem _ hc)
    by_cases ha : isWs a = true
    · cases b with
      | true =>
        obtain ⟨i1, i2, i3⟩ := ih hl true
        simp only [replaceWsRuns, ha, if_true]
        exact ⟨i1, i2, fun _ => i3 rfl⟩
      | false =>
        obtain ⟨i1, i2, i3⟩ := ih hl true
        simp only [replaceWsRuns, ha, if_true, Bool.false_eq_true, if_false]
        refine ⟨?_, ?_, by simp⟩
        · intro c hc
          rcases List.mem_cons.1 hc with rfl | hc
          · exact Or.inr rfl
          · exact i1 c hc
        · refine List.Chain'.cons' i2 ?_
          intro y hy h
          exact i3 rfl (by rw [Option.mem_def] at hy; rw [hy, h.2])
    · have ha' : isWs a = false := by simpa using ha
      have haa : isAlnumLower a = true := by
        rcases hs a (List.mem_cons_self _ _) with h | h
        · exact h
        · exact absurd h ha
      have hne : a ≠ 32 := by
        intro h; rw [h] at ha'; exact absurd ha' (by decide)
      obtain ⟨i1, i2, _⟩ := ih hl false
      simp only [replaceWsRuns, ha', Bool.false_eq_true, if_false]
      refine ⟨?_, ?_, ?_⟩
      · intro c hc
        rcases List.mem_cons.1 hc with rfl | hc
        · exact Or.inl haa
        · exact i1 c hc
      · refine List.Chain'.cons' i2 ?_
        intro y _ h
        exact hne h.1
      · intro _ h
        simp only [List.head?_cons, Option.some.injEq] at h
        exact hne h

theorem replaceWsRuns_eq_self (s : Str) (b : Bool)
    (hs : ∀ c ∈ s, isAlnumLower c = true ∨ c = 32)
    (hc : List.Chain' (fun x y => ¬(x = 32 ∧ y = 32)) s)
    (hb : b = true → s.head? ≠ some 32) : replaceWsRuns 32 b s = s := by
  induction s generalizing b with
  | nil => rfl
  | cons a l ih =>
    have hl : ∀ c ∈ l, isAlnumLower c = true ∨ c = 32 :=
      fun c hc => hs c (List.mem_cons_of_mem _ hc)
    have hcl := (List.chain'_cons'.1 hc).2
    rcases hs a (List.mem_cons_self _ _) with ha | ha
    · have hw := isWs_of_isAlnumLower ha
      have hne : a ≠ 32 := by
        intro h; rw [h] at hw; exact absurd hw (by decide)
      simp only [replaceWsRuns, hw, Bool.false_eq_true, if_false]
      rw [ih false hl hcl (by simp)]
    · subst ha
      have hb' : b = false := by
        cases b with
        | false => rfl
        | true => exact absurd rfl (hb rfl)
      subst hb'
      have hw : isWs 32 = true := by decide
      simp only [replaceWsRuns, hw, if_true, Bool.false_eq_true, if_false]
      rw [ih true hl hcl]
      intro _ h
      exact (List.chain'_cons'.1 hc).1 32 (by rw [Option.mem_def]; exact h) ⟨rfl, rfl⟩

/-! ## `normalize` -/

theorem map_eq_self {f : Nat → Nat} (l : Str) (h : ∀ c ∈ l, f c = c) : l.map f = l := by
  induction l with
  | nil => rfl
  | cons a l ih =>
    rw [List.map_cons, h a (List.mem_cons_self _ _),
      ih fun c hc => h c (List.mem_cons_of_mem _ hc)]

theorem chain_of_no_double_space (r : Str) (h : ¬ [32, 32] <:+: r) :
    List.Chain' (fun x y => ¬(x = 32 ∧ y = 32)) r := by
  induction r with
  | nil => exact List.chain'_nil
  | cons a l ih =>
    refine List.chain'_cons'.2 ⟨?_, ih fun hl => h (hl.trans (List.suffix_cons a l).isInfix)⟩
    intro y hy hay
    apply h
    cases l with
    | nil => simp at hy
    | cons b l =>
      simp only [List.head?_cons, Option.mem_def, Option.some.injEq] at hy
      rw [hay.1, hy, hay.2]
      exact ⟨[], l, rfl⟩

theorem no_double_space_of_chain (r : Str)
    (h : List.Chain' (fun x y => ¬(x = 32 ∧ y = 32)) r) : ¬ [32, 32] <:+: r := by
  intro hin
  have := List.Chain'.infix h hin
  exact (List.chain'_cons.1 this).1 ⟨rfl, rfl⟩

/-- The result of `normalize` is in canonical form. -/
theorem normalizeStr_canonical (s : Str) : Canonical (normalizeStr s) := by
  have h3 : ∀ c ∈ ((toLowerCase s).map fun c => if isCurlyQuote c then 39 else c).map
      (fun c => if isAlnumLower c || isWs c then c else 32),
      isAlnumLower c = true ∨ isWs c = true := by
    intro c hc
    obtain ⟨d, _, rfl⟩ := List.mem_map.1 hc
    by_cases hd : (isAlnumLower d || isWs d) = true
    · rw [if_pos hd]; simpa using hd
    · rw [if_neg hd]; exact Or.inr (by decide)
  obtain ⟨i1, i2, _⟩ := replaceWsRuns_canonical _ h3 false
  have hin := trim_within (replaceWsRuns 32 false
    (((toLowerCase s).map fun c => if isCurlyQuote c then 39 else c).map
      (fun c => if isAlnumLower c || isWs c then c else 32)))
  refine ⟨fun c hc => i1 c (hin.subset hc), ?_, ?_, no_double_space_of_chain _ ( List.Chain'.infix i2 hin)⟩
  · intro h
    exact absurd (head?_trim_not_ws _ 32 h) (by decide)
  · intro h
    exact absurd (getLast?_trim_not_ws _ 32 h) (by decide)

/-- A string in canonical form is a fixed point of `normalize`. -/
theorem normalizeStr_of_canonical (r : Str) (h : Canonical r) : normalizeStr r = r := by
  obtain ⟨h1, h2, h3, h4⟩ := h
  have hnotws : ∀ c, c ≠ 32 → c ∈ r → isWs c = false := by
    intro c hne hc
    rcases h1 c hc with h | h
    · exact isWs_of_isAlnumLower h
    · exact absurd h hne
  have a1 : toLowerCase r = r := lowerFrom_eq_self [] r h1
  have a2 : (r.map fun c => if isCurlyQuote c then 39 else c) = r := by
    refine map_eq_self r fun c hc => ?_
    rcases h1 c hc with h | h
    · rw [isCurlyQuote_of_isAlnumLower h]; rfl
    · subst h; decide
  have a3 : (r.map fun c => if isAlnumLower c || isWs c then c else 32) = r := by
    refine map_eq_self r fun c hc => ?_
    rcases h1 c hc with h | h
    · rw [h]; rfl
    · subst h; decide
  have a4 : replaceWsRuns 32 false r = r :=
    replaceWsRuns_eq_self r false h1 (chain_of_no_double_space r h4) (by simp)
  have a5 : trim r = r := by
    refine trim_eq_self r ?_ ?_
    · intro c hc
      refine hnotws c ?_ (List.mem_of_mem_head? hc)
      intro h; subst h; exact h2 hc
    · intro c hc
      refine hnotws c ?_ (List.mem_of_mem_getLast? hc)
      intro h; subst h; exact h3 hc
  show trim (replaceWsRuns 32 false
    (((toLowerCase r).map fun c => if isCurlyQuote c then 39 else c).map
      (fun c => if isAlnumLower c || isWs c then c else 32))) = r
  rw [a1, a2, a3, a4, a5]

/-- C1. `normalize` is idempotent: for every string `s`, present or absent,
`normalize(normalize(s)) = normalize(s)`. -/
theorem normalize_idempotent (s : Option Str) :
    normalize (some (normalize s)) = normalize s :=
  normalizeStr_of_canonical _ (normalizeStr_canonical _)

/-- The first three steps of `normalize` on one code unit. -/
theorem normalize_steps_foldUnit (c : Nat) :
    ((viewLower c).map fun c => if isCurlyQuote c then 39 else c).map
        (fun c => if isAlnumLower c || isWs c then c else 32) =
      ((viewLower (foldUnit c)).map fun c => if isCurlyQuote c then 39 else c).map
        (fun c => if isAlnumLower c || isWs c then c else 32) := by
  by_cases hc : isCurlyQuote c = true
  · have : ((c = 8216 ∨ c = 8217) ∨ c = 8220) ∨ c = 8221 := by
      simpa [isCurlyQuote] using hc
    rcases this with ((rfl | rfl) | rfl) | rfl <;> decide
  · have hc' : isCurlyQuote c = false := by simpa using hc
    by_cases hu : isUpperAz c = true
    · have h1 : foldUnit c = c + 32 := by simp [foldUnit, hc', asciiLower, hu]
      have h2 : viewLower c = [c + 32] := by simp [viewLower, hu]
      have h3 : viewLower (c + 32) = [c + 32] := by
        simp only [isUpperAz, Bool.and_eq_true, decide_eq_true_eq] at hu
        have g1 : isUpperAz (c + 32) = false := by
          simp only [isUpperAz, Bool.and_eq_false_iff, decide_eq_false_iff_not]; omega
        have g2 : ¬ c + 32 = 304 := by omega
        have g3 : ¬ c + 32 = 8490 := by omega
        simp [viewLower, g1, g2, g3]
      rw [h1, h2, h3]
    · have hu' : isUpperAz c = false := by simpa using hu
      have h1 : foldUnit c = c := by simp [foldUnit, hc', asciiLower, hu']
      rw [h1]

/-- Two strings that agree up to ASCII case and the kind of quote have the
same normal form. -/
theorem normalizeStr_congr (s t : Str) (h : s.map foldUnit = t.map foldUnit) :
    normalizeStr s = normalizeStr t := by
  have key : ∀ u : Str,
      ((toLowerCase u).map fun c => if isCurlyQuote c then 39 else c).map
          (fun c => if isAlnumLower c || isWs c then c else 32) =
        (u.map foldUnit).flatMap fun c =>
          ((viewLower c).map fun c => if isCurlyQuote c then 39 else c).map
            (fun c => if isAlnumLower c || isWs c then c else 32) := by
    intro u
    rw [normalize_steps_toLowerCase]
    induction u with
    | nil => rfl
    | cons a l ih =>
      simp only [List.flatMap_cons, List.map_append, List.map_cons] at ih ⊢
      rw [ih, normalize_steps_foldUnit a]
  show trim (replaceWsRuns 32 false _) = trim (replaceWsRuns 32 false _)
  rw [key s, key t, h]

theorem foldUnit_asciiUpper (c : Nat) : foldUnit (asciiUpper c) = foldUnit c := by
  by_cases hl : isLowerAz c = true
  · have h1 : asciiUpper c = c - 32 := by simp [asciiUpper, hl]
    simp only [isLowerAz, Bool.and_eq_true, decide_eq_true_eq] at hl
    have h2 : isCurlyQuote (c - 32) = false := by
      simp only [isCurlyQuote, Bool.or_eq_false_iff, beq_eq_false_iff_ne]; omega
    have h3 : isCurlyQuote c = false := by
      simp only [isCurlyQuote, Bool.or_eq_false_iff, beq_eq_false_iff_ne]; omega
    have h4 : isUpperAz (c - 32) = true := by
      simp only [isUpperAz, Bool.and_eq_true, decide_eq_true_eq]; omega
    have h5 : isUpperAz c = false := by
      simp only [isUpperAz, Bool.and_eq_false_iff, decide_eq_false_iff_not]; omega
    simp only [h1, foldUnit, h2, h3, asciiLower, h4, h5, if_true, Bool.false_eq_true, if_false]
    omega
  · have hl' : isLowerAz c = false := by simpa using hl
    simp [asciiUpper, hl']

theorem foldUnit_asciiLower (c : Nat) : foldUnit (asciiLower c) = foldUnit c := by
  by_cases hu : isUpperAz c = true
  · have h1 : asciiLower c = c + 32 := by simp [asciiLower, hu]
    simp only [isUpperAz, Bool.and_eq_true, decide_eq_true_eq] at hu
    have h2 : isCurlyQuote (c + 32) = false := by
      simp only [isCurlyQuote, Bool.or_eq_false_iff, beq_eq_false_iff_ne]; omega
    have h3 : isCurlyQuote c = false := by
      simp only [isCurlyQuote, Bool.or_eq_false_iff, beq_eq_false_iff_ne]; omega
    have h4 : isUpperAz (c + 32) = false := by
      simp only [isUpperAz, Bool.and_eq_false_iff, decide_eq_false_iff_not]; omega
    have h5 : isUpperAz c = true := by
      simp only [isUpperAz, Bool.and_eq_true, decide_eq_true_eq]; omega
    simp only [h1, foldUnit, h2, h3, asciiLower, h4, h5, if_true, Bool.false_eq_true, if_false]
  · have hu' : isUpperAz c = false := by simpa using hu
    simp [asciiLower, hu']

theorem map_foldUnit_straightenQuotes (pick : Nat → Bool) (i : Nat) (s : Str) :
    (straightenQuotes pick i s).map foldUnit = s.map foldUnit := by
  induction s generalizing i with
  | nil => rfl
  | cons a l ih =>
    simp only [straightenQuotes, List.map_cons, ih]
    congr 1
    by_cases h : (pick i && isCurlyQuote a) = true
    · rw [if_pos h]
      have ha : isCurlyQuote a = true := by
        simp only [Bool.and_eq_true] at h; exact h.2
      simp only [foldUnit, ha, if_true]
      rfl
    · rw [if_neg h]

/-- C2. `normalize` is case- and quote-insensitive: for every string `s` the
result is the same for `s`, for `s` with its ASCII letters upper-cased, for `s`
with its ASCII letters lower-cased, and for `s` with any choice of its curly
quotes (U+2018, U+2019, U+201C, U+201D) replaced by a straight apostrophe; in
particular `Don’t`, `Don't` and `DON'T` have one normal form. -/
theorem normalize_case_quote_insensitive (s : Str) (pick : Nat → Bool) :
    normalize (some (s.map asciiUpper)) = normalize (some s) ∧
      normalize (some (s.map asciiLower)) = normalize (some s) ∧
      normalize (some (straightenQuotes pick 0 s)) = normalize (some s) ∧
      normalize (some (units "Don’t")) = normalize (some (units "Don't")) ∧
      normalize (some (units "Don't")) = normalize (some (units "DON'T")) := by
  refine ⟨?_, ?_, ?_, by decide, by decide⟩
  · refine normalizeStr_congr _ _ ?_
    show (s.map asciiUpper).map foldUnit = s.map foldUnit
    rw [List.map_map]
    exact List.map_congr_left fun c _ => foldUnit_asciiUpper c
  · refine normalizeStr_congr _ _ ?_
    show (s.map asciiLower).map foldUnit = s.map foldUnit
    rw [List.map_map]
    exact List.map_congr_left fun c _ => foldUnit_asciiLower c
  · exact normalizeStr_congr _ _ (map_foldUnit_straightenQuotes pick 0 s)

/-- C3. `normalize` is total and produces the canonical form: for every input,
absent and empty included, the result holds only `a`..`z`, `0`..`9` and the
space, neither starts nor ends with a space and has no two spaces in a row;
for an absent and for an empty input it is the empty string. -/
theorem normalize_total_canonical (s : Option Str) :
    (∀ c ∈ normalize s, isLowerAz c = true ∨ isDigit c = true ∨ c = 32) ∧
      (normalize s).head? ≠ some 32 ∧ (normalize s).getLast? ≠ some 32 ∧
      ¬ [32, 32] <:+: normalize s ∧
      normalize none = [] ∧ normalize (some []) = [] := by
  obtain ⟨h1, h2, h3, h4⟩ := normalizeStr_canonical (s.getD [])
  refine ⟨?_, h2, h3, h4, by decide, by decide⟩
  intro c hc
  rcases h1 c hc with h | h
  · simp only [isAlnumLower, Bool.or_eq_true] at h
    rcases h with h | h
    · exact Or.inl h
    · exact Or.inr (Or.inl h)
  · exact Or.inr (Or.inr h)

/-! ## Matching up to ASCII case -/

theorem asciiLower_eq_of_asciiUpper_eq {c p : Nat} (h : asciiUpper c = asciiUpper p) :
    asciiLower c = asciiLower p := by
  simp only [asciiUpper, asciiLower, isLowerAz, isUpperAz, Bool.and_eq_true,
    decide_eq_true_eq] at h ⊢
  split_ifs at h ⊢ <;> omega

theorem asciiUpper_eq_of_asciiLower_eq {c p : Nat} (h : asciiLower c = asciiLower p) :
    asciiUpper c = asciiUpper p := by
  simp only [asciiUpper, asciiLower, isLowerAz, isUpperAz, Bool.and_eq_true,
    decide_eq_true_eq] at h ⊢
  split_ifs at h ⊢ <;> omega

/-- What a successful `ciStrip` returns: a split of the text whose first part
is the pattern up to ASCII case. -/
theorem ciStrip_spec (pat s m r : Str) (h : ciStrip pat s = some (m, r)) :
    s = m ++ r ∧ m.map asciiLower = pat.map asciiLower := by
  induction pat generalizing s m r with
  | nil =>
    simp only [ciStrip, Option.some.injEq, Prod.mk.injEq] at h
    obtain ⟨rfl, rfl⟩ := h
    exact ⟨rfl, rfl⟩
  | cons p ps ih =>
    cases s with
    | nil => simp [ciStrip] at h
    | cons c cs =>
      by_cases hc : ciEq c p = true
      · simp only [ciStrip, hc, if_true, Option.map_eq_some', Prod.mk.injEq] at h
        obtain ⟨⟨m', r'⟩, h', rfl, rfl⟩ := h
        obtain ⟨i1, i2⟩ := ih cs m' r' h'
        refine ⟨by rw [i1]; rfl, ?_⟩
        simp only [List.map_cons, i2]
        congr 1
        exact asciiLower_eq_of_asciiUpper_eq (by simpa [ciEq] using hc)
      · simp [ciStrip, hc] at h

/-- The converse: a text that starts with the pattern up to ASCII case is
stripped of it. -/
theorem ciStrip_of_map_eq (pat m r : Str) (h : m.map asciiLower = pat.map asciiLower) :
    ciStrip pat (m ++ r) = some (m, r) := by
  induction pat generalizing m with
  | nil =>
    have : m = [] := by simpa using h
    subst this
    rfl
  | cons p ps ih =>
    cases m with
    | nil => simp at h
    | cons c cs =>
      simp only [List.map_cons, List.cons.injEq] at h
      have hc : ciEq c p = true := by
        simpa [ciEq] using asciiUpper_eq_of_asciiLower_eq h.1
      simp [ciStrip, hc, ih cs h.2]

/-- A code unit that matches no unit of the pattern stops `ciStrip` like the
end of the text does. -/
theorem ciStrip_append_sep (pat x b : Str) (sep : Nat) (hsep : ∀ p ∈ pat, ciEq sep p = false) :
    ciStrip pat (x ++ sep :: b) = (ciStrip pat x).map fun mr => (mr.1, mr.2 ++ sep :: b) := by
  induction pat generalizing x with
  | nil => rfl
  | cons p ps ih =>
    have hps : ∀ q ∈ ps, ciEq sep q = false := fun q hq => hsep q (List.mem_cons_of_mem _ hq)
    cases x with
    | nil => simp [ciStrip, hsep p (List.mem_cons_self _ _)]
    | cons c cs =>
      by_cases hc : ciEq c p = true
      · have e : ciStrip (p :: ps) ((c :: cs) ++ sep :: b) =
            (ciStrip ps (cs ++ sep :: b)).map fun mr => (c :: mr.1, mr.2) := by
          simp [ciStrip, hc]
        rw [e, ih cs hps]
        simp only [ciStrip, hc, if_true, Option.map_map]
        rfl
      · simp [ciStrip, hc]

theorem takeWhile_append_sep (p : Nat → Bool) (x b : Str) (sep : Nat) (hsep : p sep = false) :
    (x ++ sep :: b).takeWhile p = x.takeWhile p := by
  induction x with
  | nil => simp [List.takeWhile_cons, hsep]
  | cons c cs ih =>
    by_cases hc : p c = true
    · simp [List.takeWhile_cons, hc, ih]
    · simp [List.takeWhile_cons, hc]

/-! ## `extractExplicitUrls` -/

/-- A space ends an attempt of the URL expression like the end of the text. -/
theorem matchUrlAt_append_space (x b : Str) : matchUrlAt (x ++ 32 :: b) = matchUrlAt x := by
  unfold matchUrlAt
  rw [ciStrip_append_sep _ x b 32 (by decide)]
  cases h1 : ciStrip [104, 116, 116, 112] x with
  | none => rfl
  | some mr1 =>
    obtain ⟨m1, r1⟩ := mr1
    simp only [Option.map_some']
    rw [ciStrip_append_sep _ r1 b 32 (by decide)]
    cases h2 : ciStrip [115] r1 with
    | none =>
      simp only [Option.map_none', Option.getD_none]
      rw [ciStrip_append_sep _ r1 b 32 (by decide)]
      cases h3 : ciStrip [58, 47, 47] r1 with
      | none => rfl
      | some mr3 =>
        simp only [Option.map_some']
        rw [takeWhile_append_sep _ _ _ 32 (by decide)]
    | some mr2 =>
      obtain ⟨m2, r2⟩ := mr2
      simp only [Option.map_some', Option.getD_some]
      rw [ciStrip_append_sep _ r2 b 32 (by decide)]
      cases h3 : ciStrip [58, 47, 47] r2 with
      | none => rfl
      | some mr3 =>
        simp only [Option.map_some']
        rw [takeWhile_append_sep _ _ _ 32 (by decide)]

/-- What a successful attempt of the URL expression returns: a scheme
`http://` or `https://` up to ASCII case, then a non-empty run of the class,
the two together a beginning of the text. -/
theorem matchUrlAt_spec (s m : Str) (h : matchUrlAt s = some m) :
    ∃ scheme run rest, m = scheme ++ run ∧ s = m ++ rest ∧
      (scheme.map asciiLower = units "http://" ∨ scheme.map asciiLower = units "https://") ∧
      run ≠ [] ∧ ∀ c ∈ run, isUrlUnit c = true := by
  unfold matchUrlAt at h
  cases h1 : ciStrip [104, 116, 116, 112] s with
  | none => simp [h1] at h
  | some mr1 =>
    obtain ⟨m1, r1⟩ := mr1
    obtain ⟨e1, l1⟩ := ciStrip_spec _ _ _ _ h1
    simp only [h1] at h
    have hopt : ∃ m2 r2, (ciStrip [115] r1).getD ([], r1) = (m2, r2) ∧ r1 = m2 ++ r2 ∧
        (m2.map asciiLower = [] ∨ m2.map asciiLower = [115]) := by
      cases h2 : ciStrip [115] r1 with
      | none => exact ⟨[], r1, rfl, rfl, Or.inl rfl⟩
      | some mr2 =>
        obtain ⟨m2, r2⟩ := mr2
        obtain ⟨e2, l2⟩ := ciStrip_spec _ _ _ _ h2
        exact ⟨m2, r2, rfl, e2, Or.inr l2⟩
    obtain ⟨m2, r2, hopt, e2, l2⟩ := hopt
    rw [hopt] at h
    cases h3 : ciStrip [58, 47, 47] r2 with
    | none => simp [h3] at h
    | some mr3 =>
      obtain ⟨m3, r3⟩ := mr3
      obtain ⟨e3, l3⟩ := ciStrip_spec _ _ _ _ h3
      simp only [h3] at h
      by_cases hrun : (r3.takeWhile isUrlUnit).isEmpty = true
      · simp [hrun] at h
      · simp only [hrun, Bool.false_eq_true, if_false, Option.some.injEq] at h
        refine ⟨m1 ++ m2 ++ m3, r3.takeWhile isUrlUnit, r3.dropWhile isUrlUnit, h.symm, ?_, ?_,
          ?_, fun c hc => (List.mem_takeWhile_imp hc)⟩
        · rw [← h, e1, e2, e3]
          conv_lhs => rw [← List.takeWhile_append_dropWhile isUrlUnit r3]
          simp only [List.append_assoc]
        · rcases l2 with l2 | l2
          · left
            simp only [List.map_append, l1, l2, l3]
            decide
          · right
            simp only [List.map_append, l1, l2, l3]
            decide
        · intro h0
          rw [h0] at hrun
          exact hrun rfl

theorem isUrlUnit_of_scheme (scheme : Str)
    (h : scheme.map asciiLower = units "http://" ∨ scheme.map asciiLower = units "https://")
    (c : Nat) (hc : c ∈ scheme) : isUrlUnit c = true := by
  have hmem : asciiLower c ∈ units "https://" := by
    have : asciiLower c ∈ scheme.map asciiLower := List.mem_map_of_mem _ hc
    rcases h with h | h
    · rw [h] at this
      exact (by decide : ∀ x ∈ units "http://", x ∈ units "https://") _ this
    · rw [h] at this; exact this
  have hu : units "https://" = [104, 116, 116, 112, 115, 58, 47, 47] := by decide
  rw [hu] at hmem
  simp only [List.mem_cons, List.mem_singleton, List.not_mem_nil, or_false] at hmem
  simp only [asciiLower, isUpperAz, Bool.and_eq_true, decide_eq_true_eq] at hmem
  simp only [isUrlUnit, isWs, Bool.not_eq_true', Bool.or_eq_false_iff, Bool.and_eq_false_iff,
    decide_eq_false_iff_not, beq_eq_false_iff_ne]
  split_ifs at hmem <;> omega

/-- Every match of the scan comes from a successful attempt. -/
theorem mem_scanUrls (s : Str) (k : Nat) (u : Str) (h : u ∈ scanUrls k s) :
    ∃ t, matchUrlAt t = some u := by
  induction s generalizing k with
  | nil => simp [scanUrls] at h
  | cons c cs ih =>
    cases k with
    | succ k => exact ih k (by simpa [scanUrls] using h)
    | zero =>
      cases hm : matchUrlAt (c :: cs) with
      | none =>
        simp only [scanUrls, hm] at h
        exact ih 0 h
      | some m =>
        simp only [scanUrls, hm, List.mem_cons] at h
        rcases h with rfl | h
        · exact ⟨_, hm⟩
        · exact ih _ h

/-- A match holds no closing punctuation, so the strip leaves it as it is. -/
theorem stripClosingPunct_of_isUrlUnit (u : Str) (h : ∀ c ∈ u, isUrlUnit c = true) :
    stripClosingPunct u = u := by
  unfold stripClosingPunct
  rw [List.rdropWhile_eq_self_iff]
  intro hne
  have := h _ (List.getLast_mem hne)
  simp only [isUrlUnit, Bool.not_eq_true', Bool.or_eq_false_iff] at this
  simp [isClosingPunct, this.1.1.2, this.1.2, this.2]

/-- The shape of every extracted URL. -/
theorem extractExplicitUrls_shape (text : Option Str) (u : Str)
    (h : u ∈ extractExplicitUrls text) :
    ∃ scheme run, u = scheme ++ run ∧
      (scheme.map asciiLower = units "http://" ∨ scheme.map asciiLower = units "https://") ∧
      run ≠ [] ∧ ∀ c ∈ u, isUrlUnit c = true := by
  have key : ∀ t : Str, u ∈ (scanUrls 0 t).map stripClosingPunct →
      ∃ scheme run, u = scheme ++ run ∧
        (scheme.map asciiLower = units "http://" ∨ scheme.map asciiLower = units "https://") ∧
        run ≠ [] ∧ ∀ c ∈ u, isUrlUnit c = true := by
    intro t ht
    obtain ⟨m, hm, rfl⟩ := List.mem_map.1 ht
    obtain ⟨t', ht'⟩ := mem_scanUrls t 0 m hm
    obtain ⟨scheme, run, rest, e1, _, hs, hne, hrun⟩ := matchUrlAt_spec t' m ht'
    have hall : ∀ c ∈ m, isUrlUnit c = true := by
      intro c hc
      rw [e1] at hc
      rcases List.mem_append.1 hc with hc | hc
      · exact isUrlUnit_of_scheme scheme hs c hc
      · exact hrun c hc
    rw [stripClosingPunct_of_isUrlUnit m hall]
    exact ⟨scheme, run, e1, hs, hne, hall⟩
  match text, h with
  | some (c :: cs), h => exact key (c :: cs) h

theorem extractExplicitUrls_ne_nil (text : Option Str) (u : Str)
    (h : u ∈ extractExplicitUrls text) : u ≠ [] := by
  obtain ⟨scheme, run, rfl, _, hne, _⟩ := extractExplicitUrls_shape text u h
  simp [hne]

theorem scanUrls_zero_cons (c : Nat) (cs : Str) :
    scanUrls 0 (c :: cs) =
      match matchUrlAt (c :: cs) with
      | some m => m :: scanUrls (m.length - 1) cs
      | none => scanUrls 0 cs := rfl

/-- The scan of two texts joined by a space is the scan of the first followed
by the scan of the second. -/
theorem scanUrls_append_space (a b : Str) (k : Nat) (hk : k ≤ a.length) :
    scanUrls k (a ++ 32 :: b) = scanUrls k a ++ scanUrls 0 b := by
  induction a generalizing k with
  | nil =>
    have : k = 0 := by simpa using hk
    subst this
    have : matchUrlAt (32 :: b) = none := by
      have := matchUrlAt_append_space [] b
      simpa using this
    simp [scanUrls, this]
  | cons c cs ih =>
    cases k with
    | succ k =>
      simp only [List.cons_append, scanUrls]
      exact ih k (by simpa using hk)
    | zero =>
      have hm := matchUrlAt_append_space (c :: cs) b
      simp only [List.cons_append] at hm
      cases h : matchUrlAt (c :: cs) with
      | none =>
        rw [List.cons_append, scanUrls_zero_cons, scanUrls_zero_cons, hm, h]
        exact ih 0 (Nat.zero_le _)
      | some m =>
        obtain ⟨_, _, rest, _, e, _, _, _⟩ := matchUrlAt_spec _ _ h
        have hlen : m.length - 1 ≤ cs.length := by
          have := congrArg List.length e
          simp only [List.length_cons, List.length_append] at this
          omega
        rw [List.cons_append, scanUrls_zero_cons, scanUrls_zero_cons, hm, h]
        simp only [ih _ hlen, List.cons_append]

/-- C4. `extractExplicitUrls` keeps the order of occurrence and keeps
duplicates: for all texts `a` and `b`, the URLs of `a + " " + b` are the URLs
of `a` followed by the URLs of `b`, nothing removed or reordered; in particular
`see http://a.com/1, also http://a.com/1` yields the URL twice. -/
theorem extractExplicitUrls_append (a b : Str) :
    extractExplicitUrls (some (a ++ units " " ++ b)) =
        extractExplicitUrls (some a) ++ extractExplicitUrls (some b) ∧
      extractExplicitUrls (some (units "see http://a.com/1, also http://a.com/1")) =
        [units "http://a.com/1", units "http://a.com/1"] := by
  refine ⟨?_, by decide⟩
  have key : ∀ t : Str, extractExplicitUrls (some t) = (scanUrls 0 t).map stripClosingPunct := by
    intro t
    cases t with
    | nil => rfl
    | cons c cs => rfl
  have hsp : units " " = [32] := by decide
  rw [key, key, key, hsp, List.append_assoc, List.singleton_append,
    scanUrls_append_space a b 0 (Nat.zero_le _), List.map_append]

/-- C5. Every URL that `extractExplicitUrls` returns is free of closing
punctuation: it starts with `http://` or `https://` up to ASCII case, at least
one code unit follows, and it holds no whitespace and none of `,`, `)`, `]`
(so `http://x.com/id)` yields `http://x.com/id`); an absent and an empty text
yield the empty sequence. -/
theorem extractExplicitUrls_wellformed (text : Option Str) :
    (∀ u ∈ extractExplicitUrls text, ∃ scheme rest, u = scheme ++ rest ∧
        (scheme.map asciiLower = units "http://" ∨ scheme.map asciiLower = units "https://") ∧
        rest ≠ [] ∧ ∀ c ∈ u, isWs c = false ∧ c ≠ 44 ∧ c ≠ 41 ∧ c ≠ 93) ∧
      extractExplicitUrls none = [] ∧ extractExplicitUrls (some []) = [] ∧
      extractExplicitUrls (some (units "http://x.com/id)")) = [units "http://x.com/id"] := by
  refine ⟨?_, rfl, rfl, by decide⟩
  intro u hu
  obtain ⟨scheme, run, e, hs, hne, hall⟩ := extractExplicitUrls_shape text u hu
  refine ⟨scheme, run, e, hs, hne, fun c hc => ?_⟩
  have := hall c hc
  simp only [isUrlUnit, Bool.not_eq_true', Bool.or_eq_false_iff, beq_eq_false_iff_ne] at this
  exact ⟨this.1.1.1, this.1.1.2, this.1.2, this.2⟩

/-! ## Containment tests -/

/-- The test `includes` is containment as a contiguous block. -/
theorem includes_iff (pat s : Str) : includes pat s = true ↔ pat <:+: s := by
  induction s with
  | nil => simp [includes, List.isPrefixOf_iff_prefix]
  | cons c cs ih =>
    rw [List.infix_cons_iff, ← ih]
    simp [includes, List.isPrefixOf_iff_prefix]

theorem ciStrip_isSome_iff (pat s : Str) :
    (ciStrip pat s).isSome = true ↔ pat.map asciiLower <+: s.map asciiLower := by
  constructor
  · intro h
    obtain ⟨⟨m, r⟩, hmr⟩ := Option.isSome_iff_exists.1 h
    obtain ⟨e, hm⟩ := ciStrip_spec _ _ _ _ hmr
    rw [e, List.map_append, ← hm]
    exact List.prefix_append _ _
  · intro h
    have h1 := List.prefix_iff_eq_take.1 h
    rw [List.length_map, ← List.map_take] at h1
    have h2 := ciStrip_of_map_eq pat (s.take pat.length) (s.drop pat.length) h1.symm
    rw [List.take_append_drop] at h2
    rw [h2]
    rfl

/-- The test `/pat/i.test(s)` is containment up to ASCII case. -/
theorem ciIncludes_iff (pat s : Str) :
    ciIncludes pat s = true ↔ pat.map asciiLower <:+: s.map asciiLower := by
  induction s with
  | nil =>
    simp only [ciIncludes, ciStrip_isSome_iff, List.map_nil, List.infix_nil, List.prefix_nil]
  | cons c cs ih =>
    rw [List.map_cons, List.infix_cons_iff, ← ih, ← List.map_cons, ← ciStrip_isSome_iff]
    simp [ciIncludes]

/-- The first element of a list with a property: the result of `find`. -/
theorem find?_first {p : Str → Bool} (l : List Str) (h : ∃ u ∈ l, p u = true) :
    ∃ pre u post, l = pre ++ u :: post ∧ p u = true ∧ (∀ v ∈ pre, p v = false) ∧
      l.find? p = some u := by
  have hs : (l.find? p).isSome = true := List.find?_isSome.2 h
  obtain ⟨u, hu⟩ := Option.isSome_iff_exists.1 hs
  obtain ⟨h1, pre, post, h2, h3⟩ := List.find?_eq_some.1 hu
  exact ⟨pre, u, post, h2, h1, fun v hv => by simpa using h3 v hv, hu⟩

/-! ## `selectPreferredUrl` -/

theorem firstPriority_skip (explicit before rest : List Str)
    (h : ∀ q ∈ before, ∀ u ∈ explicit, includes q (toLowerCase u) = false) :
    firstPriority explicit (before ++ rest) = firstPriority explicit rest := by
  induction before with
  | nil => rfl
  | cons q qs ih =>
    have hq : explicit.find? (fun u => includes q (toLowerCase u)) = none := by
      rw [List.find?_eq_none]
      intro u hu
      simp [h q (List.mem_cons_self _ _) u hu]
    rw [List.cons_append]
    simp only [firstPriority, hq]
    exact ih fun q' hq' => h q' (List.mem_cons_of_mem _ hq')

theorem firstPriority_hit (explicit pds : List Str) (pd u : Str)
    (hfind : explicit.find? (fun u => includes pd (toLowerCase u)) = some u) (hne : u ≠ []) :
    firstPriority explicit (pd :: pds) = some u := by
  cases u with
  | nil => exact absurd rfl hne
  | cons c cs => simp only [firstPriority, hfind]

theorem firstPriority_none (explicit pds : List Str)
    (h : ∀ q ∈ pds, ∀ u ∈ explicit, includes q (toLowerCase u) = false) :
    firstPriority explicit pds = none := by
  have := firstPriority_skip explicit pds [] h
  rw [List.append_nil] at this
  rw [this]
  rfl

/-- C6. `selectPreferredUrl` honours domain priority over position: when `pd`
is the earliest priority domain that some extracted URL contains after
lower-casing (no extracted URL contains a domain listed before `pd`), the
result is the first extracted URL, in text order, that contains `pd`, wherever
other URLs stand in the text. -/
theorem selectPreferredUrl_priority (text : Option Str) (before after : List Str) (pd : Str)
    (hpd : priorityDomains = before ++ pd :: after)
    (hbefore : ∀ q ∈ before, ∀ u ∈ extractExplicitUrls text, ¬ q <:+: toLowerCase u)
    (hsome : ∃ u ∈ extractExplicitUrls text, pd <:+: toLowerCase u) :
    ∃ pre u post, extractExplicitUrls text = pre ++ u :: post ∧ pd <:+: toLowerCase u ∧
      (∀ v ∈ pre, ¬ pd <:+: toLowerCase v) ∧ selectPreferredUrl text = some u := by
  obtain ⟨u0, hu0, hin0⟩ := hsome
  obtain ⟨pre, u, post, e, hu, hpre, hfind⟩ :=
    find?_first (p := fun u => includes pd (toLowerCase u)) (extractExplicitUrls text)
      ⟨u0, hu0, (includes_iff _ _).2 hin0⟩
  have hne : u ≠ [] :=
    extractExplicitUrls_ne_nil text u (by rw [e]; exact List.mem_append_right _ (List.mem_cons_self _ _))
  have h1 : firstPriority (extractExplicitUrls text) priorityDomains = some u := by
    rw [hpd, firstPriority_skip _ before _ fun q hq v hv => by
      have := hbefore q hq v hv
      rw [← includes_iff] at this
      simpa using this]
    exact firstPriority_hit _ _ _ _ hfind hne
  refine ⟨pre, u, post, e, (includes_iff _ _).1 hu, ?_, ?_⟩
  · intro v hv hin
    have := hpre v hv
    rw [(includes_iff _ _).2 hin] at this
    exact absurd this (by decide)
  · simp only [selectPreferredUrl, h1]

/-- The priority theorem at a text where a `play.zep` URL and a `dailymotion`
URL stand before two `dorex` URLs: the first `dorex` URL is chosen. -/
theorem selectPreferredUrl_priority_witness :
    priorityDomains =
        [units "short.icu", units "zoro.rpmplay.xyz"] ++ units "dorex" :: [units "play.zep"] ∧
      ∃ pre u post,
        extractExplicitUrls
            (some (units "http://dailymotion.com/v, http://play.zep/1 http://Dorex.to/2 http://dorex.to/3")) =
          pre ++ u :: post ∧
        units "dorex" <:+: toLowerCase u ∧ (∀ v ∈ pre, ¬ units "dorex" <:+: toLowerCase v) ∧
        selectPreferredUrl
            (some (units "http://dailymotion.com/v, http://play.zep/1 http://Dorex.to/2 http://dorex.to/3")) =
          some u :=
  ⟨by decide,
    selectPreferredUrl_priority
      (some (units "http://dailymotion.com/v, http://play.zep/1 http://Dorex.to/2 http://dorex.to/3"))
      [units "short.icu", units "zoro.rpmplay.xyz"] [units "play.zep"] (units "dorex")
      (by decide) (by decide) ⟨units "http://Dorex.to/2", by decide, by decide⟩⟩

/-- C7. Step 2 of `selectPreferredUrl`: when no extracted URL contains a
priority domain and some extracted URL does not contain `dailymotion` up to
ASCII case, the result is the first extracted URL, in text order, that does
not contain `dailymotion`. -/
theorem selectPreferredUrl_non_dailymotion (text : Option Str)
    (hnone : ∀ pd ∈ priorityDomains, ∀ u ∈ extractExplicitUrls text, ¬ pd <:+: toLowerCase u)
    (hsome : ∃ u ∈ extractExplicitUrls text, ¬ units "dailymotion" <:+: u.map asciiLower) :
    ∃ pre u post, extractExplicitUrls text = pre ++ u :: post ∧
      ¬ units "dailymotion" <:+: u.map asciiLower ∧
      (∀ v ∈ pre, units "dailymotion" <:+: v.map asciiLower) ∧
      selectPreferredUrl text = some u := by
  have hdm : (units "dailymotion").map asciiLower = units "dailymotion" := by decide
  have hci : ∀ v : Str, ciIncludes (units "dailymotion") v = true ↔
      units "dailymotion" <:+: v.map asciiLower := by
    intro v
    rw [ciIncludes_iff, hdm]
  obtain ⟨u0, hu0, hin0⟩ := hsome
  obtain ⟨pre, u, post, e, hu, hpre, hfind⟩ :=
    find?_first (p := fun u => !ciIncludes (units "dailymotion") u) (extractExplicitUrls text)
      ⟨u0, hu0, by
        rw [← hci] at hin0
        simpa using hin0⟩
  have hne : u ≠ [] :=
    extractExplicitUrls_ne_nil text u (by rw [e]; exact List.mem_append_right _ (List.mem_cons_self _ _))
  have h1 : firstPriority (extractExplicitUrls text) priorityDomains = none :=
    firstPriority_none _ _ fun q hq v hv => by
      have := hnone q hq v hv
      rw [← includes_iff] at this
      simpa using this
  refine ⟨pre, u, post, e, ?_, ?_, ?_⟩
  · rw [← hci]
    simpa using hu
  · intro v hv
    rw [← hci]
    simpa using hpre v hv
  · cases u with
    | nil => exact absurd rfl hne
    | cons c cs => simp only [selectPreferredUrl, h1, hfind]

/-- The step-2 theorem at a text with two `dailymotion` URLs before two
others: the first of the others is chosen. -/
theorem selectPreferredUrl_non_dailymotion_witness :
    ∃ pre u post,
      extractExplicitUrls
          (some (units "http://dailymotion.com/a (https://www.DailyMotion.com/b) http://b.c/d, http://e.f/g")) =
        pre ++ u :: post ∧
      ¬ units "dailymotion" <:+: u.map asciiLower ∧
      (∀ v ∈ pre, units "dailymotion" <:+: v.map asciiLower) ∧
      selectPreferredUrl
          (some (units "http://dailymotion.com/a (https://www.DailyMotion.com/b) http://b.c/d, http://e.f/g")) =
        some u :=
  selectPreferredUrl_non_dailymotion
    (some (units "http://dailymotion.com/a (https://www.DailyMotion.com/b) http://b.c/d, http://e.f/g"))
    (by decide) ⟨units "http://b.c/d", by decide, by decide⟩

/-- C8, evaluated on the code.  For the text
`http://dailymotion.com/x short.icu/abc` the extraction gives one explicit URL,
and `selectPreferredUrl` returns none of the extracted URLs but the string
`https://short.icu/abc` built from the bare token: step 3 runs whenever steps 1
and 2 return nothing, not only when there is no explicit URL. -/
theorem selectPreferredUrl_constructs_beside_explicit :
    extractExplicitUrls (some (units "http://dailymotion.com/x short.icu/abc")) =
        [units "http://dailymotion.com/x"] ∧
      selectPreferredUrl (some (units "http://dailymotion.com/x short.icu/abc")) =
        some (units "https://short.icu/abc") := by
  decide

theorem findToken_isSome (pat s : Str) : (findToken pat s).isSome = ciIncludes pat s := by
  induction s with
  | nil => simp [findToken, tokenAt, ciIncludes]
  | cons c cs ih =>
    cases h : ciStrip pat (c :: cs) with
    | none => simp [findToken, tokenAt, ciIncludes, h, ih]
    | some mr => simp [findToken, tokenAt, ciIncludes, h]

/-- C9. `selectPreferredUrl` never fabricates a URL without evidence: for a
text, absent and empty included, with no explicit URL and with none of the four
priority domains in it up to ASCII case, the result is `null`; the provider
token mapper is not consulted. -/
theorem selectPreferredUrl_no_evidence (text : Option Str)
    (hurl : extractExplicitUrls text = [])
    (hdom : ∀ pd ∈ priorityDomains, ¬ pd <:+: (text.getD []).map asciiLower) :
    selectPreferredUrl text = none := by
  have hlow : ∀ pd ∈ priorityDomains, pd.map asciiLower = pd := by decide
  have htok : findDomainToken text priorityDomains = none := by
    match text, hdom with
    | none, _ => rfl
    | some [], _ => rfl
    | some (c :: cs), hdom =>
      simp only [findDomainToken, List.findSome?_eq_none_iff]
      intro pat hpat
      have h1 : ciIncludes pat (c :: cs) = false := by
        have := hdom pat hpat
        rw [← hlow pat hpat, Option.getD_some, ← ciIncludes_iff] at this
        simpa using this
      have h2 : findToken pat (c :: cs) = none := by
        have := findToken_isSome pat (c :: cs)
        rw [h1] at this
        simpa using this
      rw [h2]
  have h1 : firstPriority [] priorityDomains = none :=
    firstPriority_none _ _ fun q _ u hu => by simp at hu
  simp only [selectPreferredUrl, hurl, h1, List.find?_nil, htok]

/-- The no-evidence theorem at the provider token `G1 (abc)`: no URL is made
from it. -/
theorem selectPreferredUrl_no_evidence_witness :
    extractExplicitUrls (some (units "G1 (abc)")) = [] ∧
      selectPreferredUrl (some (units "G1 (abc)")) = none :=
  ⟨by decide, selectPreferredUrl_no_evidence (some (units "G1 (abc)")) (by decide) (by decide)⟩

/-! ## The catalog parser -/

theorem takeWhile_append_stop (p : Nat → Bool) (x rest : Str) (c : Nat)
    (hx : ∀ a ∈ x, p a = true) (hc : p c = false) : (x ++ c :: rest).takeWhile p = x := by
  rw [List.takeWhile_append_of_pos hx, List.takeWhile_cons, hc]
  simp

theorem dropWhile_append_stop (p : Nat → Bool) (x rest : Str) (c : Nat)
    (hx : ∀ a ∈ x, p a = true) (hc : p c = false) : (x ++ c :: rest).dropWhile p = c :: rest := by
  rw [List.dropWhile_append_of_pos hx, List.dropWhile_cons, hc]
  rfl

theorem rdropWhile_append_stop (p : Nat → Bool) (x tail : Str)
    (hx : ∀ c, x.getLast? = some c → p c = false) (ht : ∀ a ∈ tail, p a = true) :
    (x ++ tail).rdropWhile p = x := by
  induction tail using List.reverseRecOn with
  | nil =>
    rw [List.append_nil, List.rdropWhile_eq_self_iff]
    intro hne
    have := hx _ (List.getLast?_eq_getLast _ hne)
    simp [this]
  | append_singleton l a ih =>
    rw [← List.append_assoc, List.rdropWhile_concat_pos _ _ _ (ht a (by simp))]
    exact ih fun b hb => ht b (List.mem_append_left _ hb)

/-- What `rdropWhile` removes satisfies the test. -/
theorem rdropWhile_rest (p : Nat → Bool) (l t : Str) (h : l.rdropWhile p ++ t = l) :
    ∀ a ∈ t, p a = true := by
  induction l using List.reverseRecOn generalizing t with
  | nil =>
    have : t = [] := by simpa using h
    subst this
    intro a ha
    simp at ha
  | append_singleton l b ih =>
    by_cases hb : p b = true
    · rw [List.rdropWhile_concat_pos _ _ _ hb] at h
      obtain ⟨t', ht'⟩ := List.rdropWhile_prefix p l
      have e : t = t' ++ [b] := by
        have h' := h
        rw [← ht', List.append_assoc] at h'
        have h2 : List.rdropWhile p l = List.rdropWhile p (List.rdropWhile p l ++ t') := by
          rw [ht']
        rw [← h2] at h'
        exact List.append_cancel_left h'
      intro a ha
      rw [e] at ha
      rcases List.mem_append.1 ha with ha | ha
      · exact ih t' ht' a ha
      · simp only [List.mem_singleton] at ha
        rw [ha]; exact hb
    · rw [List.rdropWhile_concat_neg _ _ _ hb] at h
      have : t = [] := by simpa using h
      subst this
      intro a ha
      simp at ha

theorem isWs_of_isDigit {c : Nat} (h : isDigit c = true) : isWs c = false := by
  simp only [isDigit, Bool.and_eq_true, decide_eq_true_eq] at h
  simp only [isWs, Bool.or_eq_false_iff, Bool.and_eq_false_iff, decide_eq_false_iff_not,
    beq_eq_false_iff_ne]
  omega

/-- The match of the heading expression that the embedding computes is the
one the expression describes. -/
theorem headingMatch_iff (line digits text : Str) :
    headingMatch line = some (digits, text) ↔ IsTitleHeading line digits text := by
  constructor
  · intro h
    unfold headingMatch at h
    by_cases hd : ((line.dropWhile isWs).takeWhile isDigit).isEmpty = true
    · simp [hd] at h
    · simp only [hd, Bool.false_eq_true, if_false] at h
      split at h
      · rename_i l3 hl2
        by_cases hlen : (l3.dropWhile isWs).length = l3.length
        · simp [hlen] at h
        · simp only [hlen, if_false] at h
          by_cases hg : (((l3.dropWhile isWs).rdropWhile isWs).isEmpty ||
              ((l3.dropWhile isWs).rdropWhile isWs).any isLineTerminator) = true
          · simp [hg] at h
          · simp only [hg, Bool.false_eq_true, if_false, Option.some.injEq, Prod.mk.injEq] at h
            obtain ⟨h1, h2⟩ := h
            simp only [Bool.or_eq_true, not_or, Bool.not_eq_true, List.isEmpty_eq_false,
              List.any_eq_false] at hg
            obtain ⟨ws2, hws2⟩ := List.rdropWhile_prefix isWs (l3.dropWhile isWs)
            have e4 : l3 = l3.takeWhile isWs ++ l3.dropWhile isWs :=
              (List.takeWhile_append_dropWhile isWs l3).symm
            have e2 : line.dropWhile isWs = digits ++ 46 :: l3 := by
              rw [← h1, ← hl2, List.takeWhile_append_dropWhile]
            have e1 : line = line.takeWhile isWs ++ line.dropWhile isWs :=
              (List.takeWhile_append_dropWhile isWs line).symm
            have hne : text ≠ [] := by
              rw [← h2]; intro h0; simp [h0] at hg
            refine ⟨line.takeWhile isWs, l3.takeWhile isWs, ws2, ?_,
              fun c hc => List.mem_takeWhile_imp hc, ?_, ?_, ?_,
              fun c hc => List.mem_takeWhile_imp hc, ?_, hne, ?_, ?_, ?_⟩
            · conv_lhs => rw [e1, e2, e4, ← hws2, h2]
              simp only [List.append_assoc, List.singleton_append, List.cons_append,
                List.nil_append]
            · rw [← h1]; intro h0; simp [h0] at hd
            · intro c hc
              rw [← h1] at hc
              exact List.mem_takeWhile_imp hc
            · intro h0
              apply hlen
              conv_rhs => rw [e4, h0]
              rfl
            · intro c hc
              exact rdropWhile_rest isWs _ ws2 hws2 c hc
            · intro c hc
              rw [← h2] at hc hne
              have h3 : (List.rdropWhile isWs (l3.dropWhile isWs)).head? =
                  (l3.dropWhile isWs).head? :=
                head?_eq_of_starts (List.rdropWhile_prefix isWs _) hne
              have h4 := List.head?_dropWhile_not isWs l3
              rw [← h3, hc] at h4
              simpa using h4
            · intro c hc
              rw [← h2] at hc hne
              have h3 := List.rdropWhile_last_not (p := isWs) (l := l3.dropWhile isWs) hne
              rw [List.getLast?_eq_getLast _ hne] at hc
              have h5 : (List.rdropWhile isWs (l3.dropWhile isWs)).getLast hne = c := by
                simpa using hc
              rw [h5] at h3
              simpa using h3
            · intro c hc
              rw [← h2] at hc
              exact hg.2 c hc
      · simp at h
  · rintro ⟨ws0, ws1, ws2, e, h0, hdne, hdig, h1ne, h1, h2, htne, hth, htl, hlt⟩
    obtain ⟨d, ds, rfl⟩ := List.exists_cons_of_ne_nil hdne
    obtain ⟨t, ts, rfl⟩ := List.exists_cons_of_ne_nil htne
    have hdw : isWs d = false := isWs_of_isDigit (hdig d (List.mem_cons_self _ _))
    have htw : isWs t = false := hth t rfl
    have a1 : line.dropWhile isWs = (d :: ds) ++ 46 :: (ws1 ++ (t :: ts) ++ ws2) := by
      rw [e]
      simp only [List.append_assoc, List.cons_append, List.nil_append]
      exact dropWhile_append_stop isWs ws0 _ d h0 hdw
    have a2 : ((d :: ds) ++ 46 :: (ws1 ++ (t :: ts) ++ ws2)).takeWhile isDigit = d :: ds :=
      takeWhile_append_stop isDigit _ _ 46 hdig (by decide)
    have a3 : ((d :: ds) ++ 46 :: (ws1 ++ (t :: ts) ++ ws2)).dropWhile isDigit =
        46 :: (ws1 ++ (t :: ts) ++ ws2) :=
      dropWhile_append_stop isDigit _ _ 46 hdig (by decide)
    have a4 : (ws1 ++ (t :: ts) ++ ws2).dropWhile isWs = (t :: ts) ++ ws2 := by
      rw [List.append_assoc, List.cons_append]
      exact dropWhile_append_stop isWs ws1 _ t h1 htw
    have a5 : ((t :: ts) ++ ws2).rdropWhile isWs = t :: ts :=
      rdropWhile_append_stop isWs _ _ htl h2
    have a6 : ((t :: ts) ++ ws2).length ≠ (ws1 ++ (t :: ts) ++ ws2).length := by
      obtain ⟨w, ws, rfl⟩ := List.exists_cons_of_ne_nil h1ne
      simp only [List.length_append, List.length_cons]
      omega
    have a7 : (t :: ts).any isLineTerminator = false := by
      rw [List.any_eq_false]
      intro c hc
      simp [hlt c hc]
    unfold headingMatch
    simp only [a1, a2, a3, a4, a5, a6, a7, List.isEmpty_cons, Bool.false_eq_true, if_false,
      Bool.or_self]

/-- One line of the loop adds an entry exactly when it is a title heading and
not a section candidate; the index and title of the entries already there do
not change. -/
theorem pushCur_parseLine (st : ParseState) (rawLine : Str) :
    (pushCur (parseLine st rawLine)).map (fun e => (e.index, e.title)) =
      (pushCur st).map (fun e => (e.index, e.title)) ++ (openingHeading rawLine).toList := by
  unfold parseLine openingHeading
  by_cases hs : sectionCandidate (expandTabs rawLine) = true
  · simp [hs, pushCur]
  · simp only [hs, Bool.false_eq_true, if_false]
    cases hh : headingMatch (expandTabs rawLine) with
    | some dg =>
      obtain ⟨digits, g⟩ := dg
      simp [pushCur]
    | none =>
      cases hc : st.cur with
      | none => simp [pushCur, hc]
      | some e =>
        cases hd : dashMatch (expandTabs rawLine) with
        | some group => simp [pushCur, hc]
        | none =>
          cases ht : trim (expandTabs rawLine) with
          | nil => simp [pushCur, hc]
          | cons c cs =>
            cases hk : e.meta.objectKeys.getLast? with
            | none => simp [pushCur, hc, hk]
            | some lastKey => simp [pushCur, hc, hk]

theorem pushCur_foldl_parseLine (lines : List Str) (st : ParseState) :
    (pushCur (lines.foldl parseLine st)).map (fun e => (e.index, e.title)) =
      (pushCur st).map (fun e => (e.index, e.title)) ++ lines.filterMap openingHeading := by
  induction lines generalizing st with
  | nil => simp
  | cons l ls ih =>
    rw [List.foldl_cons, ih, pushCur_parseLine, List.append_assoc]
    congr 1
    cases h : openingHeading l with
    | none => simp [List.filterMap_cons, h]
    | some x => simp [List.filterMap_cons, h]

/-- C10, as the claim states it, fails twice.  The line `1. UP` matches
`<integer>. <text>`, yet the parser returns no entry for it, because the line
is a section candidate (its letters are all upper-case) and the loop tests
that first.  The line `9007199254740993. big one` opens an entry, yet its index
is not that integer: `parseInt` gives a Number, here 9007199254740992. -/
theorem parseMoviesFile_heading_counterexample :
    (¬ (parseMoviesFile (units "1. UP")).map (fun m => (m.index, m.title)) =
        (splitLines (units "1. UP")).filterMap headingOfLine) ∧
      (¬ (parseMoviesFile (units "9007199254740993. big one")).map
          (fun m => (m.index, m.title)) =
        (splitLines (units "9007199254740993. big one")).filterMap headingOfLine) ∧
      (parseMoviesFile (units "9007199254740993. big one")).map (fun m => (m.index, m.title)) =
        [(.finite 9007199254740992, units "big one")] := by
  decide

set_option maxRecDepth 100000 in
/-- The rounding of `toNumber` at integers next to 2^53 and 2^54: a tie goes
to the even significand, everything else to the nearer double; the largest
integers that still round to a finite Number lie below 2^1024 - 2^970. -/
theorem toNumber_examples :
    toNumber (2 ^ 53 + 1) = .finite (2 ^ 53) ∧ toNumber (2 ^ 53 + 2) = .finite (2 ^ 53 + 2) ∧
      toNumber (2 ^ 53 + 3) = .finite (2 ^ 53 + 4) ∧ toNumber (2 ^ 54 + 1) = .finite (2 ^ 54) ∧
      toNumber (2 ^ 54 + 2) = .finite (2 ^ 54) ∧ toNumber (2 ^ 54 + 3) = .finite (2 ^ 54 + 4) ∧
      toNumber (2 ^ 54 + 6) = .finite (2 ^ 54 + 8) ∧
      toNumber (16 ^ 256 - 2 ^ 250 * 2 ^ 250 * 2 ^ 250 * 2 ^ 220 - 1) =
        .finite (16 ^ 256 - 2 ^ 250 * 2 ^ 250 * 2 ^ 250 * 2 ^ 221) ∧
      toNumber (16 ^ 256 - 2 ^ 250 * 2 ^ 250 * 2 ^ 250 * 2 ^ 220) = .infinity := by
  decide

/-- The Number for an integer up to 2^53 is that integer. -/
theorem toNumber_of_le (n : Nat) (h : n ≤ 2 ^ 53) : toNumber n = .finite n := by
  rcases Nat.lt_or_ge n (2 ^ 53) with h1 | h1
  · have h0 : n / 2 ^ 53 = 0 := Nat.div_eq_of_lt h1
    unfold toNumber
    simp only [h0, spacingOf, Nat.div_one, Nat.mod_one, Nat.mul_zero, Nat.mul_one]
    simp
    omega
  · have : n = 2 ^ 53 := Nat.le_antisymm h h1
    subst this
    decide

/-- The lines that open an entry, in the words of the specification: the
line, tabs expanded, is not a section candidate and matches
`<integer>. <text>`; the index is the value of the digit run and the title is
the text. -/
theorem openingHeading_iff (rawLine : Str) (index : JsNumber) (title : Str) :
    openingHeading rawLine = some (index, title) ↔
      sectionCandidate (expandTabs rawLine) = false ∧
        ∃ digits, IsTitleHeading (expandTabs rawLine) digits title ∧
          index = parseInt10 digits := by
  unfold openingHeading
  constructor
  · intro h
    by_cases hs : sectionCandidate (expandTabs rawLine) = true
    · simp [hs] at h
    · simp only [hs, Bool.false_eq_true, if_false, Option.map_eq_some', Prod.mk.injEq] at h
      obtain ⟨⟨digits, text⟩, hm, hi, ht⟩ := h
      have hspec := (headingMatch_iff _ _ _).1 hm
      have htrim : trim text = text := by
        obtain ⟨_, _, _, _, _, _, _, _, _, _, _, hh, hl, _⟩ := hspec
        exact trim_eq_self text hh hl
      simp only at hi ht
      rw [htrim] at ht
      subst ht
      exact ⟨by simpa using hs, digits, hspec, hi.symm⟩
  · rintro ⟨hs, digits, hspec, rfl⟩
    have htrim : trim title = title := by
      obtain ⟨_, _, _, _, _, _, _, _, _, _, _, hh, hl, _⟩ := hspec
      exact trim_eq_self title hh hl
    simp [hs, (headingMatch_iff _ _ _).2 hspec, htrim]

set_option maxRecDepth 100000 in
/-- C10, amended.  For every input text, the entries that the parser returns
correspond one-to-one and in order to the lines that match `<integer>. <text>`
(leading whitespace allowed) and are not section candidates, each entry having
the value of `parseInt` on the digit run as index and the trimmed remainder as
title.  That value is the integer of the digit run whenever the integer is at
most 2^53; beyond that it is a rounded double or `Infinity`
(9007199254740993 gives 9007199254740992, a run of 400 nines gives
`Infinity`). -/
theorem parseMoviesFile_headings (raw : Str) :
    (parseMoviesFile raw).map (fun m => (m.index, m.title)) =
        (splitLines raw).filterMap openingHeading ∧
      (∀ (rawLine : Str) (index : JsNumber) (title : Str),
        openingHeading rawLine = some (index, title) ↔
          sectionCandidate (expandTabs rawLine) = false ∧
            ∃ digits, IsTitleHeading (expandTabs rawLine) digits title ∧
              index = parseInt10 digits) ∧
      (∀ digits : Str, decimalValue digits ≤ 2 ^ 53 →
        parseInt10 digits = .finite (decimalValue digits)) ∧
      parseInt10 (units "9007199254740993") = .finite 9007199254740992 ∧
      parseInt10 (List.replicate 400 57) = .infinity := by
  refine ⟨?_, openingHeading_iff, fun digits h => toNumber_of_le _ h, by decide, by decide⟩
  have h := pushCur_foldl_parseLine (splitLines raw)
    { sectionName := none, entries := [], cur := none }
  simp only [pushCur, List.map_nil, List.nil_append] at h
  rw [← h]
  simp only [parseMoviesFile, parseEntries, List.map_map, pushCur]
  rfl

/-! ## Section assignment -/

theorem trim_ne_nil_of_sectionCandidate (ln : Str) (h : sectionCandidate ln = true) :
    trim ln ≠ [] := by
  intro h0
  simp [sectionCandidate, h0] at h

theorem sectionCandidate_trim_ne_unknown (ln : Str) (h : sectionCandidate ln = true) :
    trim ln ≠ units "Unknown" := by
  intro h0
  have : sectionCandidate ln = false := by
    unfold sectionCandidate
    rw [h0]
    decide
  rw [this] at h
  exact absurd h (by decide)

/-- The variable `section` after one more line. -/
theorem parseLine_sectionName (st : ParseState) (rawLine : Str) :
    (parseLine st rawLine).sectionName =
      if sectionCandidate (expandTabs rawLine) = true then some (trim (expandTabs rawLine))
      else st.sectionName := by
  unfold parseLine
  by_cases hs : sectionCandidate (expandTabs rawLine) = true
  · simp [hs]
  · simp only [hs, Bool.false_eq_true, if_false]
    cases hh : headingMatch (expandTabs rawLine) with
    | some dg => rfl
    | none =>
      cases hc : st.cur with
      | none => rfl
      | some e =>
        cases hd : dashMatch (expandTabs rawLine) with
        | some group => rfl
        | none =>
          cases ht : trim (expandTabs rawLine) with
          | nil => rfl
          | cons c cs =>
            cases hk : e.meta.objectKeys.getLast? with
            | none => simp only [hk]
            | some lastKey => simp only [hk]

/-- One line of the loop adds an entry exactly when it opens one, with the
section in force; the sections of the entries already there do not change. -/
theorem pushCur_parseLine_section (st : ParseState) (rawLine : Str) :
    (pushCur (parseLine st rawLine)).map (fun e => e.sectionName) =
      (pushCur st).map (fun e => e.sectionName) ++
        (if (openingHeading rawLine).isSome then [sectionOrUnknown st.sectionName] else []) := by
  unfold parseLine openingHeading
  by_cases hs : sectionCandidate (expandTabs rawLine) = true
  · simp [hs, pushCur]
  · simp only [hs, Bool.false_eq_true, if_false]
    cases hh : headingMatch (expandTabs rawLine) with
    | some dg =>
      obtain ⟨digits, g⟩ := dg
      simp [pushCur]
    | none =>
      cases hc : st.cur with
      | none => simp [pushCur, hc]
      | some e =>
        cases hd : dashMatch (expandTabs rawLine) with
        | some group => simp [pushCur, hc]
        | none =>
          cases ht : trim (expandTabs rawLine) with
          | nil => simp [pushCur, hc]
          | cons c cs =>
            cases hk : e.meta.objectKeys.getLast? with
            | none => simp [pushCur, hc, hk]
            | some lastKey => simp [pushCur, hc, hk]

theorem lastSection_concat (pre : List Str) (l : Str) :
    lastSection (pre ++ [l]) =
      if sectionCandidate (expandTabs l) = true then some (trim (expandTabs l))
      else lastSection pre := by
  unfold lastSection
  by_cases hs : sectionCandidate (expandTabs l) = true
  · simp [List.filter_append, hs]
  · simp [List.filter_append, hs]

theorem sectionOrUnknown_lastSection (pre : List Str) :
    sectionOrUnknown (lastSection pre) = sectionBefore pre := by
  unfold lastSection sectionBefore
  cases h : (pre.filter fun l => sectionCandidate (expandTabs l)).getLast? with
  | none => rfl
  | some l =>
    have hl : l ∈ pre.filter fun l => sectionCandidate (expandTabs l) :=
      List.mem_of_mem_getLast? h
    have hs : sectionCandidate (expandTabs l) = true := by
      simpa using (List.mem_filter.1 hl).2
    have hne := trim_ne_nil_of_sectionCandidate _ hs
    simp only [Option.map_some']
    cases ht : trim (expandTabs l) with
    | nil => exact absurd ht hne
    | cons c cs => rfl

/-- The section is `Unknown` exactly when no section-candidate line stands
before. -/
theorem sectionBefore_eq_unknown_iff (pre : List Str) :
    sectionBefore pre = units "Unknown" ↔ ∀ l ∈ pre, sectionCandidate (expandTabs l) = false := by
  unfold sectionBefore
  cases h : (pre.filter fun l => sectionCandidate (expandTabs l)).getLast? with
  | none =>
    have : (pre.filter fun l => sectionCandidate (expandTabs l)) = [] := by
      simpa using h
    simp only [true_iff]
    intro l hl
    by_contra hc
    have hmem : l ∈ pre.filter fun l => sectionCandidate (expandTabs l) :=
      List.mem_filter.2 ⟨hl, by simpa using hc⟩
    rw [this] at hmem
    simp at hmem
  | some l =>
    have hl : l ∈ pre.filter fun l => sectionCandidate (expandTabs l) :=
      List.mem_of_mem_getLast? h
    have hs : sectionCandidate (expandTabs l) = true := by
      simpa using (List.mem_filter.1 hl).2
    simp only
    constructor
    · intro h0
      exact absurd h0 (sectionCandidate_trim_ne_unknown _ hs)
    · intro hall
      have := hall l (List.mem_filter.1 hl).1
      rw [hs] at this
      exact absurd this (by decide)

/-- The sections of the entries after the whole loop. -/
theorem pushCur_foldl_section (lines : List Str) (st : ParseState) (pre : List Str)
    (h : st.sectionName = lastSection pre) :
    (pushCur (lines.foldl parseLine st)).map (fun e => e.sectionName) =
      (pushCur st).map (fun e => e.sectionName) ++ sectionsOf pre lines := by
  induction lines generalizing st pre with
  | nil => simp [sectionsOf]
  | cons l ls ih =>
    have hnext : (parseLine st l).sectionName = lastSection (pre ++ [l]) := by
      rw [parseLine_sectionName, lastSection_concat, h]
    rw [List.foldl_cons, ih (parseLine st l) (pre ++ [l]) hnext, pushCur_parseLine_section,
      List.append_assoc, h, sectionOrUnknown_lastSection]
    rfl

theorem sectionsOf_append (pre a b : List Str) :
    sectionsOf pre (a ++ b) = sectionsOf pre a ++ sectionsOf (pre ++ a) b := by
  induction a generalizing pre with
  | nil => simp [sectionsOf]
  | cons l ls ih =>
    have e1 : sectionsOf pre (l :: (ls ++ b)) =
        (if (openingHeading l).isSome then [sectionBefore pre] else []) ++
          sectionsOf (pre ++ [l]) (ls ++ b) := rfl
    have e2 : sectionsOf pre (l :: ls) =
        (if (openingHeading l).isSome then [sectionBefore pre] else []) ++
          sectionsOf (pre ++ [l]) ls := rfl
    rw [List.cons_append, e1, e2, ih, List.append_assoc, List.append_assoc,
      List.singleton_append]

theorem length_sectionsOf (pre a : List Str) :
    (sectionsOf pre a).length = (a.filterMap openingHeading).length := by
  induction a generalizing pre with
  | nil => rfl
  | cons l ls ih =>
    cases h : openingHeading l with
    | none => simp [sectionsOf, h, ih, List.filterMap_cons]
    | some x => simp [sectionsOf, h, ih, List.filterMap_cons]

theorem sectionsOf_ne_unknown (pre a : List Str)
    (h : sectionBefore pre ≠ units "Unknown") :
    ∀ x ∈ sectionsOf pre a, x ≠ units "Unknown" := by
  induction a generalizing pre with
  | nil => intro x hx; simp [sectionsOf] at hx
  | cons l ls ih =>
    have hnext : sectionBefore (pre ++ [l]) ≠ units "Unknown" := by
      intro h0
      apply h
      rw [sectionBefore_eq_unknown_iff] at h0 ⊢
      exact fun l' hl' => h0 l' (List.mem_append_left _ hl')
    intro x hx
    simp only [sectionsOf, List.mem_append] at hx
    rcases hx with hx | hx
    · by_cases ho : (openingHeading l).isSome = true
      · simp only [ho, if_true, List.mem_singleton] at hx
        rw [hx]; exact h
      · simp [ho] at hx
    · exact ih (pre ++ [l]) hnext x hx

theorem pairwise_sectionsOf (pre a : List Str) :
    (sectionsOf pre a).Pairwise fun x y => x ≠ units "Unknown" → y ≠ units "Unknown" := by
  induction a generalizing pre with
  | nil => exact List.Pairwise.nil
  | cons l ls ih =>
    simp only [sectionsOf]
    by_cases ho : (openingHeading l).isSome = true
    · simp only [ho, if_true, List.singleton_append, List.pairwise_cons]
      refine ⟨?_, ih (pre ++ [l])⟩
      intro y hy hx
      refine sectionsOf_ne_unknown (pre ++ [l]) ls ?_ y hy
      intro h0
      apply hx
      rw [sectionBefore_eq_unknown_iff] at h0 ⊢
      exact fun l' hl' => h0 l' (List.mem_append_left _ hl')
    · simp only [ho, Bool.false_eq_true, if_false, List.nil_append]
      exact ih (pre ++ [l])

/-- C11. Section assignment: for every input text, the entry that a heading
line opens has as its section the trimmed text of the last section-candidate
line before that heading line, which is `Unknown` exactly when no
section-candidate line stands before it; hence once an entry has a section
other than `Unknown`, no later entry has `Unknown`. -/
theorem parseMoviesFile_sections (raw : Str) :
    (∀ pre l post, splitLines raw = pre ++ l :: post → (openingHeading l).isSome = true →
        ((parseMoviesFile raw)[(pre.filterMap openingHeading).length]?).map
            (fun m => m.sectionName) = some (sectionBefore pre)) ∧
      (∀ pre : List Str, sectionBefore pre = units "Unknown" ↔
        ∀ l ∈ pre, sectionCandidate (expandTabs l) = false) ∧
      ((parseMoviesFile raw).map fun m => m.sectionName).Pairwise
        fun x y => x ≠ units "Unknown" → y ≠ units "Unknown" := by
  have key : (parseMoviesFile raw).map (fun m => m.sectionName) = sectionsOf [] (splitLines raw) := by
    have h := pushCur_foldl_section (splitLines raw)
      { sectionName := none, entries := [], cur := none } [] rfl
    simp only [pushCur, List.map_nil, List.nil_append] at h
    rw [← h]
    simp only [parseMoviesFile, parseEntries, List.map_map, pushCur]
    rfl
  refine ⟨?_, sectionBefore_eq_unknown_iff, ?_⟩
  · intro pre l post hsplit hopen
    rw [← List.getElem?_map, key, hsplit, sectionsOf_append, ← length_sectionsOf [] pre,
      List.getElem?_append_right (Nat.le_refl _), Nat.sub_self]
    simp [sectionsOf, hopen]
  · rw [key]
    exact pairwise_sectionsOf [] _

/-! ## Metadata -/

theorem own_map_assign_self (m : Meta) (k v : Str) :
    Meta.own (m.map fun kv => if kv.1 == k then (k, v) else kv) k =
      (m.own k).map fun _ => v := by
  unfold Meta.own
  induction m with
  | nil => rfl
  | cons a l ih =>
    by_cases ha : (a.1 == k) = true
    · have hkk : (k == k) = true := by simp
      simp only [List.map_cons, ha, if_true, List.find?_cons, hkk, Option.map_some']
    · simp only [List.map_cons, ha, Bool.false_eq_true, if_false, List.find?_cons]
      exact ih

theorem own_map_assign_other (m : Meta) (k v k' : Str) (h : k' ≠ k) :
    Meta.own (m.map fun kv => if kv.1 == k then (k, v) else kv) k' = m.own k' := by
  unfold Meta.own
  induction m with
  | nil => rfl
  | cons a l ih =>
    by_cases ha : (a.1 == k) = true
    · have hak : a.1 = k := by simpa using ha
      have h1 : (a.1 == k') = false := by
        rw [hak]; simpa using fun h' => h h'.symm
      have h2 : (k == k') = false := by simpa using fun h' => h h'.symm
      simp only [List.map_cons, ha, if_true, List.find?_cons, h1, h2]
      exact ih
    · simp only [List.map_cons, ha, Bool.false_eq_true, if_false, List.find?_cons]
      cases hk : (a.1 == k') with
      | true => rfl
      | false => exact ih

theorem any_key_iff_own (m : Meta) (k : Str) :
    (m.any fun kv => kv.1 == k) = (m.own k).isSome := by
  unfold Meta.own
  induction m with
  | nil => rfl
  | cons a l ih =>
    by_cases ha : (a.1 == k) = true
    · simp [List.find?_cons, ha]
    · simp only [List.any_cons, ha, Bool.false_eq_true, Bool.false_or, List.find?_cons]
      simpa using ih

/-- After `meta[key] = value` the own property `key` holds `value`. -/
theorem own_assign_self (m : Meta) (k v : Str) : (m.assign k v).own k = some v := by
  unfold Meta.assign
  by_cases hany : (m.any fun kv => kv.1 == k) = true
  · rw [if_pos hany, own_map_assign_self]
    rw [any_key_iff_own] at hany
    obtain ⟨x, hx⟩ := Option.isSome_iff_exists.1 hany
    rw [hx]; rfl
  · rw [if_neg hany]
    rw [any_key_iff_own] at hany
    have hnone : m.own k = none := by simpa using hany
    unfold Meta.own at hnone ⊢
    have hf : m.find? (fun kv => kv.1 == k) = none := by simpa using hnone
    simp [List.find?_append, hf]

/-- The assignment `meta[key] = value` leaves the other properties as they
are. -/
theorem own_assign_other (m : Meta) (k v k' : Str) (h : k' ≠ k) :
    (m.assign k v).own k' = m.own k' := by
  unfold Meta.assign
  by_cases hany : (m.any fun kv => kv.1 == k) = true
  · rw [if_pos hany, own_map_assign_other m k v k' h]
  · rw [if_neg hany]
    unfold Meta.own
    have h2 : (k == k') = false := by simpa using fun h' => h h'.symm
    simp [List.find?_append, h2]

/-- The metadata statement on a key that the entry has: a non-empty value gets
the new value appended after the separator, an empty value is replaced. -/
theorem own_metaAdd_of_own (m : Meta) (key value prev : Str) (hkey : key ≠ units "__proto__")
    (h : m.own key = some prev) :
    (metaAdd m key value).own key =
      some (if prev = [] then value else prev ++ units " | " ++ value) := by
  unfold metaAdd
  rw [if_neg hkey, h]
  cases prev with
  | nil => simp [own_assign_self]
  | cons c cs => simp [own_assign_self]

/-- The metadata statement gives the key a value, unless the key is
`__proto__`. -/
theorem own_metaAdd_isSome (m : Meta) (key value : Str) (hkey : key ≠ units "__proto__") :
    ((metaAdd m key value).own key).isSome = true := by
  unfold metaAdd
  rw [if_neg hkey]
  cases h : m.own key with
  | none =>
    by_cases hc : key = units "constructor"
    · simp [hc, own_assign_self]
    · simp [hc, own_assign_self]
  | some prev =>
    cases prev with
    | nil => simp [own_assign_self]
    | cons c cs => simp [own_assign_self]

/-- A line that matches the dash expression is no title heading. -/
theorem headingMatch_eq_none_of_dashMatch (line group : Str) (h : dashMatch line = some group) :
    headingMatch line = none := by
  unfold dashMatch at h
  unfold headingMatch
  cases hl : line.dropWhile isWs with
  | nil => simp [hl] at h
  | cons c r =>
    rw [hl] at h
    by_cases hc : c = 45
    · subst hc
      have : (List.takeWhile isDigit (45 :: r)).isEmpty = true := by
        rw [List.takeWhile_cons_of_neg (by decide)]; rfl
      simp only [this, if_true]
    · exfalso
      split at h
      · rename_i r' heq
        simp only [List.cons.injEq] at heq
        exact hc heq.1
      · simp at h

/-- The metadata statement leaves the other keys as they are. -/
theorem own_metaAdd_other (m : Meta) (key value k : Str) (h : k ≠ key) :
    (metaAdd m key value).own k = m.own k := by
  unfold metaAdd
  by_cases hp : key = units "__proto__"
  · rw [if_pos hp]
  · rw [if_neg hp]
    split
    · exact own_assign_other _ _ _ _ h
    · exact own_assign_other _ _ _ _ h
    · by_cases hc : key = units "constructor"
      · rw [if_pos hc]; exact own_assign_other _ _ _ _ h
      · rw [if_neg hc]; exact own_assign_other _ _ _ _ h

/-- The loop on a metadata line of an open entry. -/
theorem parseLine_metadata (st : ParseState) (e : Entry) (rawLine key value : Str)
    (hcur : st.cur = some e) (hl : IsMetadataLine rawLine key value) :
    parseLine st rawLine =
      { st with cur := some { e with meta := metaAdd e.meta key value } } := by
  obtain ⟨hs, group, hd, hkv⟩ := hl
  have hh := headingMatch_eq_none_of_dashMatch _ _ hd
  unfold parseLine
  simp only [hs, Bool.false_eq_true, if_false, hh, hcur, hd, hkv]

/-- The loop on a continuation line of an open entry that has a key. -/
theorem parseLine_continuation (st : ParseState) (e : Entry) (rawLine text lastKey : Str)
    (hcur : st.cur = some e) (hl : IsContinuationLine rawLine text)
    (hk : e.meta.objectKeys.getLast? = some lastKey) :
    parseLine st rawLine =
      { st with cur := some { e with
          meta := e.meta.assign lastKey ((e.meta.own lastKey).getD [] ++ [32] ++ text) } } := by
  obtain ⟨hs, hh, hd, ht, hne⟩ := hl
  unfold parseLine
  simp only [hs, Bool.false_eq_true, if_false, hh, hcur, hd, ht, hk]
  cases text with
  | nil => exact absurd rfl hne
  | cons c cs => rfl

/-- C12, as the claim states it, fails: in the entry opened by `1. a` the
metadata line `- k:` gives the key `k` the empty value, and the metadata line
`- k: v` after it makes the value `v`, not the empty value followed by ` | `
and `v`: the test `!cur.meta[key]` takes an empty value for an absent one. -/
theorem metadata_repeat_counterexample :
    IsMetadataLine (units "- k:") (units "k") [] ∧
      IsMetadataLine (units "- k: v") (units "k") (units "v") ∧
      ¬ RepeatedKeyConcatenated
          (parseLine { sectionName := none, entries := [], cur := none } (units "1. a"))
          (units "- k:") (units "- k: v") (units "k") (units "v") := by
  refine ⟨⟨by decide, units "k:", by decide, by decide⟩,
    ⟨by decide, units "k: v", by decide, by decide⟩, ?_⟩
  unfold RepeatedKeyConcatenated
  decide

/-- One metadata line on an open entry that has the key: the value becomes the
old value, the separator and the new value, or the new value alone when the old
value is empty. -/
theorem valueOfKey_metadata (st : ParseState) (e : Entry) (rawLine key value prev : Str)
    (hcur : st.cur = some e) (hl : IsMetadataLine rawLine key value)
    (hkey : key ≠ units "__proto__") (hprev : e.meta.own key = some prev) :
    valueOfKey (parseLine st rawLine) key =
      some (if prev = [] then value else prev ++ units " | " ++ value) := by
  rw [parseLine_metadata st e rawLine key value hcur hl]
  exact own_metaAdd_of_own e.meta key value prev hkey hprev

/-- A line that is not for `key` keeps the entry open and the value of `key`
as it is. -/
theorem parseLine_other (st : ParseState) (e : Entry) (key rawLine : Str)
    (hcur : st.cur = some e) (h : isOtherLine st key rawLine = true) :
    ∃ e1, (parseLine st rawLine).cur = some e1 ∧ e1.meta.own key = e.meta.own key := by
  unfold isOtherLine at h
  unfold parseLine
  by_cases hs : sectionCandidate (expandTabs rawLine) = true
  · simp only [hs, if_true]
    exact ⟨e, hcur, rfl⟩
  · simp only [hs, Bool.false_eq_true, if_false, Bool.false_or, Bool.and_eq_true,
      Option.isNone_iff_eq_none] at h ⊢
    obtain ⟨hh, h⟩ := h
    simp only [hh, hcur]
    cases hd : dashMatch (expandTabs rawLine) with
    | some group =>
      rw [hd] at h
      have hne : key ≠ (metaKeyValue group).1 := by
        intro hk
        simp [← hk] at h
      exact ⟨_, rfl, own_metaAdd_other _ _ _ _ hne⟩
    | none =>
      rw [hd] at h
      simp only [hcur, Option.bind_some, Bool.or_eq_true, List.isEmpty_iff, bne_iff_ne,
        ne_eq] at h
      cases ht : trim (expandTabs rawLine) with
      | nil => exact ⟨e, hcur, rfl⟩
      | cons c cs =>
        cases hk : e.meta.objectKeys.getLast? with
        | none => exact ⟨e, hcur, rfl⟩
        | some lastKey =>
          refine ⟨_, rfl, own_assign_other _ _ _ _ ?_⟩
          intro hkey
          rcases h with h | h
          · rw [ht] at h; exact absurd h (by simp)
          · refine h ?_
            show e.meta.objectKeys.getLast? = some key
            rw [hk, hkey]

theorem foldl_parseLine_other (mid : List Str) (st : ParseState) (e : Entry) (key : Str)
    (hcur : st.cur = some e) (h : areOtherLines st key mid = true) :
    ∃ e1, (mid.foldl parseLine st).cur = some e1 ∧ e1.meta.own key = e.meta.own key := by
  induction mid generalizing st e with
  | nil => exact ⟨e, hcur, rfl⟩
  | cons l ls ih =>
    simp only [areOtherLines, Bool.and_eq_true] at h
    obtain ⟨e1, h1, h2⟩ := parseLine_other st e key l hcur h.1
    obtain ⟨e2, h3, h4⟩ := ih (parseLine st l) e1 h1 h.2
    exact ⟨e2, h3, h4.trans h2⟩

/-- C12, amended.  For every open entry and every two metadata lines of it
with the same normalized key other than `__proto__` and values `v1` then `v2`,
no line for that key between them (the lines between are section candidates,
blank lines, metadata lines with another key, or continuation lines that fold
into another key): the key has a value after the first line, and its value
after the second line is that value followed by ` | ` and `v2` when that value
is not empty, and `v2` alone when it is empty.  A metadata line is a line that
matches the dash expression and is not a section candidate: a section
candidate, dash or not, leaves the open entry as it is. -/
theorem metadata_repeat_concatenates (st : ParseState) (e : Entry) (l1 l2 key v1 v2 : Str)
    (mid : List Str) (hcur : st.cur = some e) (h1 : IsMetadataLine l1 key v1)
    (hmid : areOtherLines (parseLine st l1) key mid = true) (h2 : IsMetadataLine l2 key v2)
    (hkey : key ≠ units "__proto__") :
    (∃ prev, valueOfKey (parseLine st l1) key = some prev ∧
      valueOfKey (parseLine (mid.foldl parseLine (parseLine st l1)) l2) key =
        some (if prev = [] then v2 else prev ++ units " | " ++ v2)) ∧
      ∀ (st0 : ParseState) (l : Str), sectionCandidate (expandTabs l) = true →
        (parseLine st0 l).cur = st0.cur ∧ (parseLine st0 l).entries = st0.entries := by
  have hst1 := parseLine_metadata st e l1 key v1 hcur h1
  obtain ⟨prev, hprev⟩ := Option.isSome_iff_exists.1 (own_metaAdd_isSome e.meta key v1 hkey)
  refine ⟨⟨prev, ?_, ?_⟩, ?_⟩
  · rw [hst1]; exact hprev
  · obtain ⟨e1, hc1, ho1⟩ := foldl_parseLine_other mid (parseLine st l1)
      { e with meta := metaAdd e.meta key v1 } key (by rw [hst1]) hmid
    exact valueOfKey_metadata (mid.foldl parseLine (parseLine st l1)) e1 l2 key v2 prev hc1 h2
      hkey (ho1.trans hprev)
  · intro st0 l hl
    unfold parseLine
    simp only [hl, if_true, and_self]

/-- The amended C12 at the entry opened by `1. a`: the lines `- Watch Sources: x`
and `-watch   sources : y:z` both name the key `watch_sources`; between them
stand a metadata line with the key `note`, a continuation line (it folds into
`note`), a blank line and a section candidate that is a dash line; the value
ends as `x | y:z`.  The keys `É` and `é` are one key. -/
theorem metadata_repeat_concatenates_witness :
    IsMetadataLine (units "- Watch Sources: x") (units "watch_sources") (units "x") ∧
      IsMetadataLine (units "-watch   sources : y:z") (units "watch_sources") (units "y:z") ∧
      areOtherLines
          (parseLine
            (parseLine { sectionName := none, entries := [], cur := none } (units "1. a"))
            (units "- Watch Sources: x"))
          (units "watch_sources")
          [units "- note: n", units "more", units "  ", units "- IMDB: 8.1"] = true ∧
      (∃ prev,
        valueOfKey
            (parseLine
              (parseLine { sectionName := none, entries := [], cur := none } (units "1. a"))
              (units "- Watch Sources: x"))
            (units "watch_sources") = some prev ∧
          valueOfKey
              (parseLine
                ([units "- note: n", units "more", units "  ", units "- IMDB: 8.1"].foldl parseLine
                  (parseLine
                    (parseLine { sectionName := none, entries := [], cur := none } (units "1. a"))
                    (units "- Watch Sources: x")))
                (units "-watch   sources : y:z"))
              (units "watch_sources") =
            some (if prev = [] then units "y:z" else prev ++ units " | " ++ units "y:z")) ∧
      (parseMoviesFile
          (units "1. a\n- Watch Sources: x\n- note: n\nmore\n  \n- IMDB: 8.1\n-watch   sources : y:z")).map
          (fun m => m.raw_meta) =
        [[(units "watch_sources", units "x | y:z"), (units "note", units "n more")]] ∧
      (parseMoviesFile (units "1. a\n- É: v\n- é: w")).map (fun m => m.raw_meta) =
        [[(units "é", units "v | w")]] ∧
      (parseMoviesFile (units "1. a\n- IMDB: 8.1\n- IMDB: 9.0")).map (fun m => m.raw_meta) =
        [[]] :=
  ⟨⟨by decide, units "Watch Sources: x", by decide, by decide⟩,
    ⟨by decide, units "watch   sources : y:z", by decide, by decide⟩,
    by decide,
    (metadata_repeat_concatenates
      (parseLine { sectionName := none, entries := [], cur := none } (units "1. a"))
      { index := 1, title := units "a", sectionName := units "Unknown", meta := [],
        norm := units "a" }
      (units "- Watch Sources: x") (units "-watch   sources : y:z") (units "watch_sources")
      (units "x") (units "y:z")
      [units "- note: n", units "more", units "  ", units "- IMDB: 8.1"] (by decide)
      ⟨by decide, units "Watch Sources: x", by decide, by decide⟩ (by decide)
      ⟨by decide, units "watch   sources : y:z", by decide, by decide⟩ (by decide)).1,
    by decide, by decide, by decide⟩

/-! ## Metadata keys -/

theorem trim_ne_nil_of_mem (s : Str) (c : Nat) (hc : c ∈ s) (hw : isWs c = false) :
    trim s ≠ [] := by
  unfold trim
  rw [Ne, List.rdropWhile_eq_nil_iff]
  intro hall
  have hmem : c ∈ s.dropWhile isWs := by
    have hsplit := List.takeWhile_append_dropWhile isWs s
    rw [← hsplit] at hc
    rcases List.mem_append.1 hc with h | h
    · have := List.mem_takeWhile_imp h
      rw [hw] at this
      exact absurd this (by decide)
    · exact h
  have := hall c hmem
  rw [hw] at this
  exact absurd this (by decide)

theorem trim_eq_nil_of_all_ws (s : Str) (h : s.all isWs = true) : trim s = [] := by
  unfold trim
  have : s.dropWhile isWs = [] := by
    rw [List.dropWhile_eq_nil_iff]
    simpa using h
  rw [this]
  rfl

theorem replaceWsRuns_ne_nil (r : Nat) (s : Str) (h : s ≠ []) : replaceWsRuns r false s ≠ [] := by
  cases s with
  | nil => exact absurd rfl h
  | cons c cs =>
    by_cases hc : isWs c = true
    · simp [replaceWsRuns, hc]
    · simp [replaceWsRuns, hc]

/-- The key of a metadata line is empty exactly when nothing but whitespace
stands before the first colon of the group. -/
theorem metaKey_eq_nil_iff (group : Str) :
    (metaKeyValue group).1 = [] ↔ (group.takeWhile fun c => c != 58).all isWs = true := by
  constructor
  · intro h
    by_contra hall
    have : ∃ c ∈ group.takeWhile (fun c => c != 58), isWs c = false := by
      simpa using hall
    obtain ⟨c, hc, hw⟩ := this
    exact replaceWsRuns_ne_nil 95 _
      (toLowerCase_ne_nil _ (trim_ne_nil_of_mem _ c hc hw)) h
  · intro h
    show replaceWsRuns 95 false (toLowerCase (trim (group.takeWhile fun c => c != 58))) = []
    rw [trim_eq_nil_of_all_ws _ h]
    rfl

theorem mem_insertIndexKey (k x : Str) (l : List Str) :
    x ∈ insertIndexKey k l ↔ x = k ∨ x ∈ l := by
  induction l with
  | nil => simp [insertIndexKey]
  | cons j js ih =>
    unfold insertIndexKey
    split_ifs
    · simp
    · simp only [List.mem_cons, ih]
      tauto

theorem mem_foldr_insertIndexKey (x : Str) (l : List Str) :
    x ∈ l.foldr insertIndexKey [] ↔ x ∈ l := by
  induction l with
  | nil => simp
  | cons k ks ih => simp [List.foldr_cons, mem_insertIndexKey, ih]

/-- Every key of `Object.keys(meta)` is an own key. -/
theorem mem_keys_of_mem_objectKeys (m : Meta) (k : Str) (h : k ∈ m.objectKeys) :
    k ∈ m.map Prod.fst := by
  unfold Meta.objectKeys at h
  rcases List.mem_append.1 h with h | h
  · exact (List.mem_filter.1 ((mem_foldr_insertIndexKey k _).1 h)).1
  · exact (List.mem_filter.1 h).1

/-- The keys after an assignment are the keys before it and the assigned
key. -/
theorem mem_keys_assign (m : Meta) (k v x : Str) (h : x ∈ (m.assign k v).map Prod.fst) :
    x = k ∨ x ∈ m.map Prod.fst := by
  unfold Meta.assign at h
  split_ifs at h
  · obtain ⟨kv, hkv, rfl⟩ := List.mem_map.1 h
    obtain ⟨kv0, hkv0, rfl⟩ := List.mem_map.1 hkv
    by_cases hk : (kv0.1 == k) = true
    · left; simp [hk]
    · right
      simp only [hk, Bool.false_eq_true, if_false]
      exact List.mem_map_of_mem _ hkv0
  · simp only [List.map_append, List.map_cons, List.map_nil, List.mem_append,
      List.mem_singleton] at h
    tauto

theorem mem_keys_metaAdd (m : Meta) (key value x : Str)
    (h : x ∈ (metaAdd m key value).map Prod.fst) : x = key ∨ x ∈ m.map Prod.fst := by
  unfold metaAdd at h
  split at h
  · exact Or.inr h
  · split at h
    · exact mem_keys_assign _ _ _ _ h
    · exact mem_keys_assign _ _ _ _ h
    · split at h
      · exact mem_keys_assign _ _ _ _ h
      · exact mem_keys_assign _ _ _ _ h

/-- One line of the loop keeps the keys of all entries non-empty, unless it is
a metadata line with a blank key. -/
theorem parseLine_keys_ne_nil (st : ParseState) (rawLine : Str)
    (hline : sectionCandidate (expandTabs rawLine) = false → hasBlankKey rawLine = false)
    (hst : ∀ e ∈ pushCur st, ∀ k ∈ e.meta.map Prod.fst, k ≠ []) :
    ∀ e ∈ pushCur (parseLine st rawLine), ∀ k ∈ e.meta.map Prod.fst, k ≠ [] := by
  unfold parseLine
  by_cases hs : sectionCandidate (expandTabs rawLine) = true
  · simpa [hs, pushCur] using hst
  · have hs' : sectionCandidate (expandTabs rawLine) = false := by simpa using hs
    simp only [hs, Bool.false_eq_true, if_false]
    cases hh : headingMatch (expandTabs rawLine) with
    | some dg =>
      obtain ⟨digits, g⟩ := dg
      intro e he k hk
      simp only [pushCur, List.mem_append, List.mem_singleton] at he
      rcases he with he | he
      · exact hst e he k hk
      · subst he
        simp at hk
    | none =>
      cases hc : st.cur with
      | none => simpa [pushCur, hc] using hst
      | some e0 =>
        have hold : ∀ e ∈ st.entries, ∀ k ∈ e.meta.map Prod.fst, k ≠ [] := by
          intro e he
          exact hst e (by simp [pushCur, hc, he])
        have hcur : ∀ k ∈ e0.meta.map Prod.fst, k ≠ [] :=
          hst e0 (by simp [pushCur, hc])
        cases hd : dashMatch (expandTabs rawLine) with
        | some group =>
          have hblank := hline hs'
          simp only [hasBlankKey, hd] at hblank
          have hkey : (metaKeyValue group).1 ≠ [] := by
            intro h0
            rw [(metaKey_eq_nil_iff group).1 h0] at hblank
            exact absurd hblank (by decide)
          intro e he k hk
          simp only [pushCur, List.mem_append, List.mem_singleton] at he
          rcases he with he | he
          · exact hold e he k hk
          · subst he
            rcases mem_keys_metaAdd _ _ _ _ hk with h | h
            · rw [h]; exact hkey
            · exact hcur k h
        | none =>
          cases ht : trim (expandTabs rawLine) with
          | nil => simpa [pushCur, hc] using hst
          | cons c cs =>
            cases hk : e0.meta.objectKeys.getLast? with
            | none => simpa [pushCur, hc, hk] using hst
            | some lastKey =>
              have hlast : lastKey ≠ [] :=
                hcur lastKey (mem_keys_of_mem_objectKeys _ _ (List.mem_of_mem_getLast? hk))
              intro e he k hk'
              simp only [hk, pushCur, List.mem_append, List.mem_singleton] at he
              rcases he with he | he
              · exact hold e he k hk'
              · subst he
                rcases mem_keys_assign _ _ _ _ hk' with h | h
                · rw [h]; exact hlast
                · exact hcur k h

theorem foldl_parseLine_keys_ne_nil (lines : List Str) (st : ParseState)
    (hlines : ∀ l ∈ lines, sectionCandidate (expandTabs l) = false → hasBlankKey l = false)
    (hst : ∀ e ∈ pushCur st, ∀ k ∈ e.meta.map Prod.fst, k ≠ []) :
    ∀ e ∈ pushCur (lines.foldl parseLine st), ∀ k ∈ e.meta.map Prod.fst, k ≠ [] := by
  induction lines generalizing st with
  | nil => exact hst
  | cons l ls ih =>
    rw [List.foldl_cons]
    exact ih (parseLine st l) (fun l' hl' => hlines l' (List.mem_cons_of_mem _ hl'))
      (parseLine_keys_ne_nil st l (hlines l (List.mem_cons_self _ _)) hst)

/-- C13, as the claim states it, fails: the metadata line `- : v` gives the
entry opened by `1. a` the empty string as a key. -/
theorem parseMoviesFile_empty_key_counterexample :
    ¬ ∀ m ∈ parseMoviesFile (units "1. a\n- : v"), ∀ kv ∈ m.raw_meta, kv.1 ≠ [] := by
  decide

/-- C13, amended.  For every input text in which no line treated as metadata
has only whitespace between its dash and its first colon, no key of the
metadata mapping of any entry the parser returns is the empty string; the key
of a metadata line is empty exactly when only whitespace stands there. -/
theorem parseMoviesFile_keys_nonempty (raw : Str)
    (h : ∀ l ∈ splitLines raw, sectionCandidate (expandTabs l) = false → hasBlankKey l = false) :
    (∀ m ∈ parseMoviesFile raw, ∀ kv ∈ m.raw_meta, kv.1 ≠ []) ∧
      ∀ group : Str, (metaKeyValue group).1 = [] ↔
        (group.takeWhile fun c => c != 58).all isWs = true := by
  refine ⟨?_, metaKey_eq_nil_iff⟩
  intro m hm kv hkv
  obtain ⟨e, he, rfl⟩ := List.mem_map.1 hm
  have := foldl_parseLine_keys_ne_nil (splitLines raw)
    { sectionName := none, entries := [], cur := none } h (by simp [pushCur])
  exact this e he kv.1 (List.mem_map_of_mem _ hkv)

/-- The amended C13 at a text with two keys, a continuation line and the line
`- : X`, which is a section candidate and no metadata line. -/
theorem parseMoviesFile_keys_nonempty_witness :
    (∀ l ∈ splitLines (units "1. a\n- k: v\nmore\n- : X\n- 7: w"),
        sectionCandidate (expandTabs l) = false → hasBlankKey l = false) ∧
      ((∀ m ∈ parseMoviesFile (units "1. a\n- k: v\nmore\n- : X\n- 7: w"),
          ∀ kv ∈ m.raw_meta, kv.1 ≠ []) ∧
        ∀ group : Str, (metaKeyValue group).1 = [] ↔
          (group.takeWhile fun c => c != 58).all isWs = true) :=
  ⟨by decide, parseMoviesFile_keys_nonempty (units "1. a\n- k: v\nmore\n- : X\n- 7: w") (by decide)⟩

/-! ## Continuation lines -/

theorem assign_of_own_none (m : Meta) (k v : Str) (h : m.own k = none) :
    m.assign k v = m ++ [(k, v)] := by
  unfold Meta.assign
  have : (m.any fun kv => kv.1 == k) = false := by
    rw [any_key_iff_own, h]; rfl
  simp [this]

theorem own_isSome_of_mem_keys (m : Meta) (k : Str) (h : k ∈ m.map Prod.fst) :
    (m.own k).isSome = true := by
  rw [← any_key_iff_own, List.any_eq_true]
  obtain ⟨kv, hkv, rfl⟩ := List.mem_map.1 h
  exact ⟨kv, hkv, by simp⟩

/-- A key that is created and is no array index is the last of
`Object.keys`. -/
theorem getLast?_objectKeys_append (m : Meta) (k v : Str) (h : isArrayIndex k = false) :
    (Meta.objectKeys (m ++ [(k, v)])).getLast? = some k := by
  unfold Meta.objectKeys
  simp [List.filter_append, h, List.getLast?_append]

/-- A metadata line that creates its key, which is neither an array index nor
`__proto__`, makes it the last of `Object.keys`. -/
theorem getLast?_objectKeys_metaAdd (m : Meta) (key value : Str) (hnew : m.own key = none)
    (hidx : isArrayIndex key = false) (hkey : key ≠ units "__proto__") :
    (metaAdd m key value).objectKeys.getLast? = some key := by
  unfold metaAdd
  rw [if_neg hkey, hnew]
  by_cases hc : key = units "constructor"
  · simp only [hc, if_true]
    rw [assign_of_own_none _ _ _ (by rw [← hc]; exact hnew)]
    exact getLast?_objectKeys_append _ _ _ (by rw [← hc]; exact hidx)
  · simp only [hc, if_false]
    rw [assign_of_own_none _ _ _ hnew]
    exact getLast?_objectKeys_append _ _ _ hidx

/-- C14, as the claim states it, fails: in an entry with the keys `a` and `b`,
created in that order, the metadata line `- a: 3` followed by the continuation
line `more` leaves the value of `a` as it is and appends the text to the value
of `b`, the last key of `Object.keys(cur.meta)`. -/
theorem continuation_counterexample :
    IsMetadataLine (units "- a: 3") (units "a") (units "3") ∧
      IsContinuationLine (units "more") (units "more") ∧
      ¬ ContinuationFoldsIntoNamedKey
          ([units "1. t", units "- a: 1", units "- b: 2"].foldl parseLine
            { sectionName := none, entries := [], cur := none })
          (units "- a: 3") (units "more") (units "a") (units "more") ∧
      (parseMoviesFile (units "1. t\n- a: 1\n- b: 2\n- a: 3\nmore")).map (fun m => m.raw_meta) =
        [[(units "a", units "1 | 3"), (units "b", units "2 more")]] := by
  refine ⟨⟨by decide, units "a: 3", by decide, by decide⟩,
    ⟨by decide, by decide, by decide, by decide, by decide⟩, ?_, by decide⟩
  unfold ContinuationFoldsIntoNamedKey
  decide

/-- C14, amended.  For every open entry, when a metadata line (a line that
matches the dash expression and is not a section candidate) is immediately
followed by a continuation line, the last key of `Object.keys(cur.meta)` (the
array-index keys come first there, in ascending order, then the other keys in
creation order) gets one space and the trimmed continuation text appended to
its value, and no other key's value changes; that last key is the key named by
the metadata line whenever that line created the key and the key is neither an
array index nor `__proto__`. -/
theorem continuation_folds_into_last_key (st : ParseState) (e : Entry)
    (l1 l2 key value text : Str) (hcur : st.cur = some e)
    (h1 : IsMetadataLine l1 key value) (h2 : IsContinuationLine l2 text) :
    ∃ e1, (parseLine st l1).cur = some e1 ∧
      (∀ lastKey, e1.meta.objectKeys.getLast? = some lastKey →
        (∃ prev, valueOfKey (parseLine st l1) lastKey = some prev ∧
          valueOfKey (parseLine (parseLine st l1) l2) lastKey = some (prev ++ [32] ++ text)) ∧
        ∀ k, k ≠ lastKey →
          valueOfKey (parseLine (parseLine st l1) l2) k = valueOfKey (parseLine st l1) k) ∧
      (e.meta.own key = none → isArrayIndex key = false → key ≠ units "__proto__" →
        e1.meta.objectKeys.getLast? = some key) := by
  have hst1 := parseLine_metadata st e l1 key value hcur h1
  refine ⟨{ e with meta := metaAdd e.meta key value }, by rw [hst1], ?_, ?_⟩
  · intro lastKey hlast
    have hst2 := parseLine_continuation (parseLine st l1)
      { e with meta := metaAdd e.meta key value } l2 text lastKey (by rw [hst1]) h2 hlast
    obtain ⟨prev, hprev⟩ := Option.isSome_iff_exists.1
      (own_isSome_of_mem_keys _ _
        (mem_keys_of_mem_objectKeys _ _ (List.mem_of_mem_getLast? hlast)))
    simp only at hprev
    refine ⟨⟨prev, ?_, ?_⟩, ?_⟩
    · rw [hst1]; exact hprev
    · rw [hst2]
      simp only [valueOfKey, hprev, Option.getD_some]
      exact own_assign_self _ _ _
    · intro k hk
      rw [hst2, hst1]
      simp only [valueOfKey, Option.bind_some]
      exact own_assign_other _ _ _ _ hk
  · intro hnew hidx hkey
    exact getLast?_objectKeys_metaAdd e.meta key value hnew hidx hkey

/-- The amended C14 at the entry opened by `1. t` with the key `a`: the
metadata line `- b: 2` creates the key `b`, and the continuation line
` more text ` is appended to its value.  The line `- É: x` names the key `é`
that the entry has, so the text after it goes to `b`, the last key; the line
`- 7: x` creates an array-index key, which `Object.keys` lists first, so the
text after it goes to `a`. -/
theorem continuation_folds_into_last_key_witness :
    IsMetadataLine (units "- b: 2") (units "b") (units "2") ∧
      IsContinuationLine (units " more text ") (units "more text") ∧
      (parseMoviesFile (units "1. t\n- a: 1\n- b: 2\n more text ")).map (fun m => m.raw_meta) =
        [[(units "a", units "1"), (units "b", units "2 more text")]] ∧
      (parseMoviesFile (units "1. t\n- é: 1\n- b: 2\n- É: x\nmore")).map (fun m => m.raw_meta) =
        [[(units "é", units "1 | x"), (units "b", units "2 more")]] ∧
      (parseMoviesFile (units "1. t\n- a: 1\n- 7: x\nmore")).map (fun m => m.raw_meta) =
        [[(units "a", units "1 more"), (units "7", units "x")]] ∧
      ∃ e1,
        (parseLine
            ([units "1. t", units "- a: 1"].foldl parseLine
              { sectionName := none, entries := [], cur := none })
            (units "- b: 2")).cur = some e1 ∧
          e1.meta.objectKeys.getLast? = some (units "b") :=
  ⟨⟨by decide, units "b: 2", by decide, by decide⟩,
    ⟨by decide, by decide, by decide, by decide, by decide⟩, by decide, by decide, by decide,
    (continuation_folds_into_last_key
        ([units "1. t", units "- a: 1"].foldl parseLine
          { sectionName := none, entries := [], cur := none })
        { index := 1, title := units "t", sectionName := units "Unknown",
          meta := [(units "a", units "1")], norm := units "t" }
        (units "- b: 2") (units " more text ") (units "b") (units "2") (units "more text")
        (by decide) ⟨by decide, units "b: 2", by decide, by decide⟩
        ⟨by decide, by decide, by decide, by decide, by decide⟩).imp
      fun _ h => ⟨h.1, h.2.2 (by decide) (by decide) (by decide)⟩⟩


/-! ## `searchMovies`: the blank query -/

/-- C15. `searchMovies` returns the empty sequence for every absent, empty or
whitespace-only query, whatever the limit, the cache and the catalog file, and
leaves `moviesCache` as it is: the catalog is neither read nor built, so the
call cannot fail even when the file is missing. -/
theorem searchMovies_blank (moviesCache : Option (List Movie)) (file : Option Str)
    (query : Option Str) (limit : Option Int)
    (h : query = none ∨ ∃ q, query = some q ∧ trim q = []) :
    searchMovies moviesCache file query limit = (.ok [], moviesCache) := by
  rcases h with rfl | ⟨q, rfl, hq⟩
  · rfl
  · simp [searchMovies, hq]

/-- The blank-query theorem at a whitespace-only query with no cache and no
catalog file; a query that is not blank fails there. -/
theorem searchMovies_blank_witness :
    trim (units " \t ") = [] ∧
      searchMovies none none (some (units " \t ")) (some 3) = (.ok [], none) ∧
      searchMovies none none (some (units "x")) (some 3) =
        (.error (units "movies_data.txt not found"), none) :=
  ⟨by decide,
    searchMovies_blank none none (some (units " \t ")) (some 3)
      (Or.inr ⟨units " \t ", rfl, by decide⟩),
    rfl⟩

/-! ## Scores -/

theorem foldl_count_bounds (p : Str → Bool) (qs : List Str) (n : Nat) :
    qs.foldl (fun matched t => if p t then matched + 1 else matched) n = n + qs.countP p := by
  induction qs generalizing n with
  | nil => simp
  | cons t ts ih =>
    rw [List.foldl_cons, ih, List.countP_cons]
    by_cases ht : p t = true
    · simp only [ht, if_true]; omega
    · simp only [ht, Bool.false_eq_true, if_false]; omega

/-- The loop counts the query tokens that are title tokens. -/
theorem countMatched_eq_countP (qTokens titleTokens : List Str) :
    countMatched qTokens titleTokens = qTokens.countP fun t => titleTokens.contains t := by
  unfold countMatched
  rw [foldl_count_bounds, Nat.zero_add]

theorem countMatched_le (qTokens titleTokens : List Str) :
    countMatched qTokens titleTokens ≤ qTokens.length := by
  rw [countMatched_eq_countP]
  exact List.countP_le_length _

/-- Rounding to a double does not pass an integer: a quotient that is at most
`c` rounds to a double that is at most `c`. -/
theorem roundToDouble_le (a b c : Nat) (hb : 0 < b) (h : a ≤ c * b) :
    (roundToDouble a b).mant ≤ c * 2 ^ (roundToDouble a b).scale := by
  unfold roundToDouble
  by_cases ha : a = 0
  · simp [ha]
  · simp only [ha, if_false]
    generalize scaleOf a b (53 + b) 0 = k
    have hdm := Nat.div_add_mod (a * 2 ^ k) b
    have hq : a * 2 ^ k / b ≤ c * 2 ^ k := by
      apply Nat.div_le_of_le_mul
      calc a * 2 ^ k ≤ c * b * 2 ^ k := Nat.mul_le_mul_right _ h
        _ = b * (c * 2 ^ k) := by ring
    rcases Nat.lt_or_eq_of_le hq with hlt | heq
    · split_ifs <;> omega
    · have hr : a * 2 ^ k % b = 0 := by
        have h1 : a * 2 ^ k ≤ b * (c * 2 ^ k) := by
          calc a * 2 ^ k ≤ c * b * 2 ^ k := Nat.mul_le_mul_right _ h
            _ = b * (c * 2 ^ k) := by ring
        rw [heq] at hdm
        omega
      rw [hr]
      simp [hb, heq]

theorem mathRound_le (x : Num) (c : Nat) (h : x.mant ≤ c * 2 ^ x.scale) : mathRound x ≤ c := by
  unfold mathRound
  have hp : 0 < 2 ^ x.scale := Nat.pow_pos (by decide)
  have h2 : 2 ^ (x.scale + 1) = 2 * 2 ^ x.scale := by rw [Nat.pow_succ]; ring
  rw [h2]
  apply Nat.le_of_lt_succ
  rw [Nat.div_lt_iff_lt_mul (by omega)]
  have : (c + 1) * (2 * 2 ^ x.scale) = 2 * (c * 2 ^ x.scale) + 2 * 2 ^ x.scale := by ring
  rw [this]
  omega

/-- The base score of the token branch is at most 50. -/
theorem baseScore_le (matched n : Nat) (h : matched ≤ n) : baseScore matched n ≤ 50 := by
  unfold baseScore
  have hn : 0 < max n 1 := by omega
  have h1 := roundToDouble_le matched (max n 1) 1 hn (by omega)
  rw [Nat.one_mul] at h1
  apply mathRound_le
  apply roundToDouble_le _ _ 50 (Nat.pow_pos (by decide))
  calc (roundToDouble matched (max n 1)).mant * 50
      ≤ 2 ^ (roundToDouble matched (max n 1)).scale * 50 := Nat.mul_le_mul_right _ h1
    _ = 50 * 2 ^ (roundToDouble matched (max n 1)).scale := by ring

/-- C19. Score tiers never overlap: for every query and entry the score is 100
(the title equals the normalized query), 90 (it contains it and differs from
it) or at most 60 (the token branch: a base of at most 50 and a bonus of at
most 10); hence an exact match scores strictly more than a substring match,
which scores strictly more than a token-only match. -/
theorem scoreOf_tiers (q : Str) (qTokens : List Str) (t : Str) :
    (t = q → scoreOf q qTokens t = 100) ∧
      (t ≠ q → q <:+: t → scoreOf q qTokens t = 90) ∧
      (t ≠ q → ¬ q <:+: t → scoreOf q qTokens t ≤ 60) ∧
      (scoreOf q qTokens t = 100 ∨ scoreOf q qTokens t = 90 ∨ scoreOf q qTokens t ≤ 60) ∧
      ∀ t1 t2 t3 : Str, t1 = q → t2 ≠ q → q <:+: t2 → t3 ≠ q → ¬ q <:+: t3 →
        scoreOf q qTokens t3 < scoreOf q qTokens t2 ∧
          scoreOf q qTokens t2 < scoreOf q qTokens t1 := by
  have exact : ∀ t : Str, t = q → scoreOf q qTokens t = 100 := by
    intro t h
    simp [scoreOf, h]
  have sub : ∀ t : Str, t ≠ q → q <:+: t → scoreOf q qTokens t = 90 := by
    intro t h1 h2
    simp [scoreOf, h1, (includes_iff q t).2 h2]
  have tok : ∀ t : Str, t ≠ q → ¬ q <:+: t → scoreOf q qTokens t ≤ 60 := by
    intro t h1 h2
    have hinc : includes q t = false := by
      rw [← includes_iff] at h2
      simpa using h2
    have hb := baseScore_le _ _ (countMatched_le qTokens (tokens t))
    simp only [scoreOf, h1, hinc, if_false, Bool.false_eq_true]
    split_ifs <;> omega
  refine ⟨exact t, sub t, tok t, ?_, ?_⟩
  · by_cases h1 : t = q
    · exact Or.inl (exact t h1)
    · by_cases h2 : q <:+: t
      · exact Or.inr (Or.inl (sub t h1 h2))
      · exact Or.inr (Or.inr (tok t h1 h2))
  · intro t1 t2 t3 h1 h2 h2' h3 h3'
    have e1 := exact t1 h1
    have e2 := sub t2 h2 h2'
    have e3 := tok t3 h3 h3'
    omega

/-! ## `searchMovies`: order and size of the result -/

/-- For a query that is not blank `searchMovies` loads the catalog and returns
the search in it, or fails as the load fails. -/
theorem searchMovies_of_not_blank (moviesCache : Option (List Movie)) (file : Option Str)
    (q : Str) (limit : Option Int) (hq : trim q ≠ []) :
    searchMovies moviesCache file (some q) limit =
      match parseMoviesFileCached moviesCache file with
      | (.error e, cache) => (.error e, cache)
      | (.ok list, cache) => (.ok (searchCatalog list q (limit.getD 8)), cache) := by
  have hne : q ≠ [] := by
    intro h0; apply hq; rw [h0]; rfl
  cases q with
  | nil => exact absurd rfl hne
  | cons c cs =>
    cases ht : trim (c :: cs) with
    | nil => exact absurd ht hq
    | cons d ds => simp [searchMovies, ht]

theorem sliceTo_starts {α : Type} (l : List α) (limit : Int) : sliceTo l limit <+: l := by
  unfold sliceTo
  split_ifs
  · exact List.take_prefix _ _
  · exact List.take_prefix _ _

theorem sliceTo_of_nonneg {α : Type} (l : List α) (limit : Int) (h : 0 ≤ limit) :
    sliceTo l limit = l.take limit.toNat := by
  unfold sliceTo
  rw [if_neg (by omega)]

/-- The result of `searchMovies` on a loaded catalog, step by step. -/
theorem searchCatalog_eq (list : List Movie) (query : Str) (limit : Int) :
    searchCatalog list query limit =
      (sliceTo
        (((list.map fun m => (m, scoreIn query m)).insertionSort byScoreDesc).filter
          fun s => decide (0 < s.2)) limit).map toResult := rfl

theorem scoredCatalog_eq (list : List Movie) (query : Str) :
    scoredCatalog list query = (list.map fun m => (m, scoreIn query m)).map toResult := by
  unfold scoredCatalog
  rw [List.map_map]
  rfl

/-- The sort is stable: the entries of one score keep their order. -/
theorem filter_insertionSort_eq (l : List (Movie × Nat)) (s : Nat) :
    (l.insertionSort byScoreDesc).filter (fun x => decide (x.2 = s)) =
      l.filter fun x => decide (x.2 = s) := by
  have hpw : (l.filter fun x => decide (x.2 = s)).Pairwise byScoreDesc := by
    rw [List.pairwise_iff_forall_sublist]
    intro a b hab
    have ha : a ∈ l.filter fun x => decide (x.2 = s) := hab.subset (by simp)
    have hb : b ∈ l.filter fun x => decide (x.2 = s) := hab.subset (by simp)
    have ha' : a.2 = s := by simpa using (List.mem_filter.1 ha).2
    have hb' : b.2 = s := by simpa using (List.mem_filter.1 hb).2
    show b.2 ≤ a.2
    omega
  have hsub : List.Sublist (l.filter fun x => decide (x.2 = s))
      (l.insertionSort byScoreDesc) :=
    List.sublist_insertionSort hpw (List.filter_sublist l)
  have hsub2 := hsub.filter fun x => decide (x.2 = s)
  rw [List.filter_filter] at hsub2
  simp only [Bool.and_self] at hsub2
  have hlen := ((List.perm_insertionSort byScoreDesc l).filter
    fun x => decide (x.2 = s)).length_eq
  exact (hsub2.eq_of_length hlen.symm).symm

/-- The number of results for a limit that is not negative. -/
theorem length_searchCatalog (list : List Movie) (query : Str) (limit : Int) (h : 0 ≤ limit) :
    (searchCatalog list query limit).length =
      min limit.toNat (list.filter fun m => decide (0 < scoreIn query m)).length := by
  rw [searchCatalog_eq, List.length_map, sliceTo_of_nonneg _ _ h, List.length_take,
    ((List.perm_insertionSort byScoreDesc _).filter _).length_eq, List.filter_map,
    List.length_map]
  rfl

/-- C17. The result order is a stable descending sort: for every query,
catalog and limit the scores of the returned results do not increase, and for
each score the returned results with that score are, in their order, the first
of the catalog entries with that score in catalog order. -/
theorem searchCatalog_sorted_stable (list : List Movie) (query : Str) (limit : Int) :
    ((searchCatalog list query limit).map fun r => r.score).Sorted (· ≥ ·) ∧
      ∀ s : Nat, (searchCatalog list query limit).filter (fun r => decide (r.score = s)) <+:
        (scoredCatalog list query).filter fun r => decide (r.score = s) := by
  have hsorted : (((list.map fun m => (m, scoreIn query m)).insertionSort byScoreDesc).filter
      fun s => decide (0 < s.2)).Pairwise byScoreDesc :=
    List.Pairwise.filter _ (List.sorted_insertionSort byScoreDesc _)
  constructor
  · rw [searchCatalog_eq, List.map_map]
    show List.Pairwise _ _
    rw [List.pairwise_map]
    exact List.Pairwise.sublist (sliceTo_starts _ limit).sublist hsorted
  · intro s
    rw [searchCatalog_eq, scoredCatalog_eq, List.filter_map, List.filter_map]
    apply List.IsPrefix.map
    have h1 := List.IsPrefix.filter ((fun r => decide (r.score = s)) ∘ toResult)
      (sliceTo_starts (((list.map fun m => (m, scoreIn query m)).insertionSort
        byScoreDesc).filter fun s => decide (0 < s.2)) limit)
    refine h1.trans ?_
    have hcomp : ((fun r : Result => decide (r.score = s)) ∘ toResult) =
        fun x : Movie × Nat => decide (x.2 = s) := rfl
    rw [hcomp, List.filter_filter]
    have hswap : ∀ l : List (Movie × Nat),
        l.filter (fun a => decide (a.2 = s) && decide (0 < a.2)) =
          (l.filter fun a => decide (a.2 = s)).filter fun a => decide (0 < a.2) := by
      intro l
      rw [List.filter_filter]
      congr 1
      funext a
      exact Bool.and_comm _ _
    rw [hswap, filter_insertionSort_eq]
    by_cases hs : 0 < s
    · rw [List.filter_eq_self.2]
      intro a ha
      have : a.2 = s := by simpa using (List.mem_filter.1 ha).2
      simpa [this] using hs
    · have : ((list.map fun m => (m, scoreIn query m)).filter fun a => decide (a.2 = s)).filter
          (fun a => decide (0 < a.2)) = [] := by
        rw [List.filter_eq_nil_iff]
        intro a ha
        have : a.2 = s := by simpa using (List.mem_filter.1 ha).2
        simp only [decide_eq_true_eq]
        omega
      rw [this]
      exact List.nil_prefix

/-- C18. The result cap and the exclusion of score 0: for every query, catalog
and limit that is not negative, `searchMovies` returns exactly
`min(limit, k)` results, `k` being the number of catalog entries with a
positive score; no returned result has score 0; the returned results and the
positive-score entries left out make up the positive-score entries of the
catalog, and no entry left out has a higher score than a returned one; an
absent limit is the limit 8. -/
theorem searchCatalog_cap (list : List Movie) (query : Str) (limit : Int) (h : 0 ≤ limit) :
    (searchCatalog list query limit).length =
        min limit.toNat (list.filter fun m => decide (0 < scoreIn query m)).length ∧
      (∀ r ∈ searchCatalog list query limit, 0 < r.score) ∧
      (∃ rest : List Result,
        List.Perm (searchCatalog list query limit ++ rest)
            ((scoredCatalog list query).filter fun r => decide (0 < r.score)) ∧
          ∀ r ∈ searchCatalog list query limit, ∀ x ∈ rest, x.score ≤ r.score) ∧
      ∀ (moviesCache : Option (List Movie)) (file : Option Str) (q : Option Str),
        searchMovies moviesCache file q none = searchMovies moviesCache file q (some 8) := by
  have hsorted : (((list.map fun m => (m, scoreIn query m)).insertionSort byScoreDesc).filter
      fun s => decide (0 < s.2)).Sorted byScoreDesc :=
    List.Pairwise.filter _ (List.sorted_insertionSort byScoreDesc _)
  refine ⟨length_searchCatalog list query limit h, ?_, ?_, fun _ _ _ => rfl⟩
  · intro r hr
    rw [searchCatalog_eq] at hr
    obtain ⟨a, ha, rfl⟩ := List.mem_map.1 hr
    have := (List.mem_filter.1 ((sliceTo_starts _ limit).subset ha)).2
    simpa using this
  · refine ⟨((((list.map fun m => (m, scoreIn query m)).insertionSort byScoreDesc).filter
      fun s => decide (0 < s.2)).drop limit.toNat).map toResult, ?_, ?_⟩
    · rw [searchCatalog_eq, sliceTo_of_nonneg _ _ h, ← List.map_append, List.take_append_drop,
        scoredCatalog_eq, List.filter_map]
      exact (((List.perm_insertionSort byScoreDesc _).filter _).map toResult)
    · intro r hr x hx
      rw [searchCatalog_eq, sliceTo_of_nonneg _ _ h] at hr
      obtain ⟨a, ha, rfl⟩ := List.mem_map.1 hr
      obtain ⟨b, hb, rfl⟩ := List.mem_map.1 hx
      exact hsorted.rel_of_mem_take_of_mem_drop ha hb

/-- The cap theorem at a catalog of five entries that all match the query
`title`, with the limit 2: two results, the highest scores first. -/
theorem searchCatalog_cap_witness :
    (0 : Int) ≤ 2 ∧
      (searchCatalog
          (parseMoviesFile (units "1. Big Title\n2. Title\n3. A Title\n4. Title Two\n5. Title X"))
          (units "title") 2).map (fun r => (r.index, r.score)) = [(2, 100), (1, 90)] ∧
      (searchCatalog
          (parseMoviesFile (units "1. Big Title\n2. Title\n3. A Title\n4. Title Two\n5. Title X"))
          (units "title") 2).length =
        min (2 : Int).toNat
          ((parseMoviesFile
            (units "1. Big Title\n2. Title\n3. A Title\n4. Title Two\n5. Title X")).filter
              fun m => decide (0 < scoreIn (units "title") m)).length :=
  ⟨by decide, by decide,
    (searchCatalog_cap
      (parseMoviesFile (units "1. Big Title\n2. Title\n3. A Title\n4. Title Two\n5. Title X"))
      (units "title") 2 (by decide)).1⟩

/-- The score for a query whose normalized form is empty. -/
theorem scoreIn_of_normalize_nil (query : Str) (m : Movie) (hq : normalize (some query) = []) :
    scoreIn query m = if m.normalized = [] then 100 else 90 := by
  unfold scoreIn
  rw [hq]
  by_cases ht : m.normalized = []
  · simp [scoreOf, ht]
  · have hinc : includes [] m.normalized = true := (includes_iff _ _).2 List.nil_infix
    simp [scoreOf, ht, hinc]

/-- C20. A query whose normalized form is empty matches everything: each entry
scores 100 when its normalized title is empty and 90 otherwise, so for a limit
that is not negative `searchMovies` returns `min(limit, n)` results for a
catalog of `n` entries. -/
theorem searchCatalog_empty_normal_form (list : List Movie) (query : Str) (limit : Int)
    (hq : normalize (some query) = []) (h : 0 ≤ limit) :
    (∀ m : Movie, scoreIn query m = if m.normalized = [] then 100 else 90) ∧
      (searchCatalog list query limit).length = min limit.toNat list.length := by
  refine ⟨fun m => scoreIn_of_normalize_nil query m hq, ?_⟩
  rw [length_searchCatalog list query limit h, List.filter_eq_self.2]
  intro m _
  rw [scoreIn_of_normalize_nil query m hq]
  split_ifs <;> decide

/-- The empty-normal-form theorem at the query `?!`, which is not blank, with
the limit 2 and a catalog of three entries: two results of score 90. -/
theorem searchCatalog_empty_normal_form_witness :
    trim (units "?!") ≠ [] ∧ normalize (some (units "?!")) = [] ∧ (0 : Int) ≤ 2 ∧
      (searchMovies none (some (units "1. Alpha\n2. Beta\n3. Gamma")) (some (units "?!"))
          (some 2)).1.toOption.map (fun rs => rs.map fun r => (r.index, r.score)) =
        some [(1, 90), (2, 90)] ∧
      (searchCatalog (parseMoviesFile (units "1. Alpha\n2. Beta\n3. Gamma")) (units "?!") 2).length =
        min (2 : Int).toNat (parseMoviesFile (units "1. Alpha\n2. Beta\n3. Gamma")).length :=
  ⟨by decide, by decide, by decide, by decide,
    (searchCatalog_empty_normal_form (parseMoviesFile (units "1. Alpha\n2. Beta\n3. Gamma"))
      (units "?!") 2 (by decide) (by decide)).2⟩

/-! ## The score against the reference definition -/

theorem tokens_ne_nil_of_head (q : Str) (hne : q ≠ []) (hhead : q.head? ≠ some 32) :
    tokens q ≠ [] := by
  cases q with
  | nil => exact absurd rfl hne
  | cons c cs =>
    have hc : c ≠ 32 := by
      intro h; apply hhead; rw [h]; rfl
    unfold tokens splitSpaces
    cases splitSpaces cs with
    | nil => simp
    | cons l ls => simp [hc]

/-- Where the rounding of the source gives the rounding of the
specification, the score of the source is the score of the specification. -/
theorem scoreOf_eq_referenceScore (q t : Str) (hq : Canonical q)
    (hround : baseScore (countMatched (tokens q) (tokens t)) (tokens q).length =
      (100 * countMatched (tokens q) (tokens t) + max (tokens q).length 1) /
        (2 * max (tokens q).length 1)) :
    scoreOf q (tokens q) t = referenceScore q t := by
  unfold scoreOf referenceScore
  by_cases h1 : t = q
  · simp [h1]
  · by_cases h2 : q <:+: t
    · simp [h1, h2, (includes_iff q t).2 h2]
    · have hinc : includes q t = false := by
        rw [← includes_iff] at h2
        simpa using h2
      have hqne : q ≠ [] := by
        intro h0
        apply h2
        rw [h0]
        exact List.nil_infix
      have htok := tokens_ne_nil_of_head q hqne hq.2.1
      have hcount : countMatched (tokens q) (tokens t) =
          (tokens q).countP fun x => decide (x ∈ tokens t) := by
        rw [countMatched_eq_countP]
        congr 1
        funext x
        simp
      simp only [h1, h2, hinc, if_false, Bool.false_eq_true]
      rw [hround, hcount]
      obtain ⟨b, bs, hb⟩ := List.exists_cons_of_ne_nil htok
      rw [hb]
      cases hts : (tokens t).head? with
      | none => simp
      | some a =>
        by_cases hab : a = b
        · simp [hab]
        · simp [hab]

/-- Up to fifteen query tokens the rounding of the source is the rounding of
the specification. -/
theorem baseScore_small :
    ∀ n < 16, ∀ m ≤ n, baseScore m n = (100 * m + max n 1) / (2 * max n 1) := by
  decide

set_option maxRecDepth 100000 in
/-- C16, evaluated on the code.  For a normalized query of fewer than sixteen
tokens the score of the source is the score of the reference definition, and
against the title `Title One` the queries `title one`, `title` and `one title`
score 100, 90 and 50.  For the query of a hundred tokens of which twenty-nine
are tokens of the title `a`, the source scores 14 where the reference
definition scores 15: `(29 / 100) * 50` is `14.499999999999998` in double
arithmetic, which `Math.round` takes down. -/
theorem scoreOf_rounding_divergence :
    (∀ q t : Str, Canonical q → (tokens q).length < 16 →
        scoreOf q (tokens q) t = referenceScore q t) ∧
      scoreOf (normalize (some (units "title one")))
          (tokens (normalize (some (units "title one"))))
          (normalize (some (units "Title One"))) = 100 ∧
      scoreOf (normalize (some (units "title"))) (tokens (normalize (some (units "title"))))
          (normalize (some (units "Title One"))) = 90 ∧
      scoreOf (normalize (some (units "one title")))
          (tokens (normalize (some (units "one title"))))
          (normalize (some (units "Title One"))) = 50 ∧
      (tokens (normalize (some hundredTokenQuery))).length = 100 ∧
      countMatched (tokens (normalize (some hundredTokenQuery))) (tokens (units "a")) = 29 ∧
      scoreOf (normalize (some hundredTokenQuery)) (tokens (normalize (some hundredTokenQuery)))
          (units "a") = 14 ∧
      referenceScore (normalize (some hundredTokenQuery)) (units "a") = 15 ∧
      (searchCatalog (parseMoviesFile (units "1. a")) hundredTokenQuery 8).map
          (fun r => (r.index, r.score)) = [(1, 14)] := by
  refine ⟨?_, by decide, by decide, by decide, by decide, by decide, by decide, by decide,
    by decide⟩
  intro q t hq hlen
  exact scoreOf_eq_referenceScore q t hq
    (baseScore_small _ hlen _ (countMatched_le _ _))

end MovieApi
